import Mathlib

/-!
# Verification of the CNanoLog version-propagation engine

A shallow embedding of `scripts/update_version.py` and of `get_version` from
`conanfile.py`, together with theorems settling the specification claims.

Modelling conventions:
* File contents are `List Char` (the text as seen by Python's text-mode I/O;
  newline translation and byte encodings are outside the model, files are
  assumed LF-only).
* The filesystem is a record with one `Option (List Char)` field per artifact
  path touched by the engine (`none` = file absent).
* `re` patterns used by the script (`^\d+\.\d+\.\d+$`, `cnanolog/\d+\.\d+\.\d+`,
  `v\d+\.\d+\.\d+`) are embedded as deterministic maximal-munch matchers; for
  these patterns (digit runs separated by literal dots behind a literal
  prefix) greedy matching without backtracking coincides with Python `re`
  semantics.  `\d` is modelled as the ASCII digits.
* Python's `json` module is embedded by an executable serializer
  (`json.dump(data, f, indent=2)`) and recursive-descent parser
  (`json.load`); numbers are modelled as integers (float literals, `NaN`,
  `Infinity` and lone-surrogate escapes are outside the modelled fragment).
-/

set_option autoImplicit false

namespace CNanoLog

/-! ## Characters and Python string helpers -/

/-- ASCII digit test, the model of `\d` in the script's regular expressions. -/
def isDig (c : Char) : Bool := '0' ≤ c && c ≤ '9'

/-- The whitespace set stripped by Python's `str.strip()` (ASCII part). -/
def isPySpace (c : Char) : Bool :=
  c = ' ' || c = '\t' || c = '\n' || c = '\r' || c = '\x0b' || c = '\x0c'

/-- Python `str.strip()`: drop leading and trailing whitespace. -/
def pyStrip (s : List Char) : List Char :=
  ((s.dropWhile isPySpace).reverse.dropWhile isPySpace).reverse

/-! ## The version pattern `\d+\.\d+\.\d+`

`verStages k s` matches `k` nonempty digit runs separated by literal dots at
the start of `s`, greedily; it returns the matched characters and the rest.
For this pattern the greedy (maximal-munch) strategy is exactly Python `re`
behaviour, because after a maximal digit run the pattern next requires a
literal `'.'`, which is not a digit. -/

def verStages : Nat → List Char → Option (List Char × List Char)
  | 0, _ => none
  | 1, s =>
    let a := s.takeWhile isDig
    if a = [] then none else some (a, s.dropWhile isDig)
  | k + 2, s =>
    let a := s.takeWhile isDig
    if a = [] then none else
      match s.dropWhile isDig with
      | '.' :: s2 =>
        match verStages (k + 1) s2 with
        | some (m, r) => some (a ++ '.' :: m, r)
        | none => none
      | _ => none

/-- Model of `re.match(r'^\d+\.\d+\.\d+$', s)` (as a Boolean): the whole
string is three dot-separated nonempty digit runs.  (`$` also matches just
before a final newline in Python; `main` only applies this to stripped
strings, where the two readings agree, see `reMatchVer_strip`.) -/
def fullVer (s : List Char) : Bool :=
  match verStages 3 s with
  | some (_, r) => r = []
  | none => false

/-- Model of Python's `re.match(r'^\d+\.\d+\.\d+$', s) is not None`,
including the `$`-matches-before-final-newline rule. -/
def reMatchVer (s : List Char) : Bool :=
  fullVer s || (s ≠ [] && s.getLast? = some '\n' && fullVer s.dropLast)

/-- The specification's wording of the accepted language: three dot-separated
nonempty digit runs and nothing else. -/
def SpecVer (s : List Char) : Prop :=
  ∃ a b c : List Char,
    a ≠ [] ∧ b ≠ [] ∧ c ≠ [] ∧
    (∀ x ∈ a, isDig x) ∧ (∀ x ∈ b, isDig x) ∧ (∀ x ∈ c, isDig x) ∧
    s = a ++ '.' :: b ++ '.' :: c

/-- `true` iff the list is empty or starts with a non-digit: the shape of the
rest after a maximal digit munch. -/
def nodigHead : List Char → Bool
  | [] => true
  | c :: _ => !isDig c

/-- `VD k m`: `m` consists of exactly `k` nonempty digit runs separated by
literal dots — the language of `(\d+\.){k-1}\d+`. -/
def VD : Nat → List Char → Prop
  | 0, _ => False
  | 1, m => m ≠ [] ∧ ∀ x ∈ m, isDig x
  | k + 2, m => ∃ a m', a ≠ [] ∧ (∀ x ∈ a, isDig x) ∧ VD (k + 1) m' ∧
      m = a ++ '.' :: m'

/-! ## The artifact filesystem

One optional content per file path the engine touches; `none` = absent. -/

structure FS where
  version : Option (List Char)
  vcpkg : Option (List Char)
  portfile : Option (List Char)
  readme : Option (List Char)
  conanMd : Option (List Char)
  vcpkgMd : Option (List Char)
  deriving Repr, DecidableEq

/-- The per-artifact outcome taxonomy of the specification (§3). -/
inductive Outcome where
  | updated
  | skippedMissing
  | skippedAlreadyCorrect
  | noOpNoMatch
  deriving Repr, DecidableEq

/-- `update_version_file`: `Path("VERSION").write_text(new_version)` —
overwrites (or creates) the file with exactly the version text. -/
def update_version_file (v : List Char) (fs : FS) : FS × Outcome :=
  ({ fs with version := some v }, .updated)

/-- Fallback version of `get_version` in `conanfile.py`. -/
def fallbackVersion : List Char := "1.0.0".toList

/-- `get_version` from `conanfile.py`: `load` the VERSION file and `.strip()`
it; any `Exception` (in particular a missing file) yields `"1.0.0"`. -/
def get_version (versionFile : Option (List Char)) : List Char :=
  match versionFile with
  | some c => pyStrip c
  | none => fallbackVersion

/-! ## Line splitting: `content.split('\n')` and `'\n'.join(lines)` -/

def splitNl : List Char → List (List Char)
  | [] => [[]]
  | c :: cs =>
    if c = '\n' then [] :: splitNl cs
    else
      match splitNl cs with
      | [] => [[c]]
      | l :: ls => (c :: l) :: ls

def joinNl : List (List Char) → List Char
  | [] => []
  | [l] => l
  | l :: l' :: ls => l ++ '\n' :: joinNl (l' :: ls)

/-! ## `update_portfile_cmake` -/

/-- Python's `needle in haystack` substring test. -/
def hasSub (needle : List Char) : List Char → Bool
  | [] => needle.isPrefixOf []
  | c :: cs => needle.isPrefixOf (c :: cs) || hasSub needle cs

/-- The indirection-marker token searched for with `in` (substring test). -/
def marker : List Char := "REF v${VERSION}".toList

/-- `'REF v${VERSION}' in line`. -/
def markerIn (l : List Char) : Bool := hasSub marker l

/-- `line.strip().startswith('REF')`. -/
def dirStart (l : List Char) : Bool := "REF".toList.isPrefixOf (pyStrip l)

/-- The freshly formatted directive line `f'    REF v{new_version}'`. -/
def newRefLine (v : List Char) : List Char := "    REF v".toList ++ v

/-- Result of the `for`-loop over the lines: an early `return` (marker found,
nothing written) or a write of the final line list. -/
inductive PortAct where
  | skip
  | write (lines : List (List Char)) (out : Outcome)
  deriving Repr, DecidableEq

/-- The line scan of `update_portfile_cmake`: per line, the marker test runs
first; otherwise the first directive line is replaced and the loop breaks. -/
def portLoop (v : List Char) : List (List Char) → PortAct
  | [] => .write [] .noOpNoMatch
  | l :: ls =>
    if markerIn l then .skip
    else if dirStart l then .write (newRefLine v :: ls) .updated
    else
      match portLoop v ls with
      | .skip => .skip
      | .write ls' o => .write (l :: ls') o

def update_portfile_cmake (v : List Char) (fs : FS) : FS × Outcome :=
  match fs.portfile with
  | none => (fs, .skippedMissing)
  | some c =>
    match portLoop v (splitNl c) with
    | .skip => (fs, .skippedAlreadyCorrect)
    | .write ls o => ({ fs with portfile := some (joinNl ls) }, o)

/-! ## `update_documentation`: the `re.search` / `re.sub` machinery

Both configured patterns have the form `lit ++ \d+\.\d+\.\d+` for a literal
`lit`; for these, greedy maximal-munch matching without backtracking is
exactly Python `re` behaviour (after a maximal digit run the pattern demands
a literal `'.'`, which is not a digit, so no backtracking can succeed). -/

/-- Try to match `pre ++ \d+\.\d+\.\d+` at the start of `s`; on success
return `(matched, rest)`. -/
def matchPat (pre s : List Char) : Option (List Char × List Char) :=
  if pre.isPrefixOf s then
    match verStages 3 (s.drop pre.length) with
    | some (m, r) => some (pre ++ m, r)
    | none => none
  else none

def subGo (pre repl : List Char) : Nat → List Char → List Char
  | _, [] => []
  | 0, s => s
  | f + 1, c :: cs =>
    match matchPat pre (c :: cs) with
    | some (_, r) => repl ++ subGo pre repl f r
    | none => c :: subGo pre repl f cs

/-- `re.sub(pre + r'\d+\.\d+\.\d+', repl, s)`: leftmost non-overlapping
global replacement. -/
def subPat (pre repl s : List Char) : List Char := subGo pre repl s.length s

/-- `re.search(pre + r'\d+\.\d+\.\d+', s) is not None`. -/
def searchPat (pre : List Char) : List Char → Bool
  | [] => false
  | c :: cs => (matchPat pre (c :: cs)).isSome || searchPat pre cs

/-! ## The documentation rule tables and update loop -/

/-- Literal prefix of `r"cnanolog/\d+\.\d+\.\d+"`. -/
def pat1 : List Char := "cnanolog/".toList

/-- Literal prefix of `r"v\d+\.\d+\.\d+"`. -/
def pat2 : List Char := "v".toList

/-- Replacement `f"cnanolog/{new_version}"`. -/
def repl1 (v : List Char) : List Char := "cnanolog/".toList ++ v

/-- Replacement `f"v{new_version}"`. -/
def repl2 (v : List Char) : List Char := "v".toList ++ v

/-- The loop body over a file's `(pattern, replacement)` rules:
`if re.search(...): content = re.sub(...); modified = True`. -/
def docApply (rules : List (List Char × List Char)) (c : List Char) :
    List Char × Bool :=
  rules.foldl
    (fun acc rule =>
      if searchPat rule.1 acc.1 then (subPat rule.1 rule.2 acc.1, true) else acc)
    (c, false)

/-- Rule table for `README.md`. -/
def readmeRules (v : List Char) : List (List Char × List Char) :=
  [(pat1, repl1 v), (pat2, repl2 v)]

/-- Rule table for `CONAN.md`. -/
def conanRules (v : List Char) : List (List Char × List Char) :=
  [(pat1, repl1 v)]

/-- Rule table for `VCPKG.md`. -/
def vcpkgMdRules (v : List Char) : List (List Char × List Char) :=
  [(pat2, repl2 v)]

/-- Per-file behaviour of `update_documentation`: skip missing files; write
back only when `modified` was set. -/
def updateDoc (rules : List (List Char × List Char)) :
    Option (List Char) → Option (List Char) × Outcome
  | none => (none, .skippedMissing)
  | some c =>
    let r := docApply rules c
    if r.2 then (some r.1, .updated) else (some c, .noOpNoMatch)

def update_documentation (v : List Char) (fs : FS) :
    FS × (Outcome × Outcome × Outcome) :=
  let r1 := updateDoc (readmeRules v) fs.readme
  let r2 := updateDoc (conanRules v) fs.conanMd
  let r3 := updateDoc (vcpkgMdRules v) fs.vcpkgMd
  ({ fs with readme := r1.1, conanMd := r2.1, vcpkgMd := r3.1 },
   (r1.2, r2.2, r3.2))

/-! ## The JSON model: `json.load` and `json.dump(data, f, indent=2)`

Numbers are modelled as integers; float literals, `NaN`/`Infinity` and
lone-surrogate escapes lie outside the modelled fragment (the parser rejects
them).  Objects are ordered association lists; duplicate keys follow Python
dict-assignment semantics (last value wins, key keeps its first position). -/

inductive JVal where
  | null
  | bool (b : Bool)
  | num (n : Int)
  | str (s : List Char)
  | arr (xs : List JVal)
  | obj (fields : List (List Char × JVal))

instance : Inhabited JVal := ⟨JVal.null⟩

/-- `d[k]` lookup in the ordered field map. -/
def getKey (m : List (List Char × JVal)) (k : List Char) : Option JVal :=
  match m with
  | [] => none
  | (k', v) :: t => if k' = k then some v else getKey t k

/-- `d[k] = v`: Python dict assignment — overwrite in place, else append. -/
def setKey (m : List (List Char × JVal)) (k : List Char) (v : JVal) :
    List (List Char × JVal) :=
  match m with
  | [] => [(k, v)]
  | (k', v') :: t => if k' = k then (k', v) :: t else (k', v') :: setKey t k v

def spaces (n : Nat) : List Char := List.replicate n ' '

def digChar (d : Nat) : Char := Char.ofNat (48 + d)

def hexChar (d : Nat) : Char :=
  if d < 10 then Char.ofNat (48 + d) else Char.ofNat (87 + d)

def toHex4 (n : Nat) : List Char :=
  [hexChar (n / 4096 % 16), hexChar (n / 256 % 16),
   hexChar (n / 16 % 16), hexChar (n % 16)]

/-- `json.dump`'s ASCII string escaping (default `ensure_ascii=True`): the
short escapes, `\u00xx` for other control characters, raw ASCII in
`0x20..0x7e`, `\uxxxx` for other BMP characters and surrogate pairs beyond
(surrogate halves written with `/ 0x400` and `% 0x400`, the arithmetic form
of the `>> 10` / `& 0x3ff` in CPython). -/
def escChar (c : Char) : List Char :=
  if c = '"' then ['\\', '"']
  else if c = '\\' then ['\\', '\\']
  else if c = '\n' then ['\\', 'n']
  else if c = '\t' then ['\\', 't']
  else if c = '\r' then ['\\', 'r']
  else if c = '\x08' then ['\\', 'b']
  else if c = '\x0c' then ['\\', 'f']
  else if 0x20 ≤ c.toNat ∧ c.toNat ≤ 0x7e then [c]
  else if c.toNat < 0x10000 then '\\' :: 'u' :: toHex4 c.toNat
  else
    let u := c.toNat - 0x10000
    ('\\' :: 'u' :: toHex4 (0xD800 + u / 0x400)) ++
      ('\\' :: 'u' :: toHex4 (0xDC00 + u % 0x400))

def dumpStr (s : List Char) : List Char := '"' :: s.flatMap escChar ++ ['"']

/-- Little-endian decimal digits of `n` (empty for `0`). -/
def natDigitsRev (n : Nat) : List Char :=
  if h : n = 0 then [] else digChar (n % 10) :: natDigitsRev (n / 10)
  decreasing_by exact Nat.div_lt_self (Nat.pos_of_ne_zero h) (by norm_num)

/-- Decimal rendering of a natural number, `str(n)`. -/
def natStr (n : Nat) : List Char :=
  if n = 0 then ['0'] else (natDigitsRev n).reverse

/-- `str(n)` for Python ints. -/
def intStr : Int → List Char
  | .ofNat n => natStr n
  | .negSucc n => '-' :: natStr (n + 1)

mutual

/-- `json.dump(v, f, indent=2)` at nesting indent `ind` (the closing bracket
column); children are indented `ind + 2`, the key separator is `": "` and the
item separator `",\n"`. -/
def dumpVal : Nat → JVal → List Char
  | _, .null => ['n', 'u', 'l', 'l']
  | _, .bool true => ['t', 'r', 'u', 'e']
  | _, .bool false => ['f', 'a', 'l', 's', 'e']
  | _, .num n => intStr n
  | _, .str s => dumpStr s
  | _, .arr [] => ['[', ']']
  | ind, .arr (x :: xs) =>
    '[' :: '\n' :: (dumpArrItems (ind + 2) (x :: xs) ++
      '\n' :: (spaces ind ++ [']']))
  | _, .obj [] => ['{', '}']
  | ind, .obj (f :: fs) =>
    '{' :: '\n' :: (dumpObjItems (ind + 2) (f :: fs) ++
      '\n' :: (spaces ind ++ ['}']))

def dumpArrItems : Nat → List JVal → List Char
  | _, [] => []
  | ind, [x] => spaces ind ++ dumpVal ind x
  | ind, x :: y :: xs =>
    spaces ind ++ dumpVal ind x ++ ',' :: '\n' :: dumpArrItems ind (y :: xs)

def dumpObjItems : Nat → List (List Char × JVal) → List Char
  | _, [] => []
  | ind, [(k, v)] => spaces ind ++ (dumpStr k ++ ':' :: ' ' :: dumpVal ind v)
  | ind, (k, v) :: g :: fs =>
    spaces ind ++ (dumpStr k ++ ':' :: ' ' :: dumpVal ind v) ++
      ',' :: '\n' :: dumpObjItems ind (g :: fs)

end

/-- Top-level serialization, `json.dump(data, f, indent=2)`. -/
def dumpJson (v : JVal) : List Char := dumpVal 0 v

/-! ### The parser (`json.load`) -/

/-- JSON inter-token whitespace. -/
def isJsonWs (c : Char) : Bool := c = ' ' || c = '\t' || c = '\n' || c = '\r'

def skipWs (s : List Char) : List Char := s.dropWhile isJsonWs

def hexVal (c : Char) : Option Nat :=
  if '0' ≤ c ∧ c ≤ '9' then some (c.toNat - 48)
  else if 'a' ≤ c ∧ c ≤ 'f' then some (c.toNat - 87)
  else if 'A' ≤ c ∧ c ≤ 'F' then some (c.toNat - 55)
  else none

def parseHex4 : List Char → Option (Nat × List Char)
  | a :: b :: c :: d :: r =>
    match hexVal a, hexVal b, hexVal c, hexVal d with
    | some x, some y, some z, some w => some (((x * 16 + y) * 16 + z) * 16 + w, r)
    | _, _, _, _ => none
  | _ => none

/-- String body after the opening quote; returns the decoded characters and
the rest after the closing quote.  Strict mode: raw control characters are
rejected; surrogate-pair escapes are combined (lone surrogates are outside
the modelled fragment). -/
def parseStrBody : Nat → List Char → Option (List Char × List Char)
  | 0, _ => none
  | _, [] => none
  | f + 1, c :: cs =>
    if c = '"' then some ([], cs)
    else if c = '\\' then
      match cs with
      | [] => none
      | e :: cs' =>
        if e = 'u' then
          match parseHex4 cs' with
          | none => none
          | some (n, r1) =>
            if 0xD800 ≤ n ∧ n ≤ 0xDBFF then
              match r1 with
              | '\\' :: 'u' :: r2 =>
                match parseHex4 r2 with
                | some (m, r3) =>
                  if 0xDC00 ≤ m ∧ m ≤ 0xDFFF then
                    (parseStrBody f r3).map fun p =>
                      (Char.ofNat (0x10000 + (n - 0xD800) * 0x400 + (m - 0xDC00)) :: p.1, p.2)
                  else none
                | none => none
              | _ => none
            else if 0xDC00 ≤ n ∧ n ≤ 0xDFFF then none
            else (parseStrBody f r1).map fun p => (Char.ofNat n :: p.1, p.2)
        else
          match (if e = '"' then some '"'
                 else if e = '\\' then some '\\'
                 else if e = '/' then some '/'
                 else if e = 'b' then some '\x08'
                 else if e = 'f' then some '\x0c'
                 else if e = 'n' then some '\n'
                 else if e = 'r' then some '\r'
                 else if e = 't' then some '\t'
                 else none) with
          | some d => (parseStrBody f cs').map fun p => (d :: p.1, p.2)
          | none => none
    else if c.toNat < 0x20 then none
    else (parseStrBody f cs).map fun p => (c :: p.1, p.2)

def parseString (s : List Char) : Option (List Char × List Char) :=
  parseStrBody s.length s

/-- Digit run to a number, most significant first. -/
def digitsToNat (acc : Nat) : List Char → Nat
  | [] => acc
  | c :: cs => digitsToNat (acc * 10 + (c.toNat - 48)) cs

/-- JSON natural-number token: `0` or a nonzero digit followed by a maximal
digit run (a leading zero ends the token at once, as the JSON grammar does).
-/
def parseNatTok : List Char → Option (Nat × List Char)
  | [] => none
  | c :: r =>
    if c = '0' then some (0, r)
    else if isDig c then
      some (digitsToNat 0 ((c :: r).takeWhile isDig), (c :: r).dropWhile isDig)
    else none

/-- Reject the tokens the integer model does not cover (float literals). -/
def intGuard (rest : List Char) : Bool :=
  match rest with
  | c :: _ => !(c = '.' || c = 'e' || c = 'E')
  | [] => true

def parseNum (s : List Char) : Option (Int × List Char) :=
  match s with
  | '-' :: r =>
    match parseNatTok r with
    | some (n, rest) => if intGuard rest then some (-(n : Int), rest) else none
    | none => none
  | _ =>
    match parseNatTok s with
    | some (n, rest) => if intGuard rest then some ((n : Int), rest) else none
    | none => none

mutual

def parseVal : Nat → List Char → Option (JVal × List Char)
  | 0, _ => none
  | f + 1, s0 =>
    match skipWs s0 with
    | [] => none
    | c :: r =>
      if c = '{' then
        match skipWs r with
        | [] => (parseObjItems f [] r).map fun p => (.obj p.1, p.2)
        | c2 :: r2 =>
          if c2 = '}' then some (.obj [], r2)
          else (parseObjItems f [] r).map fun p => (.obj p.1, p.2)
      else if c = '[' then
        match skipWs r with
        | [] => (parseArrItems f [] r).map fun p => (.arr p.1, p.2)
        | c2 :: r2 =>
          if c2 = ']' then some (.arr [], r2)
          else (parseArrItems f [] r).map fun p => (.arr p.1, p.2)
      else if c = '"' then (parseString r).map fun p => (.str p.1, p.2)
      else if c = 't' then
        if ['r', 'u', 'e'].isPrefixOf r then some (.bool true, r.drop 3) else none
      else if c = 'f' then
        if ['a', 'l', 's', 'e'].isPrefixOf r then some (.bool false, r.drop 4) else none
      else if c = 'n' then
        if ['u', 'l', 'l'].isPrefixOf r then some (.null, r.drop 3) else none
      else if c = '-' || isDig c then
        (parseNum (c :: r)).map fun p => (.num p.1, p.2)
      else none

def parseObjItems (f : Nat) (acc : List (List Char × JVal)) (s : List Char) :
    Option (List (List Char × JVal) × List Char) :=
  match f with
  | 0 => none
  | f + 1 =>
    match skipWs s with
    | [] => none
    | c :: r =>
      if c = '"' then
        match parseString r with
        | none => none
        | some (k, r1) =>
          match skipWs r1 with
          | [] => none
          | c2 :: r2 =>
            if c2 = ':' then
              match parseVal f r2 with
              | none => none
              | some (v, r3) =>
                match skipWs r3 with
                | [] => none
                | c3 :: r4 =>
                  if c3 = ',' then parseObjItems f (setKey acc k v) r4
                  else if c3 = '}' then some (setKey acc k v, r4)
                  else none
            else none
      else none

def parseArrItems (f : Nat) (acc : List JVal) (s : List Char) :
    Option (List JVal × List Char) :=
  match f with
  | 0 => none
  | f + 1 =>
    match parseVal f s with
    | none => none
    | some (v, r) =>
      match skipWs r with
      | [] => none
      | c :: r2 =>
        if c = ',' then parseArrItems f (acc ++ [v]) r2
        else if c = ']' then some (acc ++ [v], r2)
        else none

end

/-- `json.load(f)`: parse one value, then only whitespace may remain. -/
def parseJson (s : List Char) : Option JVal :=
  match parseVal (s.length + 1) s with
  | some (v, rest) => if skipWs rest = [] then some v else none
  | none => none

/-! ## `update_vcpkg_json` and the orchestrator `main` -/

def verKey : List Char := "version-string".toList

/-- `update_vcpkg_json`: skip a missing file; a decode failure — or the
`TypeError` of item-assignment on a non-dict document — propagates as an
uncaught exception (`Except.error`). -/
def update_vcpkg_json (v : List Char) (fs : FS) : Except Unit (FS × Outcome) :=
  match fs.vcpkg with
  | none => .ok (fs, .skippedMissing)
  | some c =>
    match parseJson c with
    | none => .error ()
    | some (.obj m) =>
      .ok ({ fs with
              vcpkg := some (dumpJson (.obj (setKey m verKey (.str v))) ++ ['\n']) },
           .updated)
    | some _ => .error ()

/-- The full contract of one successful manifest update for document `m`
and version `v`: outcome `updated`; the written text is the fixed 2-space
serialization of the updated mapping plus one newline; it parses back to that
mapping; the version field holds exactly `v`; every other field keeps its
value; key order is preserved (the key is appended only when new); and the
text ends in exactly one trailing newline. -/
def manifestOK (v : List Char) (m : List (List Char × JVal)) (fs : FS) : Prop :=
  ∃ fs', update_vcpkg_json v fs = .ok (fs', .updated) ∧
    ∃ w, fs'.vcpkg = some w ∧
      w = dumpJson (.obj (setKey m verKey (.str v))) ++ ['\n'] ∧
      parseJson w = some (.obj (setKey m verKey (.str v))) ∧
      getKey (setKey m verKey (.str v)) verKey = some (.str v) ∧
      (∀ k, k ≠ verKey → getKey (setKey m verKey (.str v)) k = getKey m k) ∧
      ((setKey m verKey (.str v)).map Prod.fst =
        if verKey ∈ m.map Prod.fst then m.map Prod.fst
        else m.map Prod.fst ++ [verKey]) ∧
      ∃ Y ch, ch ≠ '\n' ∧ w = (Y ++ [ch]) ++ ['\n']

/-- Process-level result of one invocation. -/
inductive RunResult where
  | usage
  | crashed
  | ok
  deriving Repr, DecidableEq

def exitCode : RunResult → Nat
  | .usage => 1
  | .crashed => 1
  | .ok => 0

/-- `main`: argc check, strip, validate, then the fixed updater sequence;
an exception from the manifest updater aborts the remaining updaters. -/
def main (argv : List (List Char)) (fs : FS) : FS × RunResult :=
  if argv.length ≠ 2 then (fs, .usage)
  else
    let v := pyStrip (argv.getD 1 [])
    if ¬ reMatchVer v then (fs, .usage)
    else
      let r1 := update_version_file v fs
      match update_vcpkg_json v r1.1 with
      | .error _ => (r1.1, .crashed)
      | .ok r2 =>
        let r3 := update_portfile_cmake v r2.1
        let r4 := update_documentation v r3.1
        (r4.1, .ok)

/-- The step function of the documentation rule fold. -/
def docStep (acc : List Char × Bool) (rule : List Char × List Char) :
    List Char × Bool :=
  if searchPat rule.1 acc.1 then (subPat rule.1 rule.2 acc.1, true) else acc

/-- A filesystem with every artifact absent, used to instantiate theorems. -/
def emptyFS : FS :=
  { version := none, vcpkg := none, portfile := none,
    readme := none, conanMd := none, vcpkgMd := none }

/-- The portfile content of the C2 counterexample: a directive line comes
before the marker line. -/
def cex2FS : FS :=
  { emptyFS with portfile := some "REF v1.0.0\nREF v${VERSION}".toList }

/-! ## Serializer/parser roundtrip, part 2: numbers -/

/-- The characters that may legitimately follow a dumped value: a separator,
newline, or closing bracket.  None is a digit, dot, or exponent letter, so
the number parser never over-consumes into them. -/
def valStop : List Char → Bool
  | [] => true
  | c :: _ => c = ',' || c = '\n' || c = ']' || c = '}'

/-! ## Serializer/parser roundtrip, part 3: values -/

mutual

/-- Nested well-formedness: every object (at any depth) has distinct keys.
The parser only ever produces such values. -/
def WFJ : JVal → Prop
  | .arr xs => WFL xs
  | .obj m => (m.map Prod.fst).Nodup ∧ WFM m
  | _ => True

/-- Well-formedness of array elements. -/
def WFL : List JVal → Prop
  | [] => True
  | x :: xs => WFJ x ∧ WFL xs

/-- Well-formedness of object fields. -/
def WFM : List (List Char × JVal) → Prop
  | [] => True
  | p :: m => WFJ p.2 ∧ WFM m

end

/-- `NoBad pre V s`: every match of the pattern anywhere in `s` matches
exactly the canonical replacement text, so substitution cannot change `s`. -/
def NoBad (pre V s : List Char) : Prop :=
  ∀ y m r, y <:+ s → matchPat pre y = some (m, r) → m = pre ++ V

/-! ## Theorems -/

theorem takeWhile_append_of_all {p : Char → Bool} {xs ys : List Char}
    (h : ∀ x ∈ xs, p x) : (xs ++ ys).takeWhile p = xs ++ ys.takeWhile p := by
  induction xs with
  | nil => simp
  | cons c cs ih =>
    simp only [List.cons_append, List.takeWhile_cons]
    rw [h c (by simp), ih fun x hx => h x (by simp [hx])]
    simp

theorem dropWhile_append_of_all {p : Char → Bool} {xs ys : List Char}
    (h : ∀ x ∈ xs, p x) : (xs ++ ys).dropWhile p = ys.dropWhile p := by
  induction xs with
  | nil => simp
  | cons c cs ih =>
    simp only [List.cons_append, List.dropWhile_cons]
    rw [h c (by simp), ih fun x hx => h x (by simp [hx])]
    simp

theorem takeWhile_all {p : Char → Bool} {xs : List Char}
    (h : ∀ x ∈ xs, p x) : xs.takeWhile p = xs := by
  have := @takeWhile_append_of_all p xs [] h
  simpa using this

theorem dropWhile_all {p : Char → Bool} {xs : List Char}
    (h : ∀ x ∈ xs, p x) : xs.dropWhile p = [] := by
  have := @dropWhile_append_of_all p xs [] h
  simpa using this

theorem all_takeWhile {p : Char → Bool} (xs : List Char) :
    ∀ x ∈ xs.takeWhile p, p x := by
  intro x hx
  exact List.mem_takeWhile_imp hx

theorem nodigHead_dropWhile (xs : List Char) :
    nodigHead (xs.dropWhile isDig) = true := by
  induction xs with
  | nil => simp [nodigHead]
  | cons c cs ih =>
    simp only [List.dropWhile_cons]
    by_cases h : isDig c
    · simpa [h] using ih
    · simp [h, nodigHead]

theorem takeWhile_dropWhile_append (p : Char → Bool) (xs : List Char) :
    xs.takeWhile p ++ xs.dropWhile p = xs := List.takeWhile_append_dropWhile p xs

/-- Soundness of the staged matcher: a successful match splits the input and
the matched part has the `VD` shape, with a non-digit following. -/
theorem verStages_sound : ∀ k s m r, verStages (k + 1) s = some (m, r) →
    s = m ++ r ∧ nodigHead r = true ∧ VD (k + 1) m := by
  intro k
  induction k with
  | zero =>
    intro s m r h
    simp only [verStages] at h
    split at h
    · exact absurd h (by simp)
    · rename_i hne
      obtain ⟨hm, hr⟩ := Prod.mk.injEq .. ▸ Option.some.injEq .. ▸ h
      refine ⟨?_, ?_, ?_⟩
      · rw [← hm, ← hr]; exact (takeWhile_dropWhile_append isDig s).symm
      · rw [← hr]; exact nodigHead_dropWhile s
      · exact ⟨hm ▸ hne, hm ▸ all_takeWhile s⟩
  | succ k ih =>
    intro s m r h
    simp only [verStages] at h
    split at h
    · exact absurd h (by simp)
    · rename_i hne
      split at h
      · rename_i s2 hdrop
        split at h
        · rename_i m' r' hrec
          obtain ⟨hm, hr⟩ := Prod.mk.injEq .. ▸ Option.some.injEq .. ▸ h
          obtain ⟨hs2, hr', hvd⟩ := ih s2 m' r' hrec
          refine ⟨?_, hr ▸ hr', ?_⟩
          · have := takeWhile_dropWhile_append isDig s
            rw [← this, hdrop, hs2, ← hm, hr]
            simp
          · exact ⟨s.takeWhile isDig, m', hne, all_takeWhile s, hvd, hm.symm⟩
        · exact absurd h (by simp)
      · exact absurd h (by simp)

/-- Completeness: on an input of shape `m ++ e` with `m` a `VD`-word and a
non-digit (or nothing) next, the matcher finds exactly `m`. -/
theorem verStages_complete : ∀ k m e, VD (k + 1) m → nodigHead e = true →
    verStages (k + 1) (m ++ e) = some (m, e) := by
  intro k
  induction k with
  | zero =>
    intro m e hvd he
    obtain ⟨hne, hdig⟩ := hvd
    simp only [verStages]
    rw [takeWhile_append_of_all hdig, dropWhile_append_of_all hdig]
    have ht : e.takeWhile isDig = [] := by
      cases e with
      | nil => simp
      | cons c cs =>
        simp only [nodigHead, Bool.not_eq_true'] at he
        simp [List.takeWhile_cons, he]
    have hd : e.dropWhile isDig = e := by
      cases e with
      | nil => simp
      | cons c cs =>
        simp only [nodigHead, Bool.not_eq_true'] at he
        simp [List.dropWhile_cons, he]
    rw [ht, hd]
    simp [hne]
  | succ k ih =>
    intro m e hvd he
    obtain ⟨a, m', hne, hdig, hvd', hm⟩ := hvd
    subst hm
    simp only [verStages]
    have h1 : (a ++ '.' :: m' ++ e).takeWhile isDig = a := by
      rw [List.append_assoc, takeWhile_append_of_all hdig]
      simp [List.takeWhile_cons, isDig]
    have h2 : (a ++ '.' :: m' ++ e).dropWhile isDig = '.' :: (m' ++ e) := by
      rw [List.append_assoc, dropWhile_append_of_all hdig]
      simp [List.dropWhile_cons, isDig]
    rw [h1, h2]
    simp [hne, ih m' e hvd' he]

theorem fullVer_iff_SpecVer (s : List Char) : fullVer s = true ↔ SpecVer s := by
  constructor
  · intro h
    simp only [fullVer] at h
    split at h
    · rename_i m r hm
      have hr : r = [] := by simpa using h
      obtain ⟨hs, _, hvd⟩ := verStages_sound 2 s m r hm
      obtain ⟨a, m', ha, hda, hvd', hme⟩ := hvd
      obtain ⟨b, c, hb, hdb, hvd'', hm'e⟩ := hvd'
      obtain ⟨hc, hdc⟩ := hvd''
      exact ⟨a, b, c, ha, hb, hc, hda, hdb, hdc, by
        rw [hs, hr, hme, hm'e]; simp⟩
    · exact absurd h (by simp)
  · rintro ⟨a, b, c, ha, hb, hc, hda, hdb, hdc, hs⟩
    have hvd : VD 3 (a ++ '.' :: b ++ '.' :: c) :=
      ⟨a, b ++ '.' :: c, ha, hda, ⟨b, c, hb, hdb, ⟨hc, hdc⟩, rfl⟩, by simp⟩
    have := verStages_complete 2 (a ++ '.' :: b ++ '.' :: c) [] hvd (by simp [nodigHead])
    simp only [List.append_nil] at this
    have h3 : verStages 3 s = some (s, []) := by
      rw [hs]
      simpa [List.append_assoc] using this
    simp [fullVer, h3]

theorem pyStrip_eq_rdropWhile (s : List Char) :
    pyStrip s = (s.dropWhile isPySpace).rdropWhile isPySpace := rfl

theorem head_dropWhile_not (p : Char → Bool) : ∀ (l : List Char) (c : Char),
    (l.dropWhile p).head? = some c → p c = false := by
  intro l
  induction l with
  | nil => intro c h; simp at h
  | cons a t ih =>
    intro c h
    by_cases hp : p a
    · rw [List.dropWhile_cons, if_pos (by simp [hp])] at h
      exact ih c h
    · rw [List.dropWhile_cons, if_neg (by simp [hp])] at h
      simp only [List.head?_cons, Option.some.injEq] at h
      rw [← h]
      simpa using hp

/-- A stripped string does not end in whitespace. -/
theorem pyStrip_getLast_not_space (s : List Char) (c : Char)
    (h : (pyStrip s).getLast? = some c) : isPySpace c = false := by
  rw [pyStrip_eq_rdropWhile] at h
  have hne : (s.dropWhile isPySpace).rdropWhile isPySpace ≠ [] := by
    intro hnil; rw [hnil] at h; simp at h
  have hlast := @List.rdropWhile_last_not Char isPySpace (s.dropWhile isPySpace) hne
  rw [List.getLast?_eq_getLast _ hne, Option.some.injEq] at h
  rw [← h]
  simpa using hlast

/-- A stripped string does not start with whitespace. -/
theorem pyStrip_head_not_space (s : List Char) (c : Char)
    (h : (pyStrip s).head? = some c) : isPySpace c = false := by
  rw [pyStrip_eq_rdropWhile] at h
  obtain ⟨t, ht⟩ := @List.rdropWhile_prefix Char isPySpace (s.dropWhile isPySpace)
  have hhead : (s.dropWhile isPySpace).head? = some c := by
    rw [← ht]
    cases hx : (s.dropWhile isPySpace).rdropWhile isPySpace with
    | nil => rw [hx] at h; simp at h
    | cons a l => rw [hx] at h; simpa using h
  exact head_dropWhile_not isPySpace s c hhead

/-- On stripped input (no trailing newline), `re.match(r'^...$')` is plain
full-match. -/
theorem reMatchVer_strip (s : List Char) :
    reMatchVer (pyStrip s) = fullVer (pyStrip s) := by
  simp only [reMatchVer, Bool.or_eq_true]
  cases h : (pyStrip s).getLast? with
  | none => simp [reMatchVer, h]
  | some c =>
    have := pyStrip_getLast_not_space s c h
    have hcn : c ≠ '\n' := by
      intro hc; rw [hc] at this; simp [isPySpace] at this
    simp [reMatchVer, h, hcn]

/-- Every accepted version string consists of digits and dots only. -/
theorem fullVer_chars (s : List Char) (h : fullVer s = true) :
    ∀ x ∈ s, isDig x = true ∨ x = '.' := by
  rw [fullVer_iff_SpecVer] at h
  obtain ⟨a, b, c, _, _, _, hda, hdb, hdc, hs⟩ := h
  subst hs
  intro x hx
  have hx' : x ∈ a ∨ x = '.' ∨ x ∈ b ∨ x = '.' ∨ x ∈ c := by
    simpa using hx
  rcases hx' with h1 | rfl | h1 | rfl | h1
  · exact Or.inl (hda x h1)
  · exact Or.inr rfl
  · exact Or.inl (hdb x h1)
  · exact Or.inr rfl
  · exact Or.inl (hdc x h1)

theorem splitNl_ne_nil (s : List Char) : splitNl s ≠ [] := by
  cases s with
  | nil => simp [splitNl]
  | cons c cs =>
    simp only [splitNl]
    split
    · simp
    · split
      · simp
      · simp

theorem joinNl_cons_cons (c : Char) (l : List Char) (ls : List (List Char)) :
    joinNl ((c :: l) :: ls) = c :: joinNl (l :: ls) := by
  cases ls with
  | nil => rfl
  | cons l' ls' => rfl

/-- `'\n'.join(content.split('\n')) == content`. -/
theorem joinNl_splitNl (s : List Char) : joinNl (splitNl s) = s := by
  induction s with
  | nil => rfl
  | cons c cs ih =>
    simp only [splitNl]
    by_cases hc : c = '\n'
    · rw [if_pos hc]
      cases hx : splitNl cs with
      | nil => exact absurd hx (splitNl_ne_nil cs)
      | cons l ls =>
        rw [hx] at ih
        simp only [joinNl, hc]
        rw [ih]
        simp
    · rw [if_neg hc]
      cases hx : splitNl cs with
      | nil => exact absurd hx (splitNl_ne_nil cs)
      | cons l ls =>
        rw [hx] at ih
        rw [joinNl_cons_cons, ih]

/-- Lines produced by splitting contain no newline characters. -/
theorem splitNl_no_newline (s : List Char) : ∀ l ∈ splitNl s, '\n' ∉ l := by
  induction s with
  | nil => intro l hl; simp [splitNl] at hl; simp [hl]
  | cons c cs ih =>
    intro l hl
    simp only [splitNl] at hl
    by_cases hc : c = '\n'
    · rw [if_pos hc] at hl
      rcases List.mem_cons.mp hl with rfl | hl
      · simp
      · exact ih l hl
    · rw [if_neg hc] at hl
      cases hx : splitNl cs with
      | nil => exact absurd hx (splitNl_ne_nil cs)
      | cons l' ls' =>
        rw [hx] at hl
        rcases List.mem_cons.mp hl with rfl | hl
        · intro hmem
          rcases List.mem_cons.mp hmem with h | h
          · exact hc h.symm
          · exact ih l' (hx ▸ List.mem_cons_self l' ls') h
        · exact ih l (hx ▸ List.mem_cons.mpr (Or.inr hl))

theorem splitNl_append_nonl (l : List Char) (hnl : '\n' ∉ l) :
    ∀ (r : List Char) (hd : List Char) (tl : List (List Char)),
      splitNl r = hd :: tl → splitNl (l ++ r) = (l ++ hd) :: tl := by
  induction l with
  | nil => intro r hd tl h; simpa using h
  | cons c cs ih =>
    intro r hd tl h
    have hc : c ≠ '\n' := fun hc => hnl (by simp [hc])
    have hcs : '\n' ∉ cs := fun hm => hnl (by simp [hm])
    simp only [List.cons_append, splitNl, if_neg hc]
    rw [show cs.append r = cs ++ r from rfl, ih hcs r hd tl h]

/-- Splitting inverts joining when no line contains a newline. -/
theorem splitNl_joinNl (ls : List (List Char)) (hne : ls ≠ [])
    (hnl : ∀ l ∈ ls, '\n' ∉ l) : splitNl (joinNl ls) = ls := by
  induction ls with
  | nil => exact absurd rfl hne
  | cons l ls' ih =>
    cases ls' with
    | nil =>
      have : joinNl [l] = l ++ [] := by simp [joinNl]
      rw [this, splitNl_append_nonl l (hnl l (by simp)) [] [] [] rfl]
      simp
    | cons l' ls'' =>
      have hrec : splitNl (joinNl (l' :: ls'')) = l' :: ls'' :=
        ih (by simp) (fun x hx => hnl x (List.mem_cons.mpr (Or.inr hx)))
      have hsplit : splitNl ('\n' :: joinNl (l' :: ls'')) = [] :: l' :: ls'' := by
        simp [splitNl, hrec]
      have : joinNl (l :: l' :: ls'') = l ++ '\n' :: joinNl (l' :: ls'') := rfl
      rw [this, splitNl_append_nonl l (hnl l (by simp)) _ _ _ hsplit]
      simp

theorem matchPat_sound {pre s m r : List Char}
    (h : matchPat pre s = some (m, r)) :
    s = m ++ r ∧ (∃ m', m = pre ++ m' ∧ VD 3 m') ∧ nodigHead r = true := by
  simp only [matchPat] at h
  split at h
  · rename_i hpre
    split at h
    · rename_i m' r' hv
      obtain ⟨hm, hr⟩ := Prod.mk.injEq .. ▸ Option.some.injEq .. ▸ h
      obtain ⟨hsplit, hnd, hvd⟩ := verStages_sound 2 _ _ _ hv
      have hspre : s = pre ++ s.drop pre.length := by
        obtain ⟨t, ht⟩ := List.isPrefixOf_iff_prefix.mp hpre
        rw [← ht]; simp
      refine ⟨?_, ⟨m', hm.symm, hvd⟩, hr ▸ hnd⟩
      rw [hspre, hsplit, ← hm, ← hr]
      simp
    · exact absurd h (by simp)
  · exact absurd h (by simp)

theorem matchPat_complete (pre w e : List Char) (hw : VD 3 w)
    (he : nodigHead e = true) :
    matchPat pre (pre ++ (w ++ e)) = some (pre ++ w, e) := by
  simp only [matchPat]
  rw [if_pos (List.isPrefixOf_iff_prefix.mpr ⟨w ++ e, rfl⟩)]
  rw [List.drop_left]
  rw [verStages_complete 2 w e hw he]

/-- Matches are nonempty, so each replacement step consumes input. -/
theorem matchPat_consume {pre s m r : List Char}
    (h : matchPat pre s = some (m, r)) : s = m ++ r ∧ m ≠ [] := by
  obtain ⟨hs, ⟨m', hm, hvd⟩, _⟩ := matchPat_sound h
  refine ⟨hs, ?_⟩
  obtain ⟨a, x, ha, _, _, hx⟩ := hvd
  rw [hm, hx]
  rcases pre with _ | ⟨p, ps⟩
  · simp
  · simp

theorem subGo_fuel (pre repl : List Char) : ∀ (f f' : Nat) (s : List Char),
    s.length ≤ f → s.length ≤ f' → subGo pre repl f s = subGo pre repl f' s := by
  intro f
  induction f with
  | zero =>
    intro f' s h _
    have hs : s = [] := List.length_eq_zero.mp (Nat.le_zero.mp h)
    subst hs
    cases f' <;> rfl
  | succ f ih =>
    intro f' s h h'
    cases s with
    | nil => cases f' <;> rfl
    | cons c cs =>
      cases f' with
      | zero => simp at h'
      | succ f'' =>
        simp only [subGo]
        cases hm : matchPat pre (c :: cs) with
        | some pr =>
          obtain ⟨m, r⟩ := pr
          obtain ⟨hsplit, hne⟩ := matchPat_consume hm
          have hr : r.length ≤ f ∧ r.length ≤ f'' := by
            have : (c :: cs).length = m.length + r.length := by
              rw [hsplit]; simp
            have hml : 1 ≤ m.length := by
              cases m with
              | nil => exact absurd rfl hne
              | cons _ _ => simp
            simp only [List.length_cons] at h h' this
            omega
          show repl ++ subGo pre repl f r = repl ++ subGo pre repl f'' r
          rw [ih f'' r hr.1 hr.2]
        | none =>
          simp only [List.length_cons] at h h'
          show c :: subGo pre repl f cs = c :: subGo pre repl f'' cs
          rw [ih f'' cs (by omega) (by omega)]

theorem subPat_nil (pre repl : List Char) : subPat pre repl [] = [] := rfl

theorem subPat_cons (pre repl : List Char) (c : Char) (cs : List Char) :
    subPat pre repl (c :: cs) =
      match matchPat pre (c :: cs) with
      | some (_, r) => repl ++ subPat pre repl r
      | none => c :: subPat pre repl cs := by
  simp only [subPat, List.length_cons, subGo]
  cases hm : matchPat pre (c :: cs) with
  | some pr =>
    obtain ⟨m, r⟩ := pr
    obtain ⟨hsplit, hne⟩ := matchPat_consume hm
    have : r.length ≤ cs.length := by
      have : (c :: cs).length = m.length + r.length := by rw [hsplit]; simp
      have hml : 1 ≤ m.length := by
        cases m with
        | nil => exact absurd rfl hne
        | cons _ _ => simp
      simp only [List.length_cons] at this
      omega
    show repl ++ subGo pre repl cs.length r = repl ++ subGo pre repl r.length r
    rw [subGo_fuel pre repl cs.length r.length r this (le_refl _)]
  | none =>
    rfl

/-! ## Lemmas about the script-reference scan -/

/-- If a marker line comes before any directive line, the loop returns early
without writing. -/
theorem portLoop_skip (v : List Char) : ∀ (a : List (List Char)) (m : List Char)
    (rest : List (List Char)),
    (∀ l ∈ a, markerIn l = false ∧ dirStart l = false) → markerIn m = true →
    portLoop v (a ++ m :: rest) = .skip := by
  intro a
  induction a with
  | nil =>
    intro m rest _ hm
    simp [portLoop, hm]
  | cons l ls ih =>
    intro m rest ha hm
    have hl := ha l (by simp)
    simp only [List.cons_append, portLoop, hl.1, hl.2, Bool.false_eq_true,
      if_false]
    rw [show ls.append (m :: rest) = ls ++ m :: rest from rfl,
      ih m rest (fun x hx => ha x (by simp [hx])) hm]

/-- With no marker and no directive line the loop falls through and writes
the lines unchanged. -/
theorem portLoop_noop (v : List Char) : ∀ ls : List (List Char),
    (∀ l ∈ ls, markerIn l = false ∧ dirStart l = false) →
    portLoop v ls = .write ls .noOpNoMatch := by
  intro ls
  induction ls with
  | nil => intro _; rfl
  | cons l ls ih =>
    intro h
    have hl := h l (by simp)
    simp only [portLoop, hl.1, hl.2, Bool.false_eq_true, if_false]
    rw [ih fun x hx => h x (by simp [hx])]

/-- Replacing the record `portfile` field with its current value is the
identity. -/
theorem fs_eta_portfile (fs : FS) (c : List Char) (h : fs.portfile = some c) :
    { fs with portfile := some c } = fs := by
  cases fs
  simp at h
  simp [h]

/-! ## Lemmas about `re.search` / `re.sub` and the doc loop -/

theorem searchPat_cons (pre : List Char) (c : Char) (cs : List Char) :
    searchPat pre (c :: cs) = ((matchPat pre (c :: cs)).isSome || searchPat pre cs) :=
  rfl

/-- If the pattern occurs nowhere, substitution is the identity. -/
theorem subPat_of_not_search (pre repl : List Char) : ∀ s : List Char,
    searchPat pre s = false → subPat pre repl s = s := by
  intro s
  induction s with
  | nil => intro _; rfl
  | cons c cs ih =>
    intro h
    rw [searchPat_cons, Bool.or_eq_false_iff] at h
    rw [subPat_cons]
    cases hm : matchPat pre (c :: cs) with
    | some pr => rw [hm] at h; simp at h
    | none => rw [ih h.2]

theorem docApply_eq_foldl (rules : List (List Char × List Char)) (c : List Char) :
    docApply rules c = rules.foldl docStep (c, false) := rfl

theorem docStep_snd_mono (rules : List (List Char × List Char)) :
    ∀ p : List Char × Bool, p.2 = true → (rules.foldl docStep p).2 = true := by
  induction rules with
  | nil => intro p h; simpa using h
  | cons r rs ih =>
    intro p h
    simp only [List.foldl_cons]
    apply ih
    simp only [docStep]
    split
    · rfl
    · exact h

/-- The `modified` flag is set iff some configured pattern matches the
original content (a rule that does not match leaves the content unchanged,
so later searches run on the original text). -/
theorem docApply_flag (rules : List (List Char × List Char)) : ∀ c : List Char,
    (docApply rules c).2 = rules.any fun r => searchPat r.1 c := by
  induction rules with
  | nil => intro c; rfl
  | cons r rs ih =>
    intro c
    rw [docApply_eq_foldl, List.foldl_cons]
    cases hs : searchPat r.1 c with
    | true =>
      have h1 : docStep (c, false) r = (subPat r.1 r.2 c, true) := by
        simp [docStep, hs]
      rw [h1, docStep_snd_mono rs _ rfl]
      simp [hs]
    | false =>
      have h1 : docStep (c, false) r = (c, false) := by
        simp [docStep, hs]
      rw [h1, ← docApply_eq_foldl, ih c]
      simp [hs]

/-- With no matching rule the fold is the identity. -/
theorem docApply_nomatch (rules : List (List Char × List Char)) :
    ∀ c : List Char, (rules.any fun r => searchPat r.1 c) = false →
    docApply rules c = (c, false) := by
  induction rules with
  | nil => intro c _; rfl
  | cons r rs ih =>
    intro c h
    simp only [List.any_cons, Bool.or_eq_false_iff] at h
    rw [docApply_eq_foldl, List.foldl_cons]
    have h1 : docStep (c, false) r = (c, false) := by
      simp [docStep, h.1]
    rw [h1, ← docApply_eq_foldl, ih c h.2]

theorem updateDoc_some (rules : List (List Char × List Char)) (c : List Char) :
    updateDoc rules (some c) =
      if (docApply rules c).2 then (some (docApply rules c).1, .updated)
      else (some c, .noOpNoMatch) := rfl

/-! ## Association-list lemmas for the manifest -/

theorem setKey_of_not_mem (k : List Char) (v : JVal) :
    ∀ m : List (List Char × JVal), (∀ p ∈ m, p.1 ≠ k) →
    setKey m k v = m ++ [(k, v)] := by
  intro m
  induction m with
  | nil => intro _; rfl
  | cons p t ih =>
    intro h
    obtain ⟨k', v'⟩ := p
    have hk : k' ≠ k := h (k', v') (by simp)
    simp only [setKey, if_neg hk]
    rw [ih fun q hq => h q (by simp [hq])]
    simp

theorem getKey_setKey_self (k : List Char) (v : JVal) :
    ∀ m : List (List Char × JVal), getKey (setKey m k v) k = some v := by
  intro m
  induction m with
  | nil => simp [setKey, getKey]
  | cons p t ih =>
    obtain ⟨k', v'⟩ := p
    by_cases hk : k' = k
    · simp [setKey, getKey, hk]
    · simp only [setKey, if_neg hk, getKey]
      exact ih

theorem getKey_setKey_other (k j : List Char) (v : JVal) (hjk : j ≠ k) :
    ∀ m : List (List Char × JVal), getKey (setKey m k v) j = getKey m j := by
  intro m
  induction m with
  | nil =>
    simp only [setKey, getKey]
    rw [if_neg fun h => hjk h.symm]
  | cons p t ih =>
    obtain ⟨k', v'⟩ := p
    by_cases hk : k' = k
    · subst hk
      simp only [setKey, if_pos rfl, getKey]
      rw [if_neg (fun h => hjk h.symm), if_neg (fun h => hjk h.symm)]
    · simp only [setKey, if_neg hk, getKey]
      by_cases hj : k' = j
      · rw [if_pos hj, if_pos hj]
      · rw [if_neg hj, if_neg hj]
        exact ih

theorem setKey_map_fst (k : List Char) (v : JVal) :
    ∀ m : List (List Char × JVal),
    (setKey m k v).map Prod.fst =
      if k ∈ m.map Prod.fst then m.map Prod.fst else m.map Prod.fst ++ [k] := by
  intro m
  induction m with
  | nil => simp [setKey]
  | cons p t ih =>
    obtain ⟨k', v'⟩ := p
    by_cases hk : k' = k
    · subst hk
      simp only [setKey, if_pos rfl, List.map_cons]
      rw [if_pos (by simp)]
      simp
    · simp only [setKey, if_neg hk, List.map_cons, ih]
      by_cases hmem : k ∈ t.map Prod.fst
      · rw [if_pos hmem, if_pos (by simp [hmem])]
      · rw [if_neg hmem, if_neg ?notmem]
        · simp
        case notmem =>
          simp only [List.mem_cons]
          rintro (h | h)
          · exact hk h.symm
          · exact hmem h

/-- Re-assigning the key to the value it already holds is the identity. -/
theorem setKey_eq_of_getKey (k : List Char) (v : JVal) :
    ∀ m : List (List Char × JVal), getKey m k = some v → setKey m k v = m := by
  intro m
  induction m with
  | nil => intro h; simp [getKey] at h
  | cons p t ih =>
    obtain ⟨k', v'⟩ := p
    intro h
    by_cases hk : k' = k
    · simp only [getKey, if_pos hk, Option.some.injEq] at h
      simp [setKey, hk, h]
    · simp only [getKey, if_neg hk] at h
      simp only [setKey, if_neg hk]
      rw [ih h]

theorem setKey_setKey_self (k : List Char) (v : JVal)
    (m : List (List Char × JVal)) :
    setKey (setKey m k v) k v = setKey m k v :=
  setKey_eq_of_getKey k v _ (getKey_setKey_self k v m)

/-! ## Frame lemmas for the updaters -/

theorem update_portfile_frame (v : List Char) (fs : FS) :
    (update_portfile_cmake v fs).1.version = fs.version ∧
    (update_portfile_cmake v fs).1.vcpkg = fs.vcpkg ∧
    (update_portfile_cmake v fs).1.readme = fs.readme ∧
    (update_portfile_cmake v fs).1.conanMd = fs.conanMd ∧
    (update_portfile_cmake v fs).1.vcpkgMd = fs.vcpkgMd := by
  simp only [update_portfile_cmake]
  split
  · exact ⟨rfl, rfl, rfl, rfl, rfl⟩
  · split <;> exact ⟨rfl, rfl, rfl, rfl, rfl⟩

theorem update_documentation_frame (v : List Char) (fs : FS) :
    (update_documentation v fs).1.version = fs.version ∧
    (update_documentation v fs).1.vcpkg = fs.vcpkg ∧
    (update_documentation v fs).1.portfile = fs.portfile :=
  ⟨rfl, rfl, rfl⟩

theorem isDig_not_space (c : Char) (h : isDig c = true) : isPySpace c = false := by
  by_contra hcon
  simp only [Bool.not_eq_false] at hcon
  simp only [isPySpace, Bool.or_eq_true, decide_eq_true_eq] at hcon
  rcases hcon with ((((rfl | rfl) | rfl) | rfl) | rfl) | rfl <;>
    exact absurd h (by decide)

/-! ## Claim theorems -/

/-- C1.  The candidate string, after trimming, is accepted iff it is three
dot-separated digit runs and nothing else; on rejection, and likewise on a
wrong argument count, `main` terminates with a usage result and non-zero
status, leaving every file untouched. -/
theorem claim1_validator_gate :
    (∀ s : List Char, reMatchVer (pyStrip s) = true ↔ SpecVer (pyStrip s)) ∧
    (∀ (argv : List (List Char)) (fs : FS), argv.length ≠ 2 →
      main argv fs = (fs, .usage) ∧ exitCode (main argv fs).2 ≠ 0) ∧
    (∀ (argv : List (List Char)) (fs : FS), argv.length = 2 →
      reMatchVer (pyStrip (argv.getD 1 [])) = false →
      main argv fs = (fs, .usage) ∧ exitCode (main argv fs).2 ≠ 0) := by
  refine ⟨?_, ?_, ?_⟩
  · intro s
    rw [reMatchVer_strip]
    exact fullVer_iff_SpecVer (pyStrip s)
  · intro argv fs h
    have hm : main argv fs = (fs, .usage) := by
      simp [main, h]
    exact ⟨hm, by
      rw [hm]
      exact (by decide : exitCode RunResult.usage ≠ 0)⟩
  · intro argv fs h2 hv
    have hcond : ¬ (argv.length ≠ 2) := fun hne => hne h2
    have hm : main argv fs = (fs, .usage) := by
      simp only [main, if_neg hcond]
      rw [if_pos (show ¬ reMatchVer (pyStrip (argv.getD 1 [])) = true by
        simp only [Bool.not_eq_true]
        exact hv)]
    exact ⟨hm, by
      rw [hm]
      exact (by decide : exitCode RunResult.usage ≠ 0)⟩

/-- Witness for C1: `"  1.0.0 "` is accepted after trimming; an empty
argument vector is a usage error that leaves the filesystem unchanged. -/
theorem claim1_validator_gate_witness :
    reMatchVer (pyStrip "  1.0.0 ".toList) = true ∧
    main [] emptyFS = (emptyFS, .usage) := by
  constructor
  · exact (claim1_validator_gate.1 "  1.0.0 ".toList).mpr
      ⟨['1'], ['0'], ['0'], by decide, by decide, by decide, by decide,
        by decide, by decide, by decide⟩
  · exact (claim1_validator_gate.2.1 [] emptyFS (by decide)).1

/-- C2 counterexample.  The file contains an indirection-marker line, yet the
updater rewrites the directive line and reports `updated`, changing the file:
the marker check does not take precedence when a directive line appears
earlier in the file. -/
theorem claim2_counterexample :
    markerIn "REF v${VERSION}".toList = true ∧
    "REF v${VERSION}".toList ∈ splitNl "REF v1.0.0\nREF v${VERSION}".toList ∧
    update_portfile_cmake "2.0.0".toList cex2FS =
      ({ cex2FS with
          portfile := some "    REF v2.0.0\nREF v${VERSION}".toList },
        .updated) ∧
    ("    REF v2.0.0\nREF v${VERSION}".toList ≠
      "REF v1.0.0\nREF v${VERSION}".toList) := by
  exact ⟨by decide, by decide, rfl, by decide⟩

/-- C4.  The plain-marker updater always reports `updated` and replaces the
file (creating it if absent) with exactly the version text — which, being a
validated version, contains no whitespace and in particular no trailing
newline; all other artifacts are untouched. -/
theorem claim4_version_file (v : List Char) (fs : FS) (hv : fullVer v = true) :
    (update_version_file v fs).1.version = some v ∧
    (update_version_file v fs).2 = .updated ∧
    (∀ x ∈ v, isPySpace x = false) ∧
    v.getLast? ≠ some '\n' ∧
    (update_version_file v fs).1.vcpkg = fs.vcpkg ∧
    (update_version_file v fs).1.portfile = fs.portfile ∧
    (update_version_file v fs).1.readme = fs.readme ∧
    (update_version_file v fs).1.conanMd = fs.conanMd ∧
    (update_version_file v fs).1.vcpkgMd = fs.vcpkgMd := by
  have hns : ∀ x ∈ v, isPySpace x = false := by
    intro x hx
    rcases fullVer_chars v hv x hx with hd | rfl
    · exact isDig_not_space x hd
    · decide
  refine ⟨rfl, rfl, hns, ?_, rfl, rfl, rfl, rfl, rfl⟩
  intro hlast
  have hmem : '\n' ∈ v := by
    have hne : v ≠ [] := by
      intro hnil
      rw [hnil] at hlast
      simp at hlast
    rw [List.getLast?_eq_getLast v hne, Option.some.injEq] at hlast
    rw [← hlast]
    exact List.getLast_mem hne
  have := hns '\n' hmem
  simp [isPySpace] at this

/-- Witness for C4 at `2.0.0` over the empty filesystem. -/
theorem claim4_version_file_witness :
    (update_version_file "2.0.0".toList emptyFS).1.version =
      some "2.0.0".toList ∧
    (update_version_file "2.0.0".toList emptyFS).2 = .updated :=
  ⟨(claim4_version_file "2.0.0".toList emptyFS (by decide)).1,
   (claim4_version_file "2.0.0".toList emptyFS (by decide)).2.1⟩

/-- C7 counterexample.  On `README.md` content `"see v1.0.0"` with version
`1.0.0`, no substitution changes the content, yet the updater reports
`updated` and performs a write: the tracked flag records a pattern match,
not an actual content change. -/
theorem claim7_counterexample :
    (updateDoc (readmeRules "1.0.0".toList) (some "see v1.0.0".toList)).2 =
      .updated ∧
    (updateDoc (readmeRules "1.0.0".toList) (some "see v1.0.0".toList)).1 =
      some "see v1.0.0".toList :=
  ⟨rfl, rfl⟩

/-- C7 amended.  For each documentation rule table, every configured pattern
is applied as a global substitution; the file is written back (outcome
`updated`) iff at least one pattern matches — even if the substituted text is
identical — and with no match the outcome is `no-op-no-match` with the
original content kept. -/
theorem claim7_doc_write_iff_match (v c : List Char) :
    ∀ rules ∈ [readmeRules v, conanRules v, vcpkgMdRules v],
      ((rules.any fun r => searchPat r.1 c) = true →
        updateDoc rules (some c) = (some (docApply rules c).1, .updated)) ∧
      ((rules.any fun r => searchPat r.1 c) = false →
        updateDoc rules (some c) = (some c, .noOpNoMatch)) := by
  intro rules _
  constructor
  · intro h
    rw [updateDoc_some, if_pos (by rw [docApply_flag]; exact h)]
  · intro h
    rw [updateDoc_some, if_neg (by rw [docApply_flag, h]; exact Bool.false_ne_true)]

/-- Witness for the amended C7: a matching CONAN.md is rewritten and
reported `updated`; a VCPKG.md with no version-shaped text is untouched and
reported `no-op-no-match`. -/
theorem claim7_doc_write_iff_match_witness :
    updateDoc (conanRules "2.0.0".toList) (some "cnanolog/1.0.0".toList) =
      (some "cnanolog/2.0.0".toList, .updated) ∧
    updateDoc (vcpkgMdRules "2.0.0".toList) (some "no versions here".toList) =
      (some "no versions here".toList, .noOpNoMatch) := by
  constructor
  · exact ((claim7_doc_write_iff_match "2.0.0".toList "cnanolog/1.0.0".toList
      (conanRules "2.0.0".toList) (by simp)).1 (by decide)).trans rfl
  · exact (claim7_doc_write_iff_match "2.0.0".toList "no versions here".toList
      (vcpkgMdRules "2.0.0".toList) (by simp)).2 (by decide)

/-- C8.  With neither a marker line nor any directive line, the scan falls
through: a write occurs, but splitting and rejooining is the identity, so the
written content is byte-identical and the outcome is `no-op-no-match`. -/
theorem claim8_noop_rewrite (v c : List Char) (fs : FS)
    (h : fs.portfile = some c)
    (hall : ∀ l ∈ splitNl c, markerIn l = false ∧ dirStart l = false) :
    portLoop v (splitNl c) = .write (splitNl c) .noOpNoMatch ∧
    joinNl (splitNl c) = c ∧
    update_portfile_cmake v fs = (fs, .noOpNoMatch) := by
  refine ⟨portLoop_noop v (splitNl c) hall, joinNl_splitNl c, ?_⟩
  simp only [update_portfile_cmake, h, portLoop_noop v (splitNl c) hall,
    joinNl_splitNl c]
  rw [fs_eta_portfile fs c h]

/-- Witness for C8 on a two-line CMake fragment without any `REF` line. -/
theorem claim8_noop_rewrite_witness :
    update_portfile_cmake "2.0.0".toList
      { emptyFS with portfile := some "set(A 1)\nset(B 2)".toList } =
      ({ emptyFS with portfile := some "set(A 1)\nset(B 2)".toList },
       .noOpNoMatch) :=
  (claim8_noop_rewrite "2.0.0".toList "set(A 1)\nset(B 2)".toList
    { emptyFS with portfile := some "set(A 1)\nset(B 2)".toList }
    rfl (by decide)).2.2

/-- C9.  `get_version` is total: with a readable VERSION file it returns the
content stripped of leading and trailing whitespace (the result neither
starts nor ends with whitespace); on any read failure it returns the
fallback `"1.0.0"`. -/
theorem claim9_get_version_total :
    (∀ c : List Char,
      get_version (some c) = pyStrip c ∧
      (∀ x, (get_version (some c)).head? = some x → isPySpace x = false) ∧
      (∀ x, (get_version (some c)).getLast? = some x → isPySpace x = false)) ∧
    get_version none = "1.0.0".toList := by
  refine ⟨fun c => ⟨rfl, ?_, ?_⟩, rfl⟩
  · intro x hx
    exact pyStrip_head_not_space c x hx
  · intro x hx
    exact pyStrip_getLast_not_space c x hx

/-- Witness for C9: stripping behaviour on a concrete file and the fallback
on a missing file. -/
theorem claim9_get_version_total_witness :
    get_version (some "  1.2.3\n".toList) = "1.2.3".toList ∧
    get_version none = "1.0.0".toList := by
  constructor
  · rw [(claim9_get_version_total.1 "  1.2.3\n".toList).1]
    decide
  · exact claim9_get_version_total.2

/-- C6.  Missing artifacts are non-fatal, a corrupt manifest is fatal but not
rolled back: (a) with no `vcpkg.json` the run completes with exit status `0`
and no such file is created; (b) with an unparseable `vcpkg.json` the
exception propagates (`crashed`, non-zero status), the script-reference and
documentation updaters are never invoked (those artifacts are exactly as
before), and the plain-marker artifact keeps its freshly written version. -/
theorem claim6_missing_vs_corrupt (argv : List (List Char)) (fs : FS)
    (h2 : argv.length = 2)
    (hv : reMatchVer (pyStrip (argv.getD 1 [])) = true) :
    (fs.vcpkg = none →
      (main argv fs).2 = .ok ∧ exitCode (main argv fs).2 = 0 ∧
      (main argv fs).1.vcpkg = none) ∧
    (∀ c, fs.vcpkg = some c → parseJson c = none →
      main argv fs =
        ({ fs with version := some (pyStrip (argv.getD 1 [])) }, .crashed) ∧
      exitCode (main argv fs).2 ≠ 0) := by
  have hcond : ¬ (argv.length ≠ 2) := fun hne => hne h2
  have hunfold : main argv fs =
      (match update_vcpkg_json (pyStrip (argv.getD 1 []))
          (update_version_file (pyStrip (argv.getD 1 [])) fs).1 with
        | .error _ => ((update_version_file (pyStrip (argv.getD 1 [])) fs).1,
            RunResult.crashed)
        | .ok r2 =>
          ((update_documentation (pyStrip (argv.getD 1 []))
            (update_portfile_cmake (pyStrip (argv.getD 1 [])) r2.1).1).1,
           RunResult.ok)) := by
    simp only [main, if_neg hcond]
    rw [if_neg (not_not_intro hv)]
  constructor
  · intro hnone
    have hvc : update_vcpkg_json (pyStrip (argv.getD 1 []))
        (update_version_file (pyStrip (argv.getD 1 [])) fs).1 =
        .ok ((update_version_file (pyStrip (argv.getD 1 [])) fs).1,
          .skippedMissing) := by
      simp only [update_vcpkg_json, update_version_file, hnone]
    rw [hunfold, hvc]
    refine ⟨rfl, rfl, ?_⟩
    have hd := (update_documentation_frame (pyStrip (argv.getD 1 []))
      (update_portfile_cmake (pyStrip (argv.getD 1 []))
        ((update_version_file (pyStrip (argv.getD 1 [])) fs).1, Outcome.skippedMissing).1).1).2.1
    have hp := (update_portfile_frame (pyStrip (argv.getD 1 []))
      ((update_version_file (pyStrip (argv.getD 1 [])) fs).1,
        Outcome.skippedMissing).1).2.1
    rw [hd, hp]
    exact hnone
  · intro c hc hparse
    have hvc : update_vcpkg_json (pyStrip (argv.getD 1 []))
        (update_version_file (pyStrip (argv.getD 1 [])) fs).1 = .error () := by
      simp only [update_vcpkg_json, update_version_file, hc, hparse]
    rw [hunfold, hvc]
    exact ⟨rfl, (by decide : exitCode RunResult.crashed ≠ 0)⟩

/-- Witness for C6: both branches at version `2.0.0` — a filesystem with no
manifest reaches `ok`, one whose manifest is the unparseable `xx` crashes
with the VERSION file already rewritten. -/
theorem claim6_missing_vs_corrupt_witness :
    (main [[], "2.0.0".toList] emptyFS).2 = .ok ∧
    main [[], "2.0.0".toList] { emptyFS with vcpkg := some "xx".toList } =
      ({ version := some "2.0.0".toList, vcpkg := some "xx".toList,
         portfile := none, readme := none, conanMd := none,
         vcpkgMd := none }, .crashed) := by
  constructor
  · exact ((claim6_missing_vs_corrupt [[], "2.0.0".toList] emptyFS
      (by decide) (by decide)).1 rfl).1
  · exact (((claim6_missing_vs_corrupt [[], "2.0.0".toList]
      { emptyFS with vcpkg := some "xx".toList } (by decide) (by decide)).2
      "xx".toList rfl rfl).1).trans rfl

/-- C10.  On a manifest object lacking the `version-string` key, the updater
appends that key (bound to the new version string) after all pre-existing
keys, re-serializes, and reports `updated` rather than failing. -/
theorem claim10_add_missing_key (v : List Char) (fs : FS) (c : List Char)
    (m : List (List Char × JVal)) (h : fs.vcpkg = some c)
    (hp : parseJson c = some (.obj m)) (hnk : ∀ p ∈ m, p.1 ≠ verKey) :
    update_vcpkg_json v fs =
      .ok ({ fs with
              vcpkg := some (dumpJson (.obj (m ++ [(verKey, .str v)])) ++ ['\n']) },
           .updated) := by
  simp only [update_vcpkg_json, h, hp]
  rw [setKey_of_not_mem verKey (.str v) m hnk]

/-- Witness for C10: `{"name": "cnanolog"}` gains a `version-string` field
and the update succeeds. -/
theorem claim10_add_missing_key_witness :
    update_vcpkg_json "2.0.0".toList
      { emptyFS with vcpkg := some "\x7b\"name\": \"cnanolog\"\x7d".toList } =
      .ok ({ emptyFS with
              vcpkg := some
                "\x7b\n  \"name\": \"cnanolog\",\n  \"version-string\": \"2.0.0\"\n\x7d\n".toList },
           .updated) := by
  have h := claim10_add_missing_key "2.0.0".toList
    { emptyFS with vcpkg := some "\x7b\"name\": \"cnanolog\"\x7d".toList }
    "\x7b\"name\": \"cnanolog\"\x7d".toList
    [("name".toList, JVal.str "cnanolog".toList)] rfl rfl
    (by
      intro p hp
      rcases List.mem_singleton.mp hp with rfl
      decide)
  exact h.trans rfl

/-! ## Serializer/parser roundtrip, part 1: strings -/

/-- The Unicode scalar-value range of `Char`, in `Nat` form. -/
theorem char_toNat_valid (c : Char) :
    c.toNat < 0xd800 ∨ (0xdfff < c.toNat ∧ c.toNat < 0x110000) := by
  rcases c.valid with h | ⟨h1, h2⟩
  · exact Or.inl h
  · exact Or.inr ⟨h1, h2⟩

theorem char_toNat_lt (c : Char) : c.toNat < 0x110000 := by
  rcases char_toNat_valid c with h | ⟨_, h⟩
  · omega
  · exact h

theorem hexVal_hexChar : ∀ d < 16, hexVal (hexChar d) = some d := by decide

theorem parseHex4_toHex4 (n : Nat) (r : List Char) :
    parseHex4 (toHex4 n ++ r) = some (n / 4096 % 16 * 4096 + n / 256 % 16 * 256 +
      n / 16 % 16 * 16 + n % 16, r) := by
  simp only [toHex4, List.cons_append, List.nil_append, parseHex4]
  rw [hexVal_hexChar (n / 4096 % 16) (by omega),
    hexVal_hexChar (n / 256 % 16) (by omega),
    hexVal_hexChar (n / 16 % 16) (by omega),
    hexVal_hexChar (n % 16) (by omega)]
  simp only [Option.some.injEq, Prod.mk.injEq]
  refine ⟨by ring, trivial⟩

theorem parseHex4_toHex4_small (n : Nat) (hn : n < 0x10000) (r : List Char) :
    parseHex4 (toHex4 n ++ r) = some (n, r) := by
  rw [parseHex4_toHex4]
  congr 2
  omega

theorem psb_quote (f : Nat) (r : List Char) :
    parseStrBody (f + 1) ('"' :: r) = some ([], r) := rfl

theorem psb_esc_q (f : Nat) (r : List Char) :
    parseStrBody (f + 1) ('\\' :: '"' :: r) =
      (parseStrBody f r).map fun p => ('"' :: p.1, p.2) := rfl

theorem psb_esc_bs (f : Nat) (r : List Char) :
    parseStrBody (f + 1) ('\\' :: '\\' :: r) =
      (parseStrBody f r).map fun p => ('\\' :: p.1, p.2) := rfl

theorem psb_esc_n (f : Nat) (r : List Char) :
    parseStrBody (f + 1) ('\\' :: 'n' :: r) =
      (parseStrBody f r).map fun p => ('\n' :: p.1, p.2) := rfl

theorem psb_esc_t (f : Nat) (r : List Char) :
    parseStrBody (f + 1) ('\\' :: 't' :: r) =
      (parseStrBody f r).map fun p => ('\t' :: p.1, p.2) := rfl

theorem psb_esc_r (f : Nat) (r : List Char) :
    parseStrBody (f + 1) ('\\' :: 'r' :: r) =
      (parseStrBody f r).map fun p => ('\r' :: p.1, p.2) := rfl

theorem psb_esc_b (f : Nat) (r : List Char) :
    parseStrBody (f + 1) ('\\' :: 'b' :: r) =
      (parseStrBody f r).map fun p => ('\x08' :: p.1, p.2) := rfl

theorem psb_esc_f (f : Nat) (r : List Char) :
    parseStrBody (f + 1) ('\\' :: 'f' :: r) =
      (parseStrBody f r).map fun p => ('\x0c' :: p.1, p.2) := rfl

theorem psb_esc_u (f : Nat) (r : List Char) :
    parseStrBody (f + 1) ('\\' :: 'u' :: r) =
      (match parseHex4 r with
      | none => none
      | some (n, r1) =>
        if 0xD800 ≤ n ∧ n ≤ 0xDBFF then
          match r1 with
          | '\\' :: 'u' :: r2 =>
            match parseHex4 r2 with
            | some (m, r3) =>
              if 0xDC00 ≤ m ∧ m ≤ 0xDFFF then
                (parseStrBody f r3).map fun p =>
                  (Char.ofNat (0x10000 + (n - 0xD800) * 0x400 + (m - 0xDC00)) :: p.1, p.2)
              else none
            | none => none
          | _ => none
        else if 0xDC00 ≤ n ∧ n ≤ 0xDFFF then none
        else (parseStrBody f r1).map fun p => (Char.ofNat n :: p.1, p.2)) := rfl

/-- The parser inverts the serializer's escaping, one character at a time. -/
theorem parseStrBody_roundtrip : ∀ (s : List Char) (f : Nat) (rest : List Char),
    (s.flatMap escChar ++ '"' :: rest).length ≤ f →
    parseStrBody f (s.flatMap escChar ++ '"' :: rest) = some (s, rest) := by
  intro s
  induction s with
  | nil =>
    intro f rest hf
    cases f with
    | zero => simp at hf
    | succ f =>
      rw [List.flatMap_nil, List.nil_append, psb_quote]
  | cons c cs ih =>
    intro f rest hf
    rw [List.flatMap_cons] at hf ⊢
    by_cases h1 : c = '"'
    · subst h1
      rw [show escChar '"' = ['\\', '"'] from rfl] at hf ⊢
      cases f with
      | zero => simp at hf
      | succ f =>
        simp only [List.cons_append, List.nil_append]
        rw [psb_esc_q, ih f rest (by simp at hf ⊢; omega)]
        rfl
    · by_cases h2 : c = '\\'
      · subst h2
        rw [show escChar '\\' = ['\\', '\\'] from rfl] at hf ⊢
        cases f with
        | zero => simp at hf
        | succ f =>
          simp only [List.cons_append, List.nil_append]
          rw [psb_esc_bs, ih f rest (by simp at hf ⊢; omega)]
          rfl
      · by_cases h3 : c = '\n'
        · subst h3
          rw [show escChar '\n' = ['\\', 'n'] from rfl] at hf ⊢
          cases f with
          | zero => simp at hf
          | succ f =>
            simp only [List.cons_append, List.nil_append]
            rw [psb_esc_n, ih f rest (by simp at hf ⊢; omega)]
            rfl
        · by_cases h4 : c = '\t'
          · subst h4
            rw [show escChar '\t' = ['\\', 't'] from rfl] at hf ⊢
            cases f with
            | zero => simp at hf
            | succ f =>
              simp only [List.cons_append, List.nil_append]
              rw [psb_esc_t, ih f rest (by simp at hf ⊢; omega)]
              rfl
          · by_cases h5 : c = '\r'
            · subst h5
              rw [show escChar '\r' = ['\\', 'r'] from rfl] at hf ⊢
              cases f with
              | zero => simp at hf
              | succ f =>
                simp only [List.cons_append, List.nil_append]
                rw [psb_esc_r, ih f rest (by simp at hf ⊢; omega)]
                rfl
            · by_cases h6 : c = '\x08'
              · subst h6
                rw [show escChar '\x08' = ['\\', 'b'] from rfl] at hf ⊢
                cases f with
                | zero => simp at hf
                | succ f =>
                  simp only [List.cons_append, List.nil_append]
                  rw [psb_esc_b, ih f rest (by simp at hf ⊢; omega)]
                  rfl
              · by_cases h7 : c = '\x0c'
                · subst h7
                  rw [show escChar '\x0c' = ['\\', 'f'] from rfl] at hf ⊢
                  cases f with
                  | zero => simp at hf
                  | succ f =>
                    simp only [List.cons_append, List.nil_append]
                    rw [psb_esc_f, ih f rest (by simp at hf ⊢; omega)]
                    rfl
                · by_cases h8 : 0x20 ≤ c.toNat ∧ c.toNat ≤ 0x7e
                  · have he : escChar c = [c] := by
                      simp only [escChar, if_neg h1, if_neg h2, if_neg h3,
                        if_neg h4, if_neg h5, if_neg h6, if_neg h7, if_pos h8]
                    rw [he] at hf ⊢
                    cases f with
                    | zero => simp at hf
                    | succ f =>
                      simp only [List.cons_append, List.nil_append]
                      simp only [parseStrBody, if_neg h1, if_neg h2]
                      rw [if_neg (by omega),
                        ih f rest (by simp at hf ⊢; omega)]
                      rfl
                  · by_cases h9 : c.toNat < 0x10000
                    · have he : escChar c = '\\' :: 'u' :: toHex4 c.toNat := by
                        simp only [escChar, if_neg h1, if_neg h2, if_neg h3,
                          if_neg h4, if_neg h5, if_neg h6, if_neg h7,
                          if_neg h8, if_pos h9]
                      rw [he] at hf ⊢
                      cases f with
                      | zero => simp at hf
                      | succ f =>
                        have hnosur : (0xD800 ≤ c.toNat ∧ c.toNat ≤ 0xDBFF) = False :=
                          eq_false (by rcases char_toNat_valid c with h | ⟨h, _⟩ <;> omega)
                        have hnosur2 : (0xDC00 ≤ c.toNat ∧ c.toNat ≤ 0xDFFF) = False :=
                          eq_false (by rcases char_toNat_valid c with h | ⟨h, _⟩ <;> omega)
                        rw [show ('\\' :: 'u' :: toHex4 c.toNat) ++
                            cs.flatMap escChar ++ '"' :: rest =
                            '\\' :: 'u' :: (toHex4 c.toNat ++
                              (cs.flatMap escChar ++ '"' :: rest)) from by simp,
                          psb_esc_u]
                        rw [parseHex4_toHex4_small c.toNat h9]
                        simp only [hnosur, hnosur2, if_false]
                        rw [ih f rest (by simp [toHex4] at hf ⊢; omega)]
                        simp [Char.ofNat_toNat]
                    · have he : escChar c =
                          ('\\' :: 'u' :: toHex4 (0xD800 + (c.toNat - 0x10000) / 0x400)) ++
                            ('\\' :: 'u' :: toHex4 (0xDC00 + (c.toNat - 0x10000) % 0x400)) := by
                        simp only [escChar, if_neg h1, if_neg h2, if_neg h3,
                          if_neg h4, if_neg h5, if_neg h6, if_neg h7,
                          if_neg h8, if_neg h9]
                      rw [he] at hf ⊢
                      have hu : c.toNat - 0x10000 < 0x100000 := by
                        have := char_toNat_lt c
                        omega
                      cases f with
                      | zero => simp at hf
                      | succ f =>
                        have hshape :
                            (('\\' :: 'u' :: toHex4 (0xD800 + (c.toNat - 0x10000) / 0x400)) ++
                              ('\\' :: 'u' :: toHex4 (0xDC00 + (c.toNat - 0x10000) % 0x400))) ++
                              cs.flatMap escChar ++ '"' :: rest =
                            '\\' :: 'u' :: (toHex4 (0xD800 + (c.toNat - 0x10000) / 0x400) ++
                              ('\\' :: 'u' :: (toHex4 (0xDC00 + (c.toNat - 0x10000) % 0x400) ++
                                (cs.flatMap escChar ++ '"' :: rest)))) := by
                          simp
                        rw [hshape, psb_esc_u]
                        rw [parseHex4_toHex4_small _ (by omega)]
                        have hhi : (0xD800 ≤ 0xD800 + (c.toNat - 0x10000) / 0x400 ∧
                            0xD800 + (c.toNat - 0x10000) / 0x400 ≤ 0xDBFF) = True :=
                          eq_true (by omega)
                        have hlo : (0xDC00 ≤ 0xDC00 + (c.toNat - 0x10000) % 0x400 ∧
                            0xDC00 + (c.toNat - 0x10000) % 0x400 ≤ 0xDFFF) = True :=
                          eq_true (by omega)
                        simp only [hhi, if_true]
                        rw [parseHex4_toHex4_small _ (by omega)]
                        simp only [hlo, if_true]
                        rw [ih f rest (by simp [toHex4] at hf ⊢; omega)]
                        have harith : 0x10000 + (c.toNat - 0x10000) / 0x400 * 0x400 +
                            (c.toNat - 0x10000) % 0x400 = c.toNat := by
                          omega
                        simp [harith, Char.ofNat_toNat]

/-- `parseString` inverts `dumpStr` (modulo the opening quote, which the
caller consumes). -/
theorem parseString_roundtrip (s rest : List Char) :
    parseString (s.flatMap escChar ++ '"' :: rest) = some (s, rest) :=
  parseStrBody_roundtrip s _ rest (le_refl _)

theorem valStop_nodig {rest : List Char} (h : valStop rest = true) :
    nodigHead rest = true := by
  cases rest with
  | nil => rfl
  | cons c t =>
    simp only [valStop, Bool.or_eq_true, decide_eq_true_eq] at h
    rcases h with ((rfl | rfl) | rfl) | rfl <;> rfl

theorem valStop_intGuard {rest : List Char} (h : valStop rest = true) :
    intGuard rest = true := by
  cases rest with
  | nil => rfl
  | cons c t =>
    simp only [valStop, Bool.or_eq_true, decide_eq_true_eq] at h
    rcases h with ((rfl | rfl) | rfl) | rfl <;> rfl

theorem isDig_digChar : ∀ d < 10, isDig (digChar d) = true := by decide

theorem digChar_toNat : ∀ d < 10, (digChar d).toNat - 48 = d := by decide

theorem digChar_ne_zeroChar : ∀ d < 10, d ≠ 0 → digChar d ≠ '0' := by decide

theorem natDigitsRev_zero : natDigitsRev 0 = [] := by
  rw [natDigitsRev]
  simp

theorem natDigitsRev_succ (n : Nat) (h : n ≠ 0) :
    natDigitsRev n = digChar (n % 10) :: natDigitsRev (n / 10) := by
  rw [natDigitsRev]
  simp [h]

theorem natDigitsRev_all_digits (n : Nat) :
    ∀ c ∈ natDigitsRev n, isDig c = true := by
  induction n using Nat.strong_induction_on with
  | _ n ih =>
    by_cases h : n = 0
    · subst h
      rw [natDigitsRev_zero]
      intro c hc
      simp at hc
    · rw [natDigitsRev_succ n h]
      intro c hc
      rcases List.mem_cons.mp hc with rfl | hc
      · exact isDig_digChar (n % 10) (by omega)
      · exact ih (n / 10) (Nat.div_lt_self (Nat.pos_of_ne_zero h) (by norm_num)) c hc

theorem natDigitsRev_ne_nil (n : Nat) (h : n ≠ 0) : natDigitsRev n ≠ [] := by
  rw [natDigitsRev_succ n h]
  simp

theorem digitsToNat_append (xs : List Char) : ∀ (ys : List Char) (acc : Nat),
    digitsToNat acc (xs ++ ys) = digitsToNat (digitsToNat acc xs) ys := by
  induction xs with
  | nil => intro ys acc; rfl
  | cons c cs ih =>
    intro ys acc
    exact ih ys (acc * 10 + (c.toNat - 48))

theorem digitsToNat_natDigitsRev (n : Nat) : ∀ acc : Nat,
    digitsToNat acc (natDigitsRev n).reverse =
      acc * 10 ^ (natDigitsRev n).length + n := by
  induction n using Nat.strong_induction_on with
  | _ n ih =>
    intro acc
    by_cases h : n = 0
    · subst h
      rw [natDigitsRev_zero]
      show acc = acc * 10 ^ (List.length ([] : List Char)) + 0
      simp
    · rw [natDigitsRev_succ n h]
      simp only [List.reverse_cons, List.length_cons]
      rw [digitsToNat_append]
      rw [ih (n / 10) (Nat.div_lt_self (Nat.pos_of_ne_zero h) (by norm_num)) acc]
      show (acc * 10 ^ (natDigitsRev (n / 10)).length + n / 10) * 10 +
          ((digChar (n % 10)).toNat - 48) =
        acc * 10 ^ ((natDigitsRev (n / 10)).length + 1) + n
      rw [digChar_toNat (n % 10) (by omega)]
      calc (acc * 10 ^ (natDigitsRev (n / 10)).length + n / 10) * 10 + n % 10
          = acc * (10 ^ (natDigitsRev (n / 10)).length * 10) +
              (n / 10 * 10 + n % 10) := by ring
        _ = acc * (10 ^ (natDigitsRev (n / 10)).length * 10) + n := by
            congr 1
            omega
        _ = acc * 10 ^ ((natDigitsRev (n / 10)).length + 1) + n := by
            rw [pow_succ]

theorem getLast?_cons_of_ne_nil (c : Char) (l : List Char) (h : l ≠ []) :
    (c :: l).getLast? = l.getLast? := by
  cases l with
  | nil => exact absurd rfl h
  | cons a t => exact List.getLast?_cons_cons

/-- The most significant digit of a positive number is not `'0'`. -/
theorem natDigitsRev_getLast (n : Nat) (h : n ≠ 0) :
    ∃ d, d ≠ 0 ∧ d < 10 ∧ (natDigitsRev n).getLast? = some (digChar d) := by
  induction n using Nat.strong_induction_on with
  | _ n ih =>
    rw [natDigitsRev_succ n h]
    by_cases h10 : n / 10 = 0
    · refine ⟨n % 10, ?_, by omega, ?_⟩
      · intro hz
        have : n = 0 := by omega
        exact h this
      · rw [h10, natDigitsRev_zero]
        rfl
    · obtain ⟨d, hd0, hd10, hdl⟩ := ih (n / 10)
        (Nat.div_lt_self (Nat.pos_of_ne_zero h) (by norm_num)) h10
      refine ⟨d, hd0, hd10, ?_⟩
      rw [getLast?_cons_of_ne_nil _ _ (natDigitsRev_ne_nil _ h10)]
      exact hdl

theorem natStr_all_digits (n : Nat) : ∀ c ∈ natStr n, isDig c = true := by
  intro c hc
  by_cases h : n = 0
  · subst h
    rw [show natStr 0 = ['0'] from rfl] at hc
    have := List.mem_singleton.mp hc
    subst this
    rfl
  · simp only [natStr, if_neg h, List.mem_reverse] at hc
    exact natDigitsRev_all_digits n c hc

theorem natStr_ne_nil (n : Nat) : natStr n ≠ [] := by
  by_cases h : n = 0
  · subst h; simp [natStr]
  · simp only [natStr, if_neg h]
    simpa using natDigitsRev_ne_nil n h

theorem nodig_takeWhile_nil {e : List Char} (he : nodigHead e = true) :
    e.takeWhile isDig = [] := by
  cases e with
  | nil => rfl
  | cons c cs =>
    simp only [nodigHead, Bool.not_eq_true'] at he
    simp [List.takeWhile_cons, he]

theorem nodig_dropWhile_self {e : List Char} (he : nodigHead e = true) :
    e.dropWhile isDig = e := by
  cases e with
  | nil => rfl
  | cons c cs =>
    simp only [nodigHead, Bool.not_eq_true'] at he
    simp [List.dropWhile_cons, he]

/-- `parseNatTok` inverts `natStr`: the maximal digit munch recovers the
number when a non-digit (or nothing) follows. -/
theorem parseNatTok_natStr (n : Nat) (rest : List Char)
    (hrest : nodigHead rest = true) :
    parseNatTok (natStr n ++ rest) = some (n, rest) := by
  by_cases h : n = 0
  · subst h
    simp only [natStr, if_pos rfl, List.cons_append, List.nil_append]
    rfl
  · have hshape : natStr n = (natDigitsRev n).reverse := by
      simp [natStr, h]
    obtain ⟨d, hd0, hd10, hdl⟩ := natDigitsRev_getLast n h
    have hhead : (natDigitsRev n).reverse.head? = some (digChar d) := by
      rw [List.head?_reverse]
      exact hdl
    cases hrev : (natDigitsRev n).reverse with
    | nil =>
      rw [hrev] at hhead
      simp at hhead
    | cons c t =>
      rw [hrev] at hhead
      simp only [List.head?_cons, Option.some.injEq] at hhead
      subst hhead
      have halldig : ∀ x ∈ digChar d :: t, isDig x = true := by
        rw [← hrev]
        intro x hx
        exact natDigitsRev_all_digits n x (List.mem_reverse.mp hx)
      rw [hshape, hrev]
      simp only [List.cons_append, parseNatTok]
      rw [if_neg (digChar_ne_zeroChar d hd10 hd0),
        if_pos (isDig_digChar d hd10)]
      have htake : (digChar d :: (t ++ rest)).takeWhile isDig =
          digChar d :: t := by
        rw [show digChar d :: (t ++ rest) = (digChar d :: t) ++ rest from rfl,
          takeWhile_append_of_all halldig, nodig_takeWhile_nil hrest,
          List.append_nil]
      have hdrop : (digChar d :: (t ++ rest)).dropWhile isDig = rest := by
        rw [show digChar d :: (t ++ rest) = (digChar d :: t) ++ rest from rfl,
          dropWhile_append_of_all halldig, nodig_dropWhile_self hrest]
      rw [htake, hdrop]
      have hval : digitsToNat 0 (digChar d :: t) = n := by
        rw [← hrev, digitsToNat_natDigitsRev n 0]
        simp
      rw [hval]

theorem parseNum_of_head_ne_dash (c : Char) (r : List Char) (h : c ≠ '-') :
    parseNum (c :: r) =
      match parseNatTok (c :: r) with
      | some (n, rest) => if intGuard rest then some ((n : Int), rest) else none
      | none => none := by
  simp only [parseNum]
  split
  · rename_i heq
    rw [List.cons.injEq] at heq
    exact absurd heq.1 h
  · rfl

theorem natStr_head_ne_dash (n : Nat) (c : Char) (t : List Char)
    (h : natStr n = c :: t) : c ≠ '-' := by
  have : isDig c = true := natStr_all_digits n c (by rw [h]; simp)
  intro hc
  subst hc
  exact absurd this (by decide)

/-- `parseNum` inverts `str(int)`. -/
theorem parseNum_intStr (n : Int) (rest : List Char)
    (hstop : valStop rest = true) :
    parseNum (intStr n ++ rest) = some (n, rest) := by
  cases n with
  | ofNat m =>
    cases hns : natStr m with
    | nil => exact absurd hns (natStr_ne_nil m)
    | cons c t =>
      have hc : c ≠ '-' := natStr_head_ne_dash m c t hns
      rw [show intStr (Int.ofNat m) = natStr m from rfl, hns, List.cons_append,
        parseNum_of_head_ne_dash c (t ++ rest) hc,
        show c :: (t ++ rest) = (c :: t) ++ rest from rfl, ← hns,
        parseNatTok_natStr m rest (valStop_nodig hstop)]
      show (if intGuard rest then some ((m : Int), rest) else none) =
        some (Int.ofNat m, rest)
      rw [if_pos (valStop_intGuard hstop)]
      rfl
  | negSucc m =>
    rw [show intStr (Int.negSucc m) = '-' :: natStr (m + 1) from rfl,
      List.cons_append]
    have hstep : parseNum ('-' :: (natStr (m + 1) ++ rest)) =
        match parseNatTok (natStr (m + 1) ++ rest) with
        | some (n, rest) => if intGuard rest then some (-(n : Int), rest) else none
        | none => none := rfl
    rw [hstep, parseNatTok_natStr (m + 1) rest (valStop_nodig hstop)]
    show (if intGuard rest then some (-((m + 1 : Nat) : Int), rest) else none) =
      some (Int.negSucc m, rest)
    rw [if_pos (valStop_intGuard hstop)]
    have hneg : -((m + 1 : Nat) : Int) = Int.negSucc m := by
      rw [Int.negSucc_eq]
      push_cast
      ring
    rw [hneg]

theorem spaces_ws (n : Nat) : ∀ c ∈ spaces n, isJsonWs c = true := by
  intro c hc
  rw [spaces, List.mem_replicate] at hc
  rw [hc.2]
  rfl

theorem skipWs_cons_not (c : Char) (t : List Char) (h : isJsonWs c = false) :
    skipWs (c :: t) = c :: t := by
  simp [skipWs, List.dropWhile_cons, h]

theorem skipWs_append_ws (w x : List Char) (h : ∀ c ∈ w, isJsonWs c = true) :
    skipWs (w ++ x) = skipWs x :=
  dropWhile_append_of_all h

theorem skipWs_skipWs (s : List Char) : skipWs (skipWs s) = skipWs s :=
  List.dropWhile_idempotent isJsonWs s

theorem parseVal_skipWs (f : Nat) (s : List Char) :
    parseVal f (skipWs s) = parseVal f s := by
  cases f with
  | zero => rfl
  | succ f =>
    simp only [parseVal, skipWs_skipWs]

theorem parseVal_null_lit (f : Nat) (r : List Char) :
    parseVal (f + 1) ('n' :: 'u' :: 'l' :: 'l' :: r) = some (.null, r) := by
  simp only [parseVal]
  simp [skipWs, isJsonWs]

theorem parseVal_true_lit (f : Nat) (r : List Char) :
    parseVal (f + 1) ('t' :: 'r' :: 'u' :: 'e' :: r) = some (.bool true, r) := by
  simp only [parseVal]
  simp [skipWs, isJsonWs]

theorem parseVal_false_lit (f : Nat) (r : List Char) :
    parseVal (f + 1) ('f' :: 'a' :: 'l' :: 's' :: 'e' :: r) =
      some (.bool false, r) := by
  simp only [parseVal]
  simp [skipWs, isJsonWs]

theorem parseVal_emptyObj (f : Nat) (r : List Char) :
    parseVal (f + 1) ('{' :: '}' :: r) = some (.obj [], r) := by
  simp only [parseVal]
  simp [skipWs, isJsonWs]

theorem parseVal_emptyArr (f : Nat) (r : List Char) :
    parseVal (f + 1) ('[' :: ']' :: r) = some (.arr [], r) := by
  simp only [parseVal]
  simp [skipWs, isJsonWs]

theorem parseVal_str_lit (f : Nat) (r : List Char) :
    parseVal (f + 1) ('"' :: r) = (parseString r).map fun p => (.str p.1, p.2) := by
  simp only [parseVal]
  simp [skipWs, isJsonWs]

theorem parseVal_dash (f : Nat) (r : List Char) :
    parseVal (f + 1) ('-' :: r) =
      (parseNum ('-' :: r)).map fun p => (.num p.1, p.2) := by
  simp only [parseVal]
  simp [skipWs, isJsonWs]

theorem isDig_not_jsonWs (c : Char) (h : isDig c = true) : isJsonWs c = false := by
  by_contra hcon
  simp only [Bool.not_eq_false] at hcon
  simp only [isJsonWs, Bool.or_eq_true, decide_eq_true_eq] at hcon
  rcases hcon with ((rfl | rfl) | rfl) | rfl <;> exact absurd h (by decide)

theorem parseVal_digit (f : Nat) (c : Char) (r : List Char)
    (hc : isDig c = true) :
    parseVal (f + 1) (c :: r) =
      (parseNum (c :: r)).map fun p => (.num p.1, p.2) := by
  have h1 : c ≠ '{' := by intro h; rw [h] at hc; exact absurd hc (by decide)
  have h2 : c ≠ '[' := by intro h; rw [h] at hc; exact absurd hc (by decide)
  have h3 : c ≠ '"' := by intro h; rw [h] at hc; exact absurd hc (by decide)
  have h4 : c ≠ 't' := by intro h; rw [h] at hc; exact absurd hc (by decide)
  have h5 : c ≠ 'f' := by intro h; rw [h] at hc; exact absurd hc (by decide)
  have h6 : c ≠ 'n' := by intro h; rw [h] at hc; exact absurd hc (by decide)
  simp only [parseVal, skipWs_cons_not c r (isDig_not_jsonWs c hc),
    if_neg h1, if_neg h2, if_neg h3, if_neg h4, if_neg h5, if_neg h6]
  rw [if_pos (by rw [hc]; simp)]

theorem natStr_head_digit (m : Nat) (c : Char) (t : List Char)
    (h : natStr m = c :: t) : isDig c = true :=
  natStr_all_digits m c (by rw [h]; simp)

/-- Every dumped value starts with a character that is not whitespace and
not a closing bracket. -/
theorem dumpVal_head (ind : Nat) (v : JVal) :
    ∃ c t, dumpVal ind v = c :: t ∧ isJsonWs c = false ∧ c ≠ ']' ∧ c ≠ '}' := by
  cases v with
  | null => exact ⟨'n', _, rfl, rfl, by decide, by decide⟩
  | bool b =>
    cases b with
    | true => exact ⟨'t', _, rfl, rfl, by decide, by decide⟩
    | false => exact ⟨'f', _, rfl, rfl, by decide, by decide⟩
  | num n =>
    cases n with
    | ofNat m =>
      cases hns : natStr m with
      | nil => exact absurd hns (natStr_ne_nil m)
      | cons c t =>
        have hd := natStr_head_digit m c t hns
        refine ⟨c, t, ?_, isDig_not_jsonWs c hd, ?_, ?_⟩
        · rw [show dumpVal ind (.num (Int.ofNat m)) = natStr m from rfl, hns]
        · intro h; rw [h] at hd; exact absurd hd (by decide)
        · intro h; rw [h] at hd; exact absurd hd (by decide)
    | negSucc m =>
      exact ⟨'-', _, rfl, rfl, by decide, by decide⟩
  | str s => exact ⟨'"', _, rfl, rfl, by decide, by decide⟩
  | arr xs =>
    cases xs with
    | nil => exact ⟨'[', _, rfl, rfl, by decide, by decide⟩
    | cons x xs => exact ⟨'[', _, rfl, rfl, by decide, by decide⟩
  | obj m =>
    cases m with
    | nil => exact ⟨'{', _, rfl, rfl, by decide, by decide⟩
    | cons g gs => exact ⟨'{', _, rfl, rfl, by decide, by decide⟩

theorem dumpVal_length_pos (ind : Nat) (v : JVal) :
    1 ≤ (dumpVal ind v).length := by
  obtain ⟨c, t, h, _, _, _⟩ := dumpVal_head ind v
  rw [h]
  simp

theorem dumpStr_append (k X : List Char) :
    dumpStr k ++ X = '"' :: (k.flatMap escChar ++ '"' :: X) := by
  simp [dumpStr]

/-- Skipping whitespace at the head of a dumped object-items block reaches
the opening quote of the first key. -/
theorem skipWs_objIn (ind indc : Nat) (g : List Char × JVal)
    (gs : List (List Char × JVal)) (rest : List Char) :
    ∃ t, skipWs ('
' :: (dumpObjItems ind (g :: gs) ++
        ('
' :: (spaces indc ++ ('}' :: rest))))) = '"' :: t := by
  obtain ⟨k, v⟩ := g
  have h1 : isJsonWs '
' = true := rfl
  cases gs with
  | nil =>
    refine ⟨k.flatMap escChar ++ '"' :: (':' :: ' ' :: dumpVal ind v ++
      ('
' :: (spaces indc ++ ('}' :: rest)))), ?_⟩
    show skipWs ('
' :: ((spaces ind ++ (dumpStr k ++ ':' :: ' ' :: dumpVal ind v)) ++
      ('
' :: (spaces indc ++ ('}' :: rest))))) = _
    rw [show ('
' :: ((spaces ind ++ (dumpStr k ++ ':' :: ' ' :: dumpVal ind v)) ++
        ('
' :: (spaces indc ++ ('}' :: rest))))) =
      ('
' :: spaces ind) ++ ((dumpStr k ++ ':' :: ' ' :: dumpVal ind v) ++
        ('
' :: (spaces indc ++ ('}' :: rest)))) from by simp]
    rw [skipWs_append_ws _ _ (by
      intro c hc
      rcases List.mem_cons.mp hc with rfl | hc
      · rfl
      · exact spaces_ws ind c hc)]
    rw [show (dumpStr k ++ ':' :: ' ' :: dumpVal ind v) ++
        ('
' :: (spaces indc ++ ('}' :: rest))) =
      dumpStr k ++ (':' :: ' ' :: dumpVal ind v ++
        ('
' :: (spaces indc ++ ('}' :: rest)))) from by simp]
    rw [dumpStr_append]
    rw [skipWs_cons_not '"' _ rfl]
  | cons g2 gs2 =>
    refine ⟨k.flatMap escChar ++ '"' :: (':' :: ' ' :: dumpVal ind v ++
      (',' :: '
' :: dumpObjItems ind (g2 :: gs2) ++
        ('
' :: (spaces indc ++ ('}' :: rest))))), ?_⟩
    show skipWs ('
' :: ((spaces ind ++ (dumpStr k ++ ':' :: ' ' :: dumpVal ind v) ++
      ',' :: '
' :: dumpObjItems ind (g2 :: gs2)) ++
      ('
' :: (spaces indc ++ ('}' :: rest))))) = _
    rw [show ('
' :: ((spaces ind ++ (dumpStr k ++ ':' :: ' ' :: dumpVal ind v) ++
        ',' :: '
' :: dumpObjItems ind (g2 :: gs2)) ++
        ('
' :: (spaces indc ++ ('}' :: rest))))) =
      ('
' :: spaces ind) ++ (dumpStr k ++ (':' :: ' ' :: dumpVal ind v ++
        (',' :: '
' :: dumpObjItems ind (g2 :: gs2) ++
          ('
' :: (spaces indc ++ ('}' :: rest)))))) from by simp]
    rw [skipWs_append_ws _ _ (by
      intro c hc
      rcases List.mem_cons.mp hc with rfl | hc
      · rfl
      · exact spaces_ws ind c hc)]
    rw [dumpStr_append]
    rw [skipWs_cons_not '"' _ rfl]

/-- Skipping whitespace at the head of a dumped array-items block reaches
the first character of the first element, which is not a closing bracket. -/
theorem skipWs_arrIn (ind indc : Nat) (x : JVal) (xs : List JVal)
    (rest : List Char) :
    ∃ c t, skipWs ('
' :: (dumpArrItems ind (x :: xs) ++
        ('
' :: (spaces indc ++ (']' :: rest))))) = c :: t ∧
      c ≠ ']' ∧ isJsonWs c = false ∧
      (c :: t = dumpVal ind x ++ t.drop ((dumpVal ind x).length - 1)) := by
  obtain ⟨cx, tx, hx, hws, hbr, _⟩ := dumpVal_head ind x
  cases xs with
  | nil =>
    refine ⟨cx, tx ++ ('
' :: (spaces indc ++ (']' :: rest))), ?_, hbr, hws, ?_⟩
    · show skipWs ('
' :: ((spaces ind ++ dumpVal ind x) ++
        ('
' :: (spaces indc ++ (']' :: rest))))) = _
      rw [show ('
' :: ((spaces ind ++ dumpVal ind x) ++
          ('
' :: (spaces indc ++ (']' :: rest))))) =
        ('
' :: spaces ind) ++ (dumpVal ind x ++
          ('
' :: (spaces indc ++ (']' :: rest)))) from by simp]
      rw [skipWs_append_ws _ _ (by
        intro c hc
        rcases List.mem_cons.mp hc with rfl | hc
        · rfl
        · exact spaces_ws ind c hc)]
      rw [hx, List.cons_append, skipWs_cons_not _ _ hws]
    · rw [hx]
      simp
  | cons y ys =>
    refine ⟨cx, tx ++ (',' :: '
' :: dumpArrItems ind (y :: ys) ++
      ('
' :: (spaces indc ++ (']' :: rest)))), ?_, hbr, hws, ?_⟩
    · show skipWs ('
' :: ((spaces ind ++ dumpVal ind x ++
        ',' :: '
' :: dumpArrItems ind (y :: ys)) ++
        ('
' :: (spaces indc ++ (']' :: rest))))) = _
      rw [show ('
' :: ((spaces ind ++ dumpVal ind x ++
          ',' :: '
' :: dumpArrItems ind (y :: ys)) ++
          ('
' :: (spaces indc ++ (']' :: rest))))) =
        ('
' :: spaces ind) ++ (dumpVal ind x ++
          (',' :: '
' :: dumpArrItems ind (y :: ys) ++
            ('
' :: (spaces indc ++ (']' :: rest))))) from by simp]
      rw [skipWs_append_ws _ _ (by
        intro c hc
        rcases List.mem_cons.mp hc with rfl | hc
        · rfl
        · exact spaces_ws ind c hc)]
      rw [hx, List.cons_append, skipWs_cons_not _ _ hws]
    · rw [hx]
      simp

theorem parseVal_lbrace (f : Nat) (r : List Char) :
    parseVal (f + 1) ('{' :: r) =
      (match skipWs r with
      | [] => (parseObjItems f [] r).map fun p => (JVal.obj p.1, p.2)
      | c2 :: r2 =>
        if c2 = '}' then some (JVal.obj [], r2)
        else (parseObjItems f [] r).map fun p => (JVal.obj p.1, p.2)) := by
  simp only [parseVal, skipWs_cons_not '{' r rfl]
  simp

theorem parseVal_lbrack (f : Nat) (r : List Char) :
    parseVal (f + 1) ('[' :: r) =
      (match skipWs r with
      | [] => (parseArrItems f [] r).map fun p => (JVal.arr p.1, p.2)
      | c2 :: r2 =>
        if c2 = ']' then some (JVal.arr [], r2)
        else (parseArrItems f [] r).map fun p => (JVal.arr p.1, p.2)) := by
  simp only [parseVal, skipWs_cons_not '[' r rfl]
  simp

/-- Leading newline plus indent whitespace is skipped. -/
theorem skipWs_nlsp (ind : Nat) (X : List Char) :
    skipWs ('\n' :: (spaces ind ++ X)) = skipWs X := by
  rw [show ('\n' :: (spaces ind ++ X)) = ('\n' :: spaces ind) ++ X from by simp]
  exact skipWs_append_ws _ _ (by
    intro d hd
    rcases List.mem_cons.mp hd with rfl | hd
    · rfl
    · exact spaces_ws ind d hd)

/-- The blank of the key separator is skipped. -/
theorem skipWs_sp (X : List Char) : skipWs (' ' :: X) = skipWs X := by
  rw [show (' ' :: X) = [' '] ++ X from rfl]
  exact skipWs_append_ws [' '] X (by
    intro d hd
    rcases List.mem_singleton.mp hd with rfl
    rfl)

/-- A dumped value never starts with whitespace, so it survives skipWs. -/
theorem skipWs_dumpVal (ind : Nat) (x : JVal) (T : List Char) :
    skipWs (dumpVal ind x ++ T) = dumpVal ind x ++ T := by
  obtain ⟨c, t, hx, hws, _, _⟩ := dumpVal_head ind x
  rw [hx, List.cons_append, skipWs_cons_not _ _ hws]

/-- One comma-separated step of the array-items loop. -/
theorem parseArrItems_step (f : Nat) (acc : List JVal) (s r r2 : List Char)
    (v : JVal) (h1 : parseVal f s = some (v, r)) (h2 : skipWs r = ',' :: r2) :
    parseArrItems (f + 1) acc s = parseArrItems f (acc ++ [v]) r2 := by
  simp only [parseArrItems, h1, h2]
  simp

/-- The closing-bracket step of the array-items loop. -/
theorem parseArrItems_last (f : Nat) (acc : List JVal) (s r r2 : List Char)
    (v : JVal) (h1 : parseVal f s = some (v, r)) (h2 : skipWs r = ']' :: r2) :
    parseArrItems (f + 1) acc s = some (acc ++ [v], r2) := by
  simp only [parseArrItems, h1, h2]
  simp

/-- One comma-separated step of the object-items loop. -/
theorem parseObjItems_step (f : Nat) (acc : List (List Char × JVal))
    (s r r1 r2 r3 r4 k : List Char) (v : JVal)
    (h0 : skipWs s = '"' :: r) (h1 : parseString r = some (k, r1))
    (h2 : skipWs r1 = ':' :: r2) (h3 : parseVal f r2 = some (v, r3))
    (h4 : skipWs r3 = ',' :: r4) :
    parseObjItems (f + 1) acc s = parseObjItems f (setKey acc k v) r4 := by
  simp only [parseObjItems, h0, h1, h2, h3, h4]
  simp

/-- The closing-brace step of the object-items loop. -/
theorem parseObjItems_last (f : Nat) (acc : List (List Char × JVal))
    (s r r1 r2 r3 r4 k : List Char) (v : JVal)
    (h0 : skipWs s = '"' :: r) (h1 : parseString r = some (k, r1))
    (h2 : skipWs r1 = ':' :: r2) (h3 : parseVal f r2 = some (v, r3))
    (h4 : skipWs r3 = '}' :: r4) :
    parseObjItems (f + 1) acc s = some (setKey acc k v, r4) := by
  simp only [parseObjItems, h0, h1, h2, h3, h4]
  simp

/-- Joint roundtrip: fuel strictly decreases across every recursive call of
the parser, so one strong induction on fuel settles values, array items and
object items together. -/
theorem parse_dump_all : ∀ f : Nat,
    (∀ (v : JVal) (ind : Nat) (rest : List Char), WFJ v → valStop rest = true →
      (dumpVal ind v ++ rest).length < f →
      parseVal f (dumpVal ind v ++ rest) = some (v, rest)) ∧
    (∀ (xs : List JVal) (acc : List JVal) (ind indc : Nat) (rest : List Char),
      xs ≠ [] → WFL xs →
      ('\n' :: (dumpArrItems ind xs ++ ('\n' :: (spaces indc ++ (']' :: rest))))).length < f →
      parseArrItems f acc
        ('\n' :: (dumpArrItems ind xs ++ ('\n' :: (spaces indc ++ (']' :: rest))))) =
        some (acc ++ xs, rest)) ∧
    (∀ (m : List (List Char × JVal)) (acc : List (List Char × JVal)) (ind indc : Nat)
      (rest : List Char), m ≠ [] → WFM m → (m.map Prod.fst).Nodup →
      (∀ p ∈ m, ∀ q ∈ acc, q.1 ≠ p.1) →
      ('\n' :: (dumpObjItems ind m ++ ('\n' :: (spaces indc ++ ('}' :: rest))))).length < f →
      parseObjItems f acc
        ('\n' :: (dumpObjItems ind m ++ ('\n' :: (spaces indc ++ ('}' :: rest))))) =
        some (acc ++ m, rest)) := by
  intro f
  induction f using Nat.strong_induction_on with
  | _ f ih =>
    refine ⟨?_, ?_, ?_⟩
    · -- values
      intro v ind rest hwf hstop hf
      cases f with
      | zero => simp at hf
      | succ f =>
        cases v with
        | null =>
          rw [show dumpVal ind .null ++ rest = 'n' :: 'u' :: 'l' :: 'l' :: rest from rfl,
            parseVal_null_lit]
        | bool b =>
          cases b with
          | true =>
            rw [show dumpVal ind (.bool true) ++ rest =
              't' :: 'r' :: 'u' :: 'e' :: rest from rfl, parseVal_true_lit]
          | false =>
            rw [show dumpVal ind (.bool false) ++ rest =
              'f' :: 'a' :: 'l' :: 's' :: 'e' :: rest from rfl, parseVal_false_lit]
        | num n =>
          cases n with
          | ofNat m =>
            cases hns : natStr m with
            | nil => exact absurd hns (natStr_ne_nil m)
            | cons c t =>
              have hstep : dumpVal ind (.num (Int.ofNat m)) ++ rest = c :: (t ++ rest) := by
                rw [show dumpVal ind (.num (Int.ofNat m)) = natStr m from rfl, hns]
                simp
              rw [hstep, parseVal_digit f c (t ++ rest) (natStr_head_digit m c t hns),
                show c :: (t ++ rest) = (c :: t) ++ rest from rfl, ← hns,
                show natStr m = intStr (Int.ofNat m) from rfl,
                parseNum_intStr (Int.ofNat m) rest hstop]
              rfl
          | negSucc m =>
            rw [show dumpVal ind (.num (Int.negSucc m)) ++ rest =
              '-' :: (natStr (m + 1) ++ rest) from rfl, parseVal_dash,
              show '-' :: (natStr (m + 1) ++ rest) =
                intStr (Int.negSucc m) ++ rest from rfl,
              parseNum_intStr (Int.negSucc m) rest hstop]
            rfl
        | str s =>
          rw [show dumpVal ind (.str s) ++ rest = dumpStr s ++ rest from rfl,
            dumpStr_append, parseVal_str_lit, parseString_roundtrip]
          rfl
        | arr xs =>
          cases xs with
          | nil =>
            rw [show dumpVal ind (.arr []) ++ rest = '[' :: ']' :: rest from rfl,
              parseVal_emptyArr]
          | cons x xs =>
            have hshape : dumpVal ind (.arr (x :: xs)) ++ rest =
                '[' :: ('\n' :: (dumpArrItems (ind + 2) (x :: xs) ++
                  ('\n' :: (spaces ind ++ (']' :: rest))))) := by
              show ('[' :: '\n' :: (dumpArrItems (ind + 2) (x :: xs) ++
                '\n' :: (spaces ind ++ [']']))) ++ rest = _
              simp
            rw [hshape, parseVal_lbrack]
            obtain ⟨c2, t2, hskip, hne2, _, _⟩ := skipWs_arrIn (ind + 2) ind x xs rest
            rw [hskip]
            have harr := (ih (f) (by omega)).2.1 (x :: xs) [] (ind + 2) ind rest
              (by simp) (by simpa [WFJ] using hwf)
              (by
                have := hf
                rw [hshape] at this
                simp only [List.length_cons] at this ⊢
                omega)
            simp only [if_neg hne2, harr]
            rfl
        | obj m =>
          cases m with
          | nil =>
            rw [show dumpVal ind (.obj []) ++ rest = '{' :: '}' :: rest from rfl,
              parseVal_emptyObj]
          | cons g gs =>
            have hshape : dumpVal ind (.obj (g :: gs)) ++ rest =
                '{' :: ('\n' :: (dumpObjItems (ind + 2) (g :: gs) ++
                  ('\n' :: (spaces ind ++ ('}' :: rest))))) := by
              show ('{' :: '\n' :: (dumpObjItems (ind + 2) (g :: gs) ++
                '\n' :: (spaces ind ++ ['}']))) ++ rest = _
              simp
            rw [hshape, parseVal_lbrace]
            obtain ⟨t2, hskip⟩ := skipWs_objIn (ind + 2) ind g gs rest
            rw [hskip]
            have hwf' : ((g :: gs).map Prod.fst).Nodup ∧ WFM (g :: gs) := by
              simpa [WFJ] using hwf
            have hobj := (ih f (by omega)).2.2 (g :: gs) [] (ind + 2) ind rest
              (by simp) hwf'.2 hwf'.1 (by simp)
              (by
                have h9 := hf
                rw [hshape] at h9
                simp only [List.length_cons] at h9 ⊢
                omega)
            simp only [if_neg (show ('"' : Char) ≠ '}' from by decide), hobj]
            rfl
    · -- array items
      intro xs acc ind indc rest hne hwf hf
      cases f with
      | zero => simp at hf
      | succ f =>
        cases xs with
        | nil => exact absurd rfl hne
        | cons x xs =>
          cases xs with
          | nil =>
            have hskip : skipWs ('\n' :: (dumpArrItems ind [x] ++
                ('\n' :: (spaces indc ++ (']' :: rest))))) =
                dumpVal ind x ++ ('\n' :: (spaces indc ++ (']' :: rest))) := by
              rw [show ('\n' :: (dumpArrItems ind [x] ++
                  ('\n' :: (spaces indc ++ (']' :: rest))))) =
                '\n' :: (spaces ind ++ (dumpVal ind x ++
                  ('\n' :: (spaces indc ++ (']' :: rest))))) from by
                simp [dumpArrItems]]
              rw [skipWs_nlsp, skipWs_dumpVal]
            have hlen : (dumpVal ind x ++
                ('\n' :: (spaces indc ++ (']' :: rest)))).length < f := by
              simp only [dumpArrItems, List.length_cons, List.length_append,
                spaces, List.length_replicate] at hf ⊢
              omega
            have hval : parseVal f ('\n' :: (dumpArrItems ind [x] ++
                ('\n' :: (spaces indc ++ (']' :: rest))))) =
                some (x, '\n' :: (spaces indc ++ (']' :: rest))) := by
              rw [← parseVal_skipWs, hskip]
              exact (ih f (by omega)).1 x ind _ (by simpa [WFL] using hwf.1) rfl hlen
            have hend : skipWs ('\n' :: (spaces indc ++ (']' :: rest))) =
                ']' :: rest := by
              rw [skipWs_nlsp, skipWs_cons_not ']' rest rfl]
            rw [parseArrItems_last f acc _ _ rest x hval hend]
          | cons y ys =>
            have hskip : skipWs ('\n' :: (dumpArrItems ind (x :: y :: ys) ++
                ('\n' :: (spaces indc ++ (']' :: rest))))) =
                dumpVal ind x ++ (',' :: ('\n' :: (dumpArrItems ind (y :: ys) ++
                  ('\n' :: (spaces indc ++ (']' :: rest)))))) := by
              rw [show ('\n' :: (dumpArrItems ind (x :: y :: ys) ++
                  ('\n' :: (spaces indc ++ (']' :: rest))))) =
                '\n' :: (spaces ind ++ (dumpVal ind x ++
                  (',' :: ('\n' :: (dumpArrItems ind (y :: ys) ++
                    ('\n' :: (spaces indc ++ (']' :: rest)))))))) from by
                simp [dumpArrItems]]
              rw [skipWs_nlsp, skipWs_dumpVal]
            have hlen : (dumpVal ind x ++ (',' :: ('\n' :: (dumpArrItems ind (y :: ys) ++
                ('\n' :: (spaces indc ++ (']' :: rest))))))).length < f := by
              simp only [dumpArrItems, List.length_cons, List.length_append,
                spaces, List.length_replicate] at hf ⊢
              omega
            have hval : parseVal f ('\n' :: (dumpArrItems ind (x :: y :: ys) ++
                ('\n' :: (spaces indc ++ (']' :: rest))))) =
                some (x, ',' :: ('\n' :: (dumpArrItems ind (y :: ys) ++
                  ('\n' :: (spaces indc ++ (']' :: rest)))))) := by
              rw [← parseVal_skipWs, hskip]
              exact (ih f (by omega)).1 x ind _ (by simpa [WFL] using hwf.1) rfl hlen
            rw [parseArrItems_step f acc _ _ _ x hval (skipWs_cons_not ',' _ rfl)]
            have hrec := (ih f (by omega)).2.1 (y :: ys) (acc ++ [x]) ind indc rest
              (by simp) (by simpa [WFL] using hwf.2)
              (by
                simp only [dumpArrItems, List.length_cons, List.length_append,
                  spaces, List.length_replicate] at hf ⊢
                have := dumpVal_length_pos ind x
                omega)
            rw [hrec]
            simp
    · -- object items
      intro m acc ind indc rest hne hwfm hnodup hfresh hf
      cases f with
      | zero => simp at hf
      | succ f =>
        cases m with
        | nil => exact absurd rfl hne
        | cons g gs =>
          obtain ⟨k, v⟩ := g
          cases gs with
          | nil =>
            have hskip : skipWs ('\n' :: (dumpObjItems ind [(k, v)] ++
                ('\n' :: (spaces indc ++ ('}' :: rest))))) =
                '"' :: (k.flatMap escChar ++ '"' :: (':' :: ' ' :: (dumpVal ind v ++
                  ('\n' :: (spaces indc ++ ('}' :: rest)))))) := by
              rw [show ('\n' :: (dumpObjItems ind [(k, v)] ++
                  ('\n' :: (spaces indc ++ ('}' :: rest))))) =
                '\n' :: (spaces ind ++ (dumpStr k ++ (':' :: ' ' :: (dumpVal ind v ++
                  ('\n' :: (spaces indc ++ ('}' :: rest))))))) from by
                simp [dumpObjItems]]
              rw [skipWs_nlsp, dumpStr_append, skipWs_cons_not '"' _ rfl]
            have hlen : (dumpVal ind v ++
                ('\n' :: (spaces indc ++ ('}' :: rest)))).length < f := by
              simp only [dumpObjItems, List.length_cons, List.length_append,
                spaces, List.length_replicate] at hf ⊢
              omega
            have hval : parseVal f (' ' :: (dumpVal ind v ++
                ('\n' :: (spaces indc ++ ('}' :: rest))))) =
                some (v, '\n' :: (spaces indc ++ ('}' :: rest))) := by
              rw [← parseVal_skipWs, skipWs_sp, skipWs_dumpVal]
              exact (ih f (by omega)).1 v ind _ hwfm.1 rfl hlen
            have hend : skipWs ('\n' :: (spaces indc ++ ('}' :: rest))) =
                '}' :: rest := by
              rw [skipWs_nlsp, skipWs_cons_not '}' rest rfl]
            rw [parseObjItems_last f acc _ _ _ _ _ rest k v hskip
              (parseString_roundtrip k _) (skipWs_cons_not ':' _ rfl) hval hend]
            rw [setKey_of_not_mem k v acc (fun q hq => hfresh (k, v) (by simp) q hq)]
          | cons g2 gs2 =>
            have hskip : skipWs ('\n' :: (dumpObjItems ind ((k, v) :: g2 :: gs2) ++
                ('\n' :: (spaces indc ++ ('}' :: rest))))) =
                '"' :: (k.flatMap escChar ++ '"' :: (':' :: ' ' :: (dumpVal ind v ++
                  (',' :: ('\n' :: (dumpObjItems ind (g2 :: gs2) ++
                    ('\n' :: (spaces indc ++ ('}' :: rest))))))))) := by
              rw [show ('\n' :: (dumpObjItems ind ((k, v) :: g2 :: gs2) ++
                  ('\n' :: (spaces indc ++ ('}' :: rest))))) =
                '\n' :: (spaces ind ++ (dumpStr k ++ (':' :: ' ' :: (dumpVal ind v ++
                  (',' :: ('\n' :: (dumpObjItems ind (g2 :: gs2) ++
                    ('\n' :: (spaces indc ++ ('}' :: rest)))))))))) from by
                simp [dumpObjItems]]
              rw [skipWs_nlsp, dumpStr_append, skipWs_cons_not '"' _ rfl]
            have hlen : (dumpVal ind v ++ (',' :: ('\n' :: (dumpObjItems ind (g2 :: gs2) ++
                ('\n' :: (spaces indc ++ ('}' :: rest))))))).length < f := by
              simp only [dumpObjItems, List.length_cons, List.length_append,
                spaces, List.length_replicate] at hf ⊢
              omega
            have hval : parseVal f (' ' :: (dumpVal ind v ++
                (',' :: ('\n' :: (dumpObjItems ind (g2 :: gs2) ++
                  ('\n' :: (spaces indc ++ ('}' :: rest)))))))) =
                some (v, ',' :: ('\n' :: (dumpObjItems ind (g2 :: gs2) ++
                  ('\n' :: (spaces indc ++ ('}' :: rest)))))) := by
              rw [← parseVal_skipWs, skipWs_sp, skipWs_dumpVal]
              exact (ih f (by omega)).1 v ind _ hwfm.1 rfl hlen
            rw [parseObjItems_step f acc _ _ _ _ _ _ k v hskip
              (parseString_roundtrip k _) (skipWs_cons_not ':' _ rfl) hval
              (skipWs_cons_not ',' _ rfl)]
            rw [setKey_of_not_mem k v acc (fun q hq => hfresh (k, v) (by simp) q hq)]
            have hknotin : k ∉ (g2 :: gs2).map Prod.fst := by
              have h2 := hnodup
              simp only [List.map_cons, List.nodup_cons] at h2
              exact h2.1
            have hrec := (ih f (by omega)).2.2 (g2 :: gs2) (acc ++ [(k, v)]) ind indc rest
              (by simp) hwfm.2
              (by
                have h2 := hnodup
                rw [List.map_cons, List.nodup_cons] at h2
                exact h2.2)
              (by
                intro p hp q hq
                rcases List.mem_append.mp hq with hq | hq
                · exact hfresh p (List.mem_cons.mpr (Or.inr hp)) q hq
                · rcases List.mem_singleton.mp hq with rfl
                  intro hkp
                  have hk : k = p.1 := hkp
                  exact hknotin (by rw [hk]; exact List.mem_map.mpr ⟨p, hp, rfl⟩))
              (by
                simp only [dumpObjItems, List.length_cons, List.length_append,
                  spaces, List.length_replicate] at hf ⊢
                have := dumpVal_length_pos ind v
                omega)
            rw [hrec]
            simp

/-- Appending a well-formed element preserves element well-formedness. -/
theorem WFL_concat (v : JVal) (hv : WFJ v) :
    ∀ acc : List JVal, WFL acc → WFL (acc ++ [v]) := by
  intro acc
  induction acc with
  | nil => exact fun _ => ⟨hv, trivial⟩
  | cons x t ih => exact fun h => ⟨h.1, ih h.2⟩

/-- Python dict assignment preserves key distinctness. -/
theorem setKey_nodup (k : List Char) (v : JVal) (m : List (List Char × JVal))
    (h : (m.map Prod.fst).Nodup) : ((setKey m k v).map Prod.fst).Nodup := by
  rw [setKey_map_fst]
  by_cases hmem : k ∈ m.map Prod.fst
  · rw [if_pos hmem]
    exact h
  · rw [if_neg hmem, List.nodup_append]
    exact ⟨h, List.nodup_singleton k,
      fun a ha hb => hmem (by rwa [List.mem_singleton.mp hb] at ha)⟩

/-- Python dict assignment preserves nested well-formedness. -/
theorem setKey_WFM (k : List Char) (v : JVal) (hv : WFJ v) :
    ∀ m : List (List Char × JVal), WFM m → WFM (setKey m k v) := by
  intro m
  induction m with
  | nil => exact fun _ => ⟨hv, trivial⟩
  | cons p t ih =>
    obtain ⟨k2, v2⟩ := p
    intro h
    by_cases hk : k2 = k
    · simp only [setKey, if_pos hk]
      exact ⟨hv, h.2⟩
    · simp only [setKey, if_neg hk]
      exact ⟨h.1, ih h.2⟩

/-- Everything the parser returns is well formed: objects built through
`setKey` keep distinct keys at every depth. -/
theorem parse_WF_all : ∀ f : Nat,
    (∀ s v r, parseVal f s = some (v, r) → WFJ v) ∧
    (∀ acc s m r, WFL acc → parseArrItems f acc s = some (m, r) → WFL m) ∧
    (∀ acc s m r, WFM acc → (acc.map Prod.fst).Nodup →
      parseObjItems f acc s = some (m, r) →
      WFM m ∧ (m.map Prod.fst).Nodup) := by
  intro f
  induction f using Nat.strong_induction_on with
  | _ f ih =>
    refine ⟨?_, ?_, ?_⟩
    · intro s v r h
      cases f with
      | zero => simp [parseVal] at h
      | succ f =>
        simp only [parseVal] at h
        split at h
        · exact absurd h (by simp)
        · rename_i c r1 hsk
          split_ifs at h with h1 h2 h3 h4 h5 h6 h7 h8 h9 h10
          · -- object
            split at h
            · obtain ⟨p, hp, hpv⟩ := Option.map_eq_some'.mp h
              obtain ⟨rfl, rfl⟩ := Prod.mk.injEq .. ▸ hpv
              have hm := (ih f (by omega)).2.2 [] r1 p.1 p.2 trivial List.nodup_nil hp
              exact ⟨hm.2, hm.1⟩
            · rename_i c2 r2 hsk2
              split_ifs at h with hc2
              · obtain ⟨rfl, rfl⟩ := Prod.mk.injEq .. ▸ (Option.some.injEq .. ▸ h)
                exact ⟨List.nodup_nil, trivial⟩
              · obtain ⟨p, hp, hpv⟩ := Option.map_eq_some'.mp h
                obtain ⟨rfl, rfl⟩ := Prod.mk.injEq .. ▸ hpv
                have hm := (ih f (by omega)).2.2 [] r1 p.1 p.2 trivial List.nodup_nil hp
                exact ⟨hm.2, hm.1⟩
          · -- array
            split at h
            · obtain ⟨p, hp, hpv⟩ := Option.map_eq_some'.mp h
              obtain ⟨rfl, rfl⟩ := Prod.mk.injEq .. ▸ hpv
              exact (ih f (by omega)).2.1 [] r1 p.1 p.2 trivial hp
            · rename_i c2 r2 hsk2
              split_ifs at h with hc2
              · obtain ⟨rfl, rfl⟩ := Prod.mk.injEq .. ▸ (Option.some.injEq .. ▸ h)
                exact trivial
              · obtain ⟨p, hp, hpv⟩ := Option.map_eq_some'.mp h
                obtain ⟨rfl, rfl⟩ := Prod.mk.injEq .. ▸ hpv
                exact (ih f (by omega)).2.1 [] r1 p.1 p.2 trivial hp
          · -- string
            obtain ⟨p, hp, hpv⟩ := Option.map_eq_some'.mp h
            obtain ⟨rfl, rfl⟩ := Prod.mk.injEq .. ▸ hpv
            exact trivial
          · -- true literal
            obtain ⟨rfl, rfl⟩ := Prod.mk.injEq .. ▸ (Option.some.injEq .. ▸ h)
            exact trivial
          · -- false literal
            obtain ⟨rfl, rfl⟩ := Prod.mk.injEq .. ▸ (Option.some.injEq .. ▸ h)
            exact trivial
          · -- null literal
            obtain ⟨rfl, rfl⟩ := Prod.mk.injEq .. ▸ (Option.some.injEq .. ▸ h)
            exact trivial
          · -- number
            obtain ⟨p, hp, hpv⟩ := Option.map_eq_some'.mp h
            obtain ⟨rfl, rfl⟩ := Prod.mk.injEq .. ▸ hpv
            exact trivial
    · intro acc s m r hacc h
      cases f with
      | zero => simp [parseArrItems] at h
      | succ f =>
        simp only [parseArrItems] at h
        split at h
        · exact absurd h (by simp)
        · rename_i v r1 hpv
          have hv : WFJ v := (ih f (by omega)).1 s v r1 hpv
          split at h
          · exact absurd h (by simp)
          · rename_i c r2 hsk
            split_ifs at h with hc1 hc2
            · exact (ih f (by omega)).2.1 (acc ++ [v]) r2 m r
                (WFL_concat v hv acc hacc) h
            · obtain ⟨rfl, rfl⟩ := Prod.mk.injEq .. ▸ (Option.some.injEq .. ▸ h)
              exact WFL_concat v hv acc hacc
    · intro acc s m r hacc hnd h
      cases f with
      | zero => simp [parseObjItems] at h
      | succ f =>
        simp only [parseObjItems] at h
        split at h
        · exact absurd h (by simp)
        · rename_i c r1 hsk
          split_ifs at h with hc
          · split at h
            · exact absurd h (by simp)
            · rename_i k r2 hps
              split at h
              · exact absurd h (by simp)
              · rename_i c2 r3 hsk2
                split_ifs at h with hc2
                · split at h
                  · exact absurd h (by simp)
                  · rename_i v r4 hpv
                    have hv : WFJ v := (ih f (by omega)).1 r3 v r4 hpv
                    split at h
                    · exact absurd h (by simp)
                    · rename_i c3 r5 hsk3
                      split_ifs at h with hc3 hc4
                      · exact (ih f (by omega)).2.2 (setKey acc k v) r5 m r
                          (setKey_WFM k v hv acc hacc) (setKey_nodup k v acc hnd) h
                      · obtain ⟨rfl, rfl⟩ :=
                          Prod.mk.injEq .. ▸ (Option.some.injEq .. ▸ h)
                        exact ⟨setKey_WFM k v hv acc hacc, setKey_nodup k v acc hnd⟩

/-- A dumped value never ends in a newline. -/
theorem dumpVal_ends (ind : Nat) (v : JVal) :
    ∃ Y c, dumpVal ind v = Y ++ [c] ∧ c ≠ '\n' := by
  cases v with
  | null => exact ⟨['n', 'u', 'l'], 'l', rfl, by decide⟩
  | bool b =>
    cases b with
    | true => exact ⟨['t', 'r', 'u'], 'e', rfl, by decide⟩
    | false => exact ⟨['f', 'a', 'l', 's'], 'e', rfl, by decide⟩
  | num n =>
    cases n with
    | ofNat k =>
      have hne := natStr_ne_nil k
      refine ⟨(natStr k).dropLast, (natStr k).getLast hne, ?_, ?_⟩
      · show natStr k = _
        exact (List.dropLast_append_getLast hne).symm
      · have hd := natStr_all_digits k _ (List.getLast_mem hne)
        intro hEq
        rw [hEq] at hd
        exact absurd hd (by decide)
    | negSucc k =>
      have hne := natStr_ne_nil (k + 1)
      refine ⟨'-' :: (natStr (k + 1)).dropLast, (natStr (k + 1)).getLast hne, ?_, ?_⟩
      · show '-' :: natStr (k + 1) = _
        rw [List.cons_append, List.dropLast_append_getLast hne]
      · have hd := natStr_all_digits (k + 1) _ (List.getLast_mem hne)
        intro hEq
        rw [hEq] at hd
        exact absurd hd (by decide)
  | str s =>
    refine ⟨'"' :: s.flatMap escChar, '"', ?_, by decide⟩
    show dumpStr s = _
    simp [dumpStr]
  | arr xs =>
    cases xs with
    | nil => exact ⟨['['], ']', rfl, by decide⟩
    | cons x t =>
      refine ⟨'[' :: '\n' :: (dumpArrItems (ind + 2) (x :: t) ++ '\n' :: spaces ind),
        ']', ?_, by decide⟩
      show '[' :: '\n' :: (dumpArrItems (ind + 2) (x :: t) ++
        '\n' :: (spaces ind ++ [']'])) = _
      simp
  | obj m =>
    cases m with
    | nil => exact ⟨['{'], '}', rfl, by decide⟩
    | cons g t =>
      refine ⟨'{' :: '\n' :: (dumpObjItems (ind + 2) (g :: t) ++ '\n' :: spaces ind),
        '}', ?_, by decide⟩
      show '{' :: '\n' :: (dumpObjItems (ind + 2) (g :: t) ++
        '\n' :: (spaces ind ++ ['}'])) = _
      simp

/-- Top-level roundtrip: serializing a well-formed value and adding the final
newline yields text `json.load` parses back to the same value. -/
theorem dump_parseJson (v : JVal) (h : WFJ v) :
    parseJson (dumpJson v ++ ['\n']) = some v := by
  have hrt := (parse_dump_all ((dumpVal 0 v ++ ['\n']).length + 1)).1 v 0 ['\n']
    h rfl (Nat.lt_succ_self _)
  simp only [parseJson]
  rw [show dumpJson v = dumpVal 0 v from rfl, hrt]
  simp [skipWs, isJsonWs]

/-- C5.  For every version and every filesystem whose manifest exists and
parses to a JSON object, the structured-manifest updater reports `updated` and
writes back the 2-space-indented serialization of the mapping with the
`version-string` field set to exactly the version: the written file parses
back, every other top-level field keeps its value and relative order, and the
file ends with exactly one trailing newline. -/
theorem claim5_manifest (v c : List Char) (m : List (List Char × JVal))
    (fs : FS) (hc : fs.vcpkg = some c) (hp : parseJson c = some (.obj m)) :
    manifestOK v m fs := by
  have hwfm : WFJ (.obj m) := by
    simp only [parseJson] at hp
    split at hp
    · rename_i v1 rest1 hpv
      split_ifs at hp
      have hv1 : v1 = .obj m := Option.some.injEq .. ▸ hp
      rw [← hv1]
      exact (parse_WF_all (c.length + 1)).1 c v1 rest1 hpv
    · exact absurd hp (by simp)
  have hwf : WFJ (JVal.obj (setKey m verKey (.str v))) :=
    ⟨setKey_nodup verKey (.str v) m hwfm.1,
     setKey_WFM verKey (.str v) trivial m hwfm.2⟩
  refine ⟨{ fs with
      vcpkg := some (dumpJson (.obj (setKey m verKey (.str v))) ++ ['\n']) },
    ?_, dumpJson (.obj (setKey m verKey (.str v))) ++ ['\n'],
    rfl, rfl, ?_, ?_, ?_, ?_, ?_⟩
  · simp only [update_vcpkg_json, hc, hp]
  · exact dump_parseJson _ hwf
  · exact getKey_setKey_self verKey (.str v) m
  · intro k hk
    exact getKey_setKey_other verKey k (.str v) hk m
  · exact setKey_map_fst verKey (.str v) m
  · obtain ⟨Y, ch, hY, hch⟩ := dumpVal_ends 0 (.obj (setKey m verKey (.str v)))
    exact ⟨Y, ch, hch,
      by rw [show dumpJson (.obj (setKey m verKey (.str v))) =
        dumpVal 0 (.obj (setKey m verKey (.str v))) from rfl, hY]⟩

/-- Witness for C5: the empty manifest object gains the version field. -/
theorem claim5_manifest_witness :
    ({ emptyFS with vcpkg := some ['\x7b', '\x7d'] } : FS).vcpkg =
      some ['\x7b', '\x7d'] ∧
    parseJson ['\x7b', '\x7d'] = some (.obj []) ∧
    manifestOK "2.0.0".toList []
      { emptyFS with vcpkg := some ['\x7b', '\x7d'] } :=
  ⟨rfl, rfl, claim5_manifest "2.0.0".toList ['\x7b', '\x7d'] []
    { emptyFS with vcpkg := some ['\x7b', '\x7d'] } rfl rfl⟩

/-! ## Idempotence of the substitution engine -/

/-- Characters of a version body are digits or dots. -/
theorem VD_chars : ∀ k m, VD k m → ∀ x ∈ m, isDig x = true ∨ x = '.' := by
  intro k
  induction k using Nat.strong_induction_on with
  | _ k ih =>
    intro m hm x hx
    cases k with
    | zero => exact hm.elim
    | succ k0 =>
      cases k0 with
      | zero => exact Or.inl (hm.2 x hx)
      | succ j =>
        obtain ⟨a, m2, hane, hdig, hvd, hsplit⟩ := hm
        subst hsplit
        rcases List.mem_append.mp hx with h | h
        · exact Or.inl (hdig x h)
        · rcases List.mem_cons.mp h with rfl | h
          · exact Or.inr rfl
          · exact ih (j + 1) (by omega) m2 hvd x h

/-- A version body starts with a digit. -/
theorem VD_head : ∀ k m, 1 ≤ k → VD k m → ∃ d t, m = d :: t ∧ isDig d = true := by
  intro k m hk hm
  cases k with
  | zero => exact absurd hk (by omega)
  | succ k0 =>
    cases k0 with
    | zero =>
      obtain ⟨hne, hdig⟩ := hm
      cases m with
      | nil => exact absurd rfl hne
      | cons d t => exact ⟨d, t, rfl, hdig d (by simp)⟩
    | succ j =>
      obtain ⟨a, m2, hane, hdig, hvd, hsplit⟩ := hm
      cases a with
      | nil => exact absurd rfl hane
      | cons d t =>
        exact ⟨d, t ++ '.' :: m2, by rw [hsplit]; simp, hdig d (by simp)⟩

/-- A suffix of an append is a suffix of the second part, or carries a
nonempty suffix of the first part. -/
theorem suffix_append_cases {y A B : List Char} (h : y <:+ A ++ B) :
    y <:+ B ∨ ∃ a, a <:+ A ∧ a ≠ [] ∧ y = a ++ B := by
  induction A with
  | nil => exact Or.inl (by simpa using h)
  | cons a A2 ih =>
    rw [List.cons_append] at h
    rcases List.suffix_cons_iff.mp h with rfl | h2
    · exact Or.inr ⟨a :: A2, List.suffix_refl _, by simp, by simp⟩
    · rcases ih h2 with h3 | ⟨a2, ha2, hne, rfl⟩
      · exact Or.inl h3
      · exact Or.inr ⟨a2, ha2.trans (List.suffix_cons a A2), hne, rfl⟩

/-- A successful head match rewrites `subPat` to one replacement plus the
substitution of the remainder. -/
theorem subPat_match {pre repl s m r : List Char}
    (h : matchPat pre s = some (m, r)) :
    subPat pre repl s = repl ++ subPat pre repl r := by
  obtain ⟨hsplit, hne⟩ := matchPat_consume h
  cases s with
  | nil =>
    cases m with
    | nil => exact absurd rfl hne
    | cons _ _ => simp at hsplit
  | cons c cs =>
    rw [subPat_cons, h]

/-- Substitution with a replacement headed by a non-digit preserves a
non-digit head. -/
theorem subPat_nodigHead (p0 : Char) (pr V : List Char)
    (hp0 : isDig p0 = false) :
    ∀ s, nodigHead s = true →
      nodigHead (subPat (p0 :: pr) ((p0 :: pr) ++ V) s) = true := by
  intro s hs
  cases s with
  | nil => exact hs
  | cons c cs =>
    cases hm : matchPat (p0 :: pr) (c :: cs) with
    | some pr2 =>
      obtain ⟨m, r⟩ := pr2
      rw [subPat_match hm]
      simp [nodigHead, hp0]
    | none =>
      rw [subPat_cons, hm]
      exact hs

theorem takeWhile_dot (X : List Char) : ('.' :: X).takeWhile isDig = [] := by
  rw [List.takeWhile_cons, (by decide : isDig '.' = false)]
  simp

theorem dropWhile_dot (X : List Char) : ('.' :: X).dropWhile isDig = '.' :: X := by
  rw [List.dropWhile_cons, (by decide : isDig '.' = false)]
  simp

theorem verStages_one (s A : List Char) (hA : s.takeWhile isDig = A)
    (hAne : A ≠ []) : verStages 1 s = some (A, s.dropWhile isDig) := by
  simp only [verStages, hA]
  rw [if_neg hAne]

theorem verStages_step (j : Nat) (s A s2 : List Char)
    (hA : s.takeWhile isDig = A) (hAne : A ≠ [])
    (hd : s.dropWhile isDig = '.' :: s2) :
    verStages (j + 2) s =
      match verStages (j + 1) s2 with
      | some (m, r) => some (A ++ '.' :: m, r)
      | none => none := by
  simp only [verStages, hA, hd]
  rw [if_neg hAne]

theorem verStages_stop (j : Nat) (s A : List Char)
    (hA : s.takeWhile isDig = A) (hAne : A ≠ [])
    (hd : ∀ c t, s.dropWhile isDig = c :: t → c ≠ '.') :
    verStages (j + 2) s = none := by
  simp only [verStages, hA]
  rw [if_neg hAne]
  cases hdd : s.dropWhile isDig with
  | nil => rfl
  | cons c t =>
    have hc := hd c t hdd
    split
    · rename_i s2 heq
      exact absurd (List.cons.injEq .. ▸ heq).1 hc
    · rfl

theorem verStages_empty_run (j : Nat) (s : List Char)
    (hA : s.takeWhile isDig = []) : verStages (j + 1) s = none := by
  cases j with
  | zero => simp [verStages, hA]
  | succ j2 =>
    have : j2 + 1 + 1 = j2 + 2 := rfl
    rw [this]
    simp [verStages, hA]

/-- Entering a full version body with at most three runs still to match
always succeeds. -/
theorem verStages_into_VD :
    ∀ k, 1 ≤ k → k ≤ 3 → ∀ W r, VD 3 W → nodigHead r = true →
    (verStages k (W ++ r)).isSome = true := by
  intro k hk1 hk3 W r hW hr
  obtain ⟨A, m2, hA, hAdig, hvd2, hsplit⟩ := hW
  obtain ⟨B, m3, hB, hBdig, hvd1, hsplit2⟩ := hvd2
  obtain ⟨hC, hCdig⟩ := hvd1
  have hW1 : W ++ r = A ++ ('.' :: (m2 ++ r)) := by rw [hsplit]; simp
  have hm21 : m2 ++ r = B ++ ('.' :: (m3 ++ r)) := by rw [hsplit2]; simp
  have htA : (W ++ r).takeWhile isDig = A := by
    rw [hW1, takeWhile_append_of_all hAdig, takeWhile_dot]
    simp
  have hdA : (W ++ r).dropWhile isDig = '.' :: (m2 ++ r) := by
    rw [hW1, dropWhile_append_of_all hAdig, dropWhile_dot]
  have htB : (m2 ++ r).takeWhile isDig = B := by
    rw [hm21, takeWhile_append_of_all hBdig, takeWhile_dot]
    simp
  have hdB : (m2 ++ r).dropWhile isDig = '.' :: (m3 ++ r) := by
    rw [hm21, dropWhile_append_of_all hBdig, dropWhile_dot]
  have htC : (m3 ++ r).takeWhile isDig = m3 := by
    rw [takeWhile_append_of_all hCdig, nodig_takeWhile_nil hr]
    simp
  have hk : k = 1 ∨ k = 2 ∨ k = 3 := by omega
  rcases hk with rfl | rfl | rfl
  · rw [verStages_one (W ++ r) A htA hA]
    rfl
  · rw [show (2 : Nat) = 0 + 2 from rfl, verStages_step 0 (W ++ r) A _ htA hA hdA]
    rw [verStages_one (m2 ++ r) B htB hB]
    rfl
  · rw [show (3 : Nat) = 1 + 2 from rfl, verStages_step 1 (W ++ r) A _ htA hA hdA]
    rw [show (1 : Nat) + 1 = 0 + 2 from rfl, verStages_step 0 (m2 ++ r) B _ htB hB hdB]
    rw [verStages_one (m3 ++ r) m3 htC hC]
    rfl

/-- Success of the staged matcher is uniform in the version body it runs
into: only the run/dot skeleton matters, not the individual digits. -/
theorem verStages_uniform :
    ∀ n q, q.length ≤ n →
    (q = [] ∨ ∃ L, q.getLast? = some L ∧ isDig L = false) →
    ∀ k, 1 ≤ k → k ≤ 3 →
    ∀ W r W2 r2, VD 3 W → VD 3 W2 → nodigHead r = true → nodigHead r2 = true →
    (verStages k (q ++ (W ++ r))).isSome =
      (verStages k (q ++ (W2 ++ r2))).isSome := by
  intro n
  induction n with
  | zero =>
    intro q hlen hq k hk1 hk3 W r W2 r2 hW hW2 hr hr2
    have hq0 : q = [] := List.length_eq_zero.mp (Nat.le_zero.mp hlen)
    subst hq0
    simp only [List.nil_append]
    rw [verStages_into_VD k hk1 hk3 W r hW hr,
      verStages_into_VD k hk1 hk3 W2 r2 hW2 hr2]
  | succ n ih =>
    intro q hlen hq k hk1 hk3 W r W2 r2 hW hW2 hr hr2
    cases q with
    | nil =>
      simp only [List.nil_append]
      rw [verStages_into_VD k hk1 hk3 W r hW hr,
        verStages_into_VD k hk1 hk3 W2 r2 hW2 hr2]
    | cons c0 q0 =>
      rcases hq with hq | ⟨L, hL, hLd⟩
      · exact absurd hq (by simp)
      have hqr : (c0 :: q0).dropWhile isDig ≠ [] := by
        intro h0
        have hall := List.dropWhile_eq_nil_iff.mp h0
        have hLmem : L ∈ c0 :: q0 := List.mem_of_mem_getLast? hL
        have := hall L hLmem
        simp [this] at hLd
      cases hqrr : (c0 :: q0).dropWhile isDig with
      | nil => exact absurd hqrr hqr
      | cons h1 qt =>
        have hh1 : isDig h1 = false :=
          head_dropWhile_not isDig (c0 :: q0) h1 (by rw [hqrr]; rfl)
        have hQ : c0 :: q0 = (c0 :: q0).takeWhile isDig ++ (h1 :: qt) := by
          rw [← hqrr, List.takeWhile_append_dropWhile]
        have htail : ∀ Z : List Char, ((h1 :: qt) ++ Z).takeWhile isDig = [] := by
          intro Z
          rw [List.cons_append, List.takeWhile_cons, hh1]
          simp
        have htake : ∀ Z : List Char,
            ((c0 :: q0) ++ Z).takeWhile isDig = (c0 :: q0).takeWhile isDig := by
          intro Z
          conv_lhs => rw [hQ]
          rw [List.append_assoc, takeWhile_append_of_all (all_takeWhile _), htail]
          simp
        have hdrop : ∀ Z : List Char,
            ((c0 :: q0) ++ Z).dropWhile isDig = h1 :: (qt ++ Z) := by
          intro Z
          conv_lhs => rw [hQ]
          rw [List.append_assoc, dropWhile_append_of_all (all_takeWhile _)]
          rw [List.cons_append, List.dropWhile_cons, hh1]
          simp
        have hlt : qt.length ≤ n := by
          have hlq := congrArg List.length hQ
          simp only [List.length_cons, List.length_append] at hlq hlen
          omega
        have hqt : qt = [] ∨ ∃ L2, qt.getLast? = some L2 ∧ isDig L2 = false := by
          cases hqt0 : qt with
          | nil => exact Or.inl rfl
          | cons x xs =>
            refine Or.inr ⟨L, ?_, hLd⟩
            rw [← hqt0]
            have : (c0 :: q0).getLast? = qt.getLast? := by
              rw [hQ, List.getLast?_append_of_ne_nil _ (by simp),
                getLast?_cons_of_ne_nil _ _ (by rw [hqt0]; simp)]
            rw [← this, hL]
        by_cases hqd : (c0 :: q0).takeWhile isDig = []
        · have hk0 : k = (k - 1) + 1 := by omega
          rw [hk0, verStages_empty_run (k - 1) _ (by rw [htake]; exact hqd),
            verStages_empty_run (k - 1) _ (by rw [htake]; exact hqd)]
        · have hk : k = 1 ∨ k = 2 ∨ k = 3 := by omega
          rcases hk with rfl | rfl | rfl
          · rw [verStages_one _ _ (htake _) hqd, verStages_one _ _ (htake _) hqd]
            rfl
          · by_cases hdot : h1 = '.'
            · subst hdot
              rw [show (2 : Nat) = 0 + 2 from rfl,
                verStages_step 0 _ _ (qt ++ (W ++ r)) (htake _) hqd (hdrop _),
                verStages_step 0 _ _ (qt ++ (W2 ++ r2)) (htake _) hqd (hdrop _)]
              have hrec := ih qt hlt hqt 1 (by omega) (by omega) W r W2 r2 hW hW2 hr hr2
              cases ho1 : verStages 1 (qt ++ (W ++ r)) with
              | some p1 =>
                cases ho2 : verStages 1 (qt ++ (W2 ++ r2)) with
                | some p2 => rfl
                | none => rw [ho1, ho2] at hrec; simp at hrec
              | none =>
                cases ho2 : verStages 1 (qt ++ (W2 ++ r2)) with
                | some p2 => rw [ho1, ho2] at hrec; simp at hrec
                | none => rfl
            · rw [show (2 : Nat) = 0 + 2 from rfl,
                verStages_stop 0 _ _ (htake _) hqd
                  (by intro c t hct; rw [hdrop] at hct;
                      exact (List.cons.injEq .. ▸ hct).1 ▸ hdot),
                verStages_stop 0 _ _ (htake _) hqd
                  (by intro c t hct; rw [hdrop] at hct;
                      exact (List.cons.injEq .. ▸ hct).1 ▸ hdot)]
          · by_cases hdot : h1 = '.'
            · subst hdot
              rw [show (3 : Nat) = 1 + 2 from rfl,
                verStages_step 1 _ _ (qt ++ (W ++ r)) (htake _) hqd (hdrop _),
                verStages_step 1 _ _ (qt ++ (W2 ++ r2)) (htake _) hqd (hdrop _)]
              have hrec := ih qt hlt hqt 2 (by omega) (by omega) W r W2 r2 hW hW2 hr hr2
              cases ho1 : verStages 2 (qt ++ (W ++ r)) with
              | some p1 =>
                cases ho2 : verStages 2 (qt ++ (W2 ++ r2)) with
                | some p2 => rfl
                | none => rw [ho1, ho2] at hrec; simp at hrec
              | none =>
                cases ho2 : verStages 2 (qt ++ (W2 ++ r2)) with
                | some p2 => rw [ho1, ho2] at hrec; simp at hrec
                | none => rfl
            · rw [show (3 : Nat) = 1 + 2 from rfl,
                verStages_stop 1 _ _ (htake _) hqd
                  (by intro c t hct; rw [hdrop] at hct;
                      exact (List.cons.injEq .. ▸ hct).1 ▸ hdot),
                verStages_stop 1 _ _ (htake _) hqd
                  (by intro c t hct; rw [hdrop] at hct;
                      exact (List.cons.injEq .. ▸ hct).1 ▸ hdot)]

/-- Swapping one version block (together with the text after it) for
another cannot create a match of a digit-free literal pattern where none
existed. -/
theorem matchPat_none_transfer (pre1 pre2 : List Char)
    (hp1chars : ∀ x ∈ pre1, isDig x = false)
    (hp2ne : pre2 ≠ []) (L0 : Char)
    (hp2last : pre2.getLast? = some L0) (hp2ld : isDig L0 = false)
    (q W r W2 r2 : List Char) (hW : VD 3 W) (hW2 : VD 3 W2)
    (hr : nodigHead r = true) (hr2 : nodigHead r2 = true)
    (h : matchPat pre1 ((q ++ pre2) ++ (W ++ r)) = none) :
    matchPat pre1 ((q ++ pre2) ++ (W2 ++ r2)) = none := by
  by_cases hpref : pre1.isPrefixOf ((q ++ pre2) ++ (W2 ++ r2))
  · by_cases hlen : pre1.length ≤ (q ++ pre2).length
    · have htk : ((q ++ pre2) ++ (W ++ r)).take pre1.length =
          ((q ++ pre2) ++ (W2 ++ r2)).take pre1.length := by
        rw [List.take_append_of_le_length hlen, List.take_append_of_le_length hlen]
      have hpref1 : pre1.isPrefixOf ((q ++ pre2) ++ (W ++ r)) := by
        rw [List.isPrefixOf_iff_prefix] at hpref ⊢
        rw [List.prefix_iff_eq_take] at hpref ⊢
        rw [htk]
        exact hpref
      simp only [matchPat] at h ⊢
      rw [if_pos hpref1] at h
      rw [if_pos hpref]
      have hdr : ∀ Z : List Char, ((q ++ pre2) ++ Z).drop pre1.length =
          ((q ++ pre2).drop pre1.length) ++ Z := by
        intro Z
        rw [List.drop_append_eq_append_drop, Nat.sub_eq_zero_of_le hlen,
          List.drop_zero]
      rw [hdr] at h
      rw [hdr]
      have hside : (q ++ pre2).drop pre1.length = [] ∨
          ∃ L, ((q ++ pre2).drop pre1.length).getLast? = some L ∧
            isDig L = false := by
        by_cases hdq : (q ++ pre2).drop pre1.length = []
        · exact Or.inl hdq
        · refine Or.inr ⟨L0, ?_, hp2ld⟩
          have h1 : (q ++ pre2).getLast? =
              ((q ++ pre2).drop pre1.length).getLast? := by
            conv_lhs => rw [← List.take_append_drop pre1.length (q ++ pre2)]
            rw [List.getLast?_append_of_ne_nil _ hdq]
          rw [← h1, List.getLast?_append_of_ne_nil _ hp2ne, hp2last]
      have hu := verStages_uniform ((q ++ pre2).drop pre1.length).length
        ((q ++ pre2).drop pre1.length) (le_refl _) hside 3 (by omega) (by omega)
        W r W2 r2 hW hW2 hr hr2
      cases hv : verStages 3 ((q ++ pre2).drop pre1.length ++ (W ++ r)) with
      | some p =>
        rw [hv] at h
        exact absurd h (by simp)
      | none =>
        cases hv2 : verStages 3 ((q ++ pre2).drop pre1.length ++ (W2 ++ r2)) with
        | some p2 =>
          rw [hv, hv2] at hu
          simp at hu
        | none => rfl
    · exfalso
      obtain ⟨d, t, hWd, hdig⟩ := VD_head 3 W2 (by omega) hW2
      have hidx : ((q ++ pre2) ++ (W2 ++ r2))[(q ++ pre2).length]? = some d := by
        rw [List.getElem?_append_right (le_refl _), Nat.sub_self]
        rw [hWd]
        simp
      have hpl := List.isPrefixOf_iff_prefix.mp hpref
      obtain ⟨t2, ht2⟩ := hpl
      have hlt : (q ++ pre2).length < pre1.length := by omega
      have hpe : pre1[(q ++ pre2).length]? = some d := by
        rw [show pre1[(q ++ pre2).length]? =
            (pre1 ++ t2)[(q ++ pre2).length]? from by
          rw [List.getElem?_append, if_pos hlt]]
        rw [ht2, hidx]
      have hmem : d ∈ pre1 := List.getElem?_mem hpe
      have := hp1chars d hmem
      rw [this] at hdig
      exact absurd hdig (by simp)
  · simp only [matchPat]
    rw [if_neg hpref]

/-- Substituting in the tail cannot create a head match of a digit-free
literal pattern. -/
theorem matchPat_none_sub (pre1 pre2 V : List Char)
    (hp1chars : ∀ x ∈ pre1, isDig x = false)
    (hp2ne : pre2 ≠ []) (L0 : Char)
    (hp2last : pre2.getLast? = some L0) (hp2ld : isDig L0 = false)
    (p20 : Char) (p2r : List Char) (hp2 : pre2 = p20 :: p2r)
    (hp20 : isDig p20 = false) (hV : VD 3 V) :
    ∀ n s t, s.length ≤ n → matchPat pre1 (t ++ s) = none →
    matchPat pre1 (t ++ subPat pre2 (pre2 ++ V) s) = none := by
  intro n
  induction n with
  | zero =>
    intro s t hlen h
    have hs0 : s = [] := List.length_eq_zero.mp (Nat.le_zero.mp hlen)
    subst hs0
    exact h
  | succ n ih =>
    intro s t hlen h
    cases s with
    | nil => exact h
    | cons c cs =>
      cases hm : matchPat pre2 (c :: cs) with
      | none =>
        rw [subPat_cons, hm]
        have hrec := ih cs (t ++ [c])
          (by simp only [List.length_cons] at hlen; omega)
          (by simpa using h)
        simpa using hrec
      | some pr =>
        obtain ⟨m, r⟩ := pr
        obtain ⟨hsplit, ⟨W, hmW, hWvd⟩, hrn⟩ := matchPat_sound hm
        rw [subPat_match hm]
        have hnodig := subPat_nodigHead p20 p2r V hp20 r hrn
        rw [← hp2] at hnodig
        have hgoal : t ++ ((pre2 ++ V) ++ subPat pre2 (pre2 ++ V) r) =
            (t ++ pre2) ++ (V ++ subPat pre2 (pre2 ++ V) r) := by simp
        rw [hgoal]
        have hX : t ++ (c :: cs) = (t ++ pre2) ++ (W ++ r) := by
          rw [hsplit, hmW]
          simp
        rw [hX] at h
        exact matchPat_none_transfer pre1 pre2 hp1chars hp2ne L0 hp2last hp2ld
          t W r V (subPat pre2 (pre2 ++ V) r) hWvd hV hrn hnodig h

theorem NoBad_suffix {pre V s s2 : List Char} (h : NoBad pre V s)
    (hs : s2 <:+ s) : NoBad pre V s2 :=
  fun y m r hy hm => h y m r (hy.trans hs) hm

theorem NoBad_nil (pre V : List Char) : NoBad pre V [] := by
  intro y m r hy hm
  rw [List.suffix_nil.mp hy] at hm
  obtain ⟨hsplit, hne⟩ := matchPat_consume hm
  cases m with
  | nil => exact absurd rfl hne
  | cons _ _ => simp at hsplit

theorem matchPat_head {p0 : Char} {pr y m r : List Char}
    (h : matchPat (p0 :: pr) y = some (m, r)) :
    ∃ t, y = p0 :: t := by
  obtain ⟨hsplit, ⟨m2, hm2, _⟩, _⟩ := matchPat_sound h
  refine ⟨pr ++ m2 ++ r, ?_⟩
  rw [hsplit, hm2]
  simp

theorem searchPat_of_suffix (pre : List Char) :
    ∀ s y, y <:+ s → ∀ m r, matchPat pre y = some (m, r) →
      searchPat pre s = true := by
  intro s
  induction s with
  | nil =>
    intro y hy m r hm
    rw [List.suffix_nil.mp hy] at hm
    obtain ⟨hsplit, hne⟩ := matchPat_consume hm
    cases m with
    | nil => exact absurd rfl hne
    | cons _ _ => simp at hsplit
  | cons c cs ih =>
    intro y hy m r hm
    rcases List.suffix_cons_iff.mp hy with rfl | h2
    · simp [searchPat, hm]
    · simp [searchPat, ih y h2 m r hm]

theorem search_false_NoBad {pre s : List Char} (V : List Char)
    (h : searchPat pre s = false) : NoBad pre V s := by
  intro y m r hy hm
  rw [searchPat_of_suffix pre s y hy m r hm] at h
  exact absurd h (by simp)

/-- A `NoBad` text is a fixpoint of the substitution. -/
theorem NoBad_fix (pre V : List Char) :
    ∀ n s, s.length ≤ n → NoBad pre V s → subPat pre (pre ++ V) s = s := by
  intro n
  induction n with
  | zero =>
    intro s hlen _
    rw [List.length_eq_zero.mp (Nat.le_zero.mp hlen)]
    rfl
  | succ n ih =>
    intro s hlen hnb
    cases s with
    | nil => rfl
    | cons c cs =>
      cases hm : matchPat pre (c :: cs) with
      | none =>
        rw [subPat_cons, hm]
        have hcs := ih cs (by simp only [List.length_cons] at hlen; omega)
          (NoBad_suffix hnb (List.suffix_cons c cs))
        rw [hcs]
      | some pr2 =>
        obtain ⟨m, r⟩ := pr2
        have hcanon := hnb (c :: cs) m r (List.suffix_refl _) hm
        obtain ⟨hsplit, hne⟩ := matchPat_consume hm
        have hr : NoBad pre V r := NoBad_suffix hnb ⟨m, hsplit.symm⟩
        have hlr : r.length ≤ n := by
          have hh := congrArg List.length hsplit
          cases m with
          | nil => exact absurd rfl hne
          | cons _ _ =>
            simp only [List.length_cons, List.length_append] at hh hlen
            omega
        rw [subPat_match hm, ih r hlr hr, ← hcanon, ← hsplit]

theorem pre_no_straddle (pre : List Char)
    (hchars : ∀ x ∈ pre, isDig x = false)
    (b V X rest : List Char) (hblen : b.length < pre.length)
    (d : Char) (t : List Char) (hV : V = d :: t) (hd : isDig d = true)
    (heq : b ++ (V ++ X) = pre ++ rest) : False := by
  have h1 : (b ++ (V ++ X))[b.length]? = some d := by
    rw [List.getElem?_append_right (le_refl _), Nat.sub_self, hV]
    simp
  rw [heq] at h1
  rw [show (pre ++ rest)[b.length]? = pre[b.length]? from by
    rw [List.getElem?_append, if_pos hblen]] at h1
  have hmem : d ∈ pre := List.getElem?_mem h1
  rw [hchars d hmem] at hd
  exact absurd hd (by simp)

/-- Canonicity of substitution output: every residual match in the output
matches exactly the replacement. -/
theorem NoBad_subPat (p0 : Char) (pr V : List Char)
    (hchars : ∀ x ∈ p0 :: pr, isDig x = false ∧ x ≠ '.')
    (hV : VD 3 V) :
    ∀ n s, s.length ≤ n →
      NoBad (p0 :: pr) V (subPat (p0 :: pr) ((p0 :: pr) ++ V) s) := by
  intro n
  induction n with
  | zero =>
    intro s hlen
    rw [List.length_eq_zero.mp (Nat.le_zero.mp hlen)]
    exact NoBad_nil _ _
  | succ n ih =>
    intro s hlen
    cases s with
    | nil => exact NoBad_nil _ _
    | cons c cs =>
      cases hm : matchPat (p0 :: pr) (c :: cs) with
      | none =>
        have hout : subPat (p0 :: pr) ((p0 :: pr) ++ V) (c :: cs) =
            c :: subPat (p0 :: pr) ((p0 :: pr) ++ V) cs := by
          rw [subPat_cons, hm]
        rw [hout]
        intro y m2 r2 hy hm2
        rcases List.suffix_cons_iff.mp hy with rfl | h2
        · exfalso
          have hL : ∃ L, (p0 :: pr).getLast? = some L ∧ isDig L = false := by
            cases hgl : (p0 :: pr).getLast? with
            | none => simp at hgl
            | some L =>
              exact ⟨L, rfl, (hchars L (List.mem_of_mem_getLast? hgl)).1⟩
          obtain ⟨L, hL1, hL2⟩ := hL
          have hnone := matchPat_none_sub (p0 :: pr) (p0 :: pr) V
            (fun x hx => (hchars x hx).1) (by simp) L hL1 hL2 p0 pr rfl
            (hchars p0 (by simp)).1 hV cs.length cs [c] (le_refl _)
            (by simpa using hm)
          rw [show ([c] : List Char) ++ subPat (p0 :: pr) ((p0 :: pr) ++ V) cs =
            c :: subPat (p0 :: pr) ((p0 :: pr) ++ V) cs from by simp] at hnone
          rw [hnone] at hm2
          simp at hm2
        · exact ih cs (by simp only [List.length_cons] at hlen; omega) y m2 r2 h2 hm2
      | some pr2 =>
        obtain ⟨m, r⟩ := pr2
        obtain ⟨hsplit, ⟨W, hmW, hWvd⟩, hrn⟩ := matchPat_sound hm
        obtain ⟨_, hne⟩ := matchPat_consume hm
        rw [subPat_match hm]
        have hlr : r.length ≤ n := by
          have hh := congrArg List.length hsplit
          cases m with
          | nil => exact absurd rfl hne
          | cons _ _ =>
            simp only [List.length_cons, List.length_append] at hh hlen
            omega
        have ihr := ih r hlr
        intro y m2 r2 hy hm2
        rcases suffix_append_cases hy with h2 | ⟨a, ha, hane, rfl⟩
        · exact ihr y m2 r2 h2 hm2
        · rcases suffix_append_cases ha with h3 | ⟨b, hb, hbne, rfl⟩
          · exfalso
            cases a with
            | nil => exact absurd rfl hane
            | cons x a2 =>
              obtain ⟨t2, ht2⟩ := matchPat_head hm2
              rw [List.cons_append] at ht2
              have hx : p0 = x := (List.cons.injEq .. ▸ ht2.symm).1
              have hxV : x ∈ V := h3.subset (by simp)
              rcases VD_chars 3 V hV x hxV with hdig | hdot
              · rw [← hx, (hchars p0 (by simp)).1] at hdig
                exact absurd hdig (by simp)
              · rw [← hx] at hdot
                exact absurd hdot (hchars p0 (by simp)).2
          · by_cases hbp : b.length = (p0 :: pr).length
            · have hbeq : b = p0 :: pr := List.IsSuffix.eq_of_length hb hbp
              subst hbeq
              have hnodig : nodigHead
                  (subPat (p0 :: pr) ((p0 :: pr) ++ V) r) = true :=
                subPat_nodigHead p0 pr V (hchars p0 (by simp)).1 r hrn
              have hcomp := matchPat_complete (p0 :: pr) V
                (subPat (p0 :: pr) ((p0 :: pr) ++ V) r) hV hnodig
              rw [List.append_assoc, hcomp] at hm2
              exact ((Prod.mk.injEq .. ▸ (Option.some.injEq .. ▸ hm2)).1).symm
            · exfalso
              have hblt : b.length < (p0 :: pr).length :=
                lt_of_le_of_ne hb.length_le hbp
              obtain ⟨d, t, hVd, hdd⟩ := VD_head 3 V (by omega) hV
              obtain ⟨hsp2, ⟨m3, hm3, _⟩, _⟩ := matchPat_sound hm2
              refine pre_no_straddle (p0 :: pr) (fun x hx => (hchars x hx).1)
                b V (subPat (p0 :: pr) ((p0 :: pr) ++ V) r) (m3 ++ r2) hblt
                d t hVd hdd ?_
              calc b ++ (V ++ subPat (p0 :: pr) ((p0 :: pr) ++ V) r)
                  = (b ++ V) ++ subPat (p0 :: pr) ((p0 :: pr) ++ V) r := by
                    rw [List.append_assoc]
                _ = m2 ++ r2 := hsp2
                _ = ((p0 :: pr) ++ m3) ++ r2 := by rw [hm3]
                _ = (p0 :: pr) ++ (m3 ++ r2) := by rw [List.append_assoc]

theorem matchPat_v_none (x : Char) (T : List Char) (hx : x ≠ 'v') :
    matchPat pat2 (x :: T) = none := by
  simp only [matchPat]
  rw [if_neg ?hpre]
  case hpre =>
    intro hpre
    obtain ⟨t, ht⟩ := List.isPrefixOf_iff_prefix.mp hpre
    have hvx : 'v' = x := (List.cons.injEq .. ▸ (show 'v' :: t = x :: T from ht)).1
    exact hx hvx.symm

/-- Substitution passes over a region in which no match can start. -/
theorem subPat_skip_prefix (pre repl : List Char) :
    ∀ P X, (∀ b, b ≠ [] → b <:+ P → matchPat pre (b ++ X) = none) →
    subPat pre repl (P ++ X) = P ++ subPat pre repl X := by
  intro P
  induction P with
  | nil =>
    intro X _
    simp
  | cons c P2 ih =>
    intro X hno
    have hm : matchPat pre (c :: (P2 ++ X)) = none := by
      have := hno (c :: P2) (by simp) (List.suffix_refl _)
      rwa [List.cons_append] at this
    rw [show (c :: P2) ++ X = c :: (P2 ++ X) from rfl, subPat_cons, hm]
    rw [ih X (fun b hb hs => hno b hb (hs.trans (List.suffix_cons c P2)))]
    rfl

/-- Canonicity for the slash-qualified pattern is preserved by the
v-prefixed substitution. -/
theorem NoBad_pat1_sub2 (V : List Char) (hV : VD 3 V) :
    ∀ n s, s.length ≤ n → NoBad pat1 V s →
      NoBad pat1 V (subPat pat2 (pat2 ++ V) s) := by
  intro n
  induction n with
  | zero =>
    intro s hlen _
    rw [List.length_eq_zero.mp (Nat.le_zero.mp hlen)]
    exact NoBad_nil _ _
  | succ n ih =>
    intro s hlen hnb
    cases s with
    | nil => exact NoBad_nil _ _
    | cons c cs =>
      cases hm : matchPat pat2 (c :: cs) with
      | some pr2 =>
        obtain ⟨m, r⟩ := pr2
        obtain ⟨hsplit, ⟨W, hmW, hWvd⟩, hrn⟩ := matchPat_sound hm
        obtain ⟨_, hne⟩ := matchPat_consume hm
        rw [subPat_match hm]
        have hlr : r.length ≤ n := by
          have hh := congrArg List.length hsplit
          cases m with
          | nil => exact absurd rfl hne
          | cons _ _ =>
            simp only [List.length_cons, List.length_append] at hh hlen
            omega
        have ihr := ih r hlr (NoBad_suffix hnb ⟨m, hsplit.symm⟩)
        intro y m2 r2 hy hm2
        rcases suffix_append_cases hy with h2 | ⟨a, ha, hane, rfl⟩
        · exact ihr y m2 r2 h2 hm2
        · rcases suffix_append_cases ha with h3 | ⟨b, hb, hbne, rfl⟩
          · exfalso
            cases a with
            | nil => exact absurd rfl hane
            | cons x a2 =>
              obtain ⟨t2, ht2⟩ := matchPat_head
                (show matchPat ('c' :: "nanolog/".toList) _ = some (m2, r2) from hm2)
              rw [List.cons_append] at ht2
              have hx : x = 'c' := (List.cons.injEq .. ▸ ht2).1
              have hxV : x ∈ V := h3.subset (by simp)
              rcases VD_chars 3 V hV x hxV with hdig | hdot
              · rw [hx] at hdig
                exact absurd hdig (by decide)
              · rw [hx] at hdot
                exact absurd hdot (by decide)
          · exfalso
            have hb2 : b = ['v'] := by
              have hp2 : pat2 = ['v'] := rfl
              rw [hp2] at hb
              rcases List.suffix_cons_iff.mp hb with h4 | h4
              · exact h4
              · exact absurd (List.suffix_nil.mp h4) hbne
            subst hb2
            obtain ⟨t2, ht2⟩ := matchPat_head
              (show matchPat ('c' :: "nanolog/".toList) _ = some (m2, r2) from hm2)
            have hvc : 'v' = 'c' :=
              (List.cons.injEq .. ▸
                (show 'v' :: (V ++ subPat pat2 (pat2 ++ V) r) = 'c' :: t2 from ht2)).1
            exact absurd hvc (by decide)
      | none =>
        have hout : subPat pat2 (pat2 ++ V) (c :: cs) =
            c :: subPat pat2 (pat2 ++ V) cs := by
          rw [subPat_cons, hm]
        rw [hout]
        intro y m2 r2 hy hm2
        rcases List.suffix_cons_iff.mp hy with rfl | h2
        · cases hm1 : matchPat pat1 (c :: cs) with
          | none =>
            exfalso
            have hnone := matchPat_none_sub pat1 pat2 V
              (by decide) (by decide) 'v' (by decide) (by decide)
              'v' [] rfl (by decide) hV cs.length cs [c] (le_refl _)
              (by simpa using hm1)
            rw [show ([c] : List Char) ++ subPat pat2 (pat2 ++ V) cs =
              c :: subPat pat2 (pat2 ++ V) cs from by simp] at hnone
            rw [hnone] at hm2
            simp at hm2
          | some pr1 =>
            obtain ⟨m1, r1⟩ := pr1
            have hcanon := hnb (c :: cs) m1 r1 (List.suffix_refl _) hm1
            obtain ⟨hsplit1, _, hrn1⟩ := matchPat_sound hm1
            rw [hcanon] at hsplit1
            have hcc : c :: cs =
                'c' :: (("nanolog/".toList ++ V) ++ r1) := by
              rw [hsplit1]
              show (pat1 ++ V) ++ r1 = ('c' :: ("nanolog/".toList ++ V)) ++ r1
              rw [show pat1 ++ V = 'c' :: ("nanolog/".toList ++ V) from rfl]
            have hc : c = 'c' := (List.cons.injEq .. ▸ hcc).1
            have hcs : cs = ("nanolog/".toList ++ V) ++ r1 :=
              (List.cons.injEq .. ▸ hcc).2
            have hskip : subPat pat2 (pat2 ++ V) cs =
                ("nanolog/".toList ++ V) ++ subPat pat2 (pat2 ++ V) r1 := by
              rw [hcs]
              refine subPat_skip_prefix pat2 (pat2 ++ V) _ r1 ?_
              intro b hbne hbs
              cases b with
              | nil => exact absurd rfl hbne
              | cons x b2 =>
                have hxmem : x ∈ "nanolog/".toList ++ V := hbs.subset (by simp)
                have hxv : x ≠ 'v' := by
                  rcases List.mem_append.mp hxmem with h5 | h5
                  · exact (by decide : ∀ x ∈ "nanolog/".toList, x ≠ 'v') x h5
                  · rcases VD_chars 3 V hV x h5 with hd | hd
                    · intro hxe
                      rw [hxe] at hd
                      exact absurd hd (by decide)
                    · intro hxe
                      rw [hxe] at hd
                      exact absurd hd (by decide)
                rw [List.cons_append]
                exact matchPat_v_none x (b2 ++ r1) hxv
            have hnodig : nodigHead (subPat pat2 (pat2 ++ V) r1) = true := by
              have := subPat_nodigHead 'v' [] V (by decide) r1 hrn1
              exact this
            rw [hc, hskip] at hm2
            rw [show ('c' : Char) :: (("nanolog/".toList ++ V) ++
                subPat pat2 (pat2 ++ V) r1) =
              ('c' :: "nanolog/".toList ++ V) ++
                subPat pat2 (pat2 ++ V) r1 from by simp] at hm2
            rw [List.append_assoc] at hm2
            have hcomp := matchPat_complete pat1 V
              (subPat pat2 (pat2 ++ V) r1) hV hnodig
            have hm2b : matchPat pat1
                (pat1 ++ (V ++ subPat pat2 (pat2 ++ V) r1)) = some (m2, r2) := hm2
            have hfin := hcomp.symm.trans hm2b
            exact ((Prod.mk.injEq .. ▸ (Option.some.injEq .. ▸ hfin)).1).symm
        · exact ih cs (by simp only [List.length_cons] at hlen; omega)
            (NoBad_suffix hnb (List.suffix_cons c cs)) y m2 r2 h2 hm2

/-- The final content of the two-rule documentation pass. -/
theorem docApply_fst_readme (v c : List Char) :
    (docApply (readmeRules v) c).1 =
      if searchPat pat2
          (if searchPat pat1 c then subPat pat1 (pat1 ++ v) c else c) = true
      then subPat pat2 (pat2 ++ v)
        (if searchPat pat1 c then subPat pat1 (pat1 ++ v) c else c)
      else (if searchPat pat1 c then subPat pat1 (pat1 ++ v) c else c) := by
  have hrepl1 : repl1 v = pat1 ++ v := rfl
  have hrepl2 : repl2 v = pat2 ++ v := rfl
  simp only [docApply, readmeRules, List.foldl_cons, List.foldl_nil, hrepl1,
    hrepl2]
  by_cases h1 : searchPat pat1 c
  · by_cases h2 : searchPat pat2 (subPat pat1 (pat1 ++ v) c) <;>
      simp [h1, h2]
  · by_cases h2 : searchPat pat2 c <;> simp [h1, h2]

/-- Both substitutions fix the output of the two-rule documentation pass. -/
theorem docApply_fix_readme (v c : List Char) (hv : VD 3 v) :
    subPat pat1 (repl1 v) (docApply (readmeRules v) c).1 =
      (docApply (readmeRules v) c).1 ∧
    subPat pat2 (repl2 v) (docApply (readmeRules v) c).1 =
      (docApply (readmeRules v) c).1 := by
  have hNBT1 : NoBad pat1 v
      (if searchPat pat1 c then subPat pat1 (pat1 ++ v) c else c) := by
    by_cases h1 : searchPat pat1 c
    · rw [if_pos h1]
      exact NoBad_subPat 'c' "nanolog/".toList v (by decide) hv c.length c
        (le_refl _)
    · rw [if_neg h1]
      exact search_false_NoBad v (by simpa using h1)
  constructor
  · have hNBT : NoBad pat1 v (docApply (readmeRules v) c).1 := by
      rw [docApply_fst_readme]
      by_cases h2 : searchPat pat2
          (if searchPat pat1 c then subPat pat1 (pat1 ++ v) c else c)
      · rw [if_pos h2]
        exact NoBad_pat1_sub2 v hv _ _ (le_refl _) hNBT1
      · rw [if_neg h2]
        exact hNBT1
    show subPat pat1 (pat1 ++ v) _ = _
    exact NoBad_fix pat1 v _ _ (le_refl _) hNBT
  · have hNBT : NoBad pat2 v (docApply (readmeRules v) c).1 := by
      rw [docApply_fst_readme]
      by_cases h2 : searchPat pat2
          (if searchPat pat1 c then subPat pat1 (pat1 ++ v) c else c)
      · rw [if_pos h2]
        exact NoBad_subPat 'v' [] v (by decide) hv _ _ (le_refl _)
      · rw [if_neg h2]
        exact search_false_NoBad v (by simpa using h2)
    show subPat pat2 (pat2 ++ v) _ = _
    exact NoBad_fix pat2 v _ _ (le_refl _) hNBT

theorem docApply_fst_one (p R c : List Char) :
    (docApply [(p, R)] c).1 =
      if searchPat p c = true then subPat p R c else c := by
  simp only [docApply, List.foldl_cons, List.foldl_nil]
  by_cases h1 : searchPat p c <;> simp [h1]

/-- The slash-qualified substitution fixes the single-rule pass output. -/
theorem docApply_fix_conan (v c : List Char) (hv : VD 3 v) :
    subPat pat1 (repl1 v) (docApply (conanRules v) c).1 =
      (docApply (conanRules v) c).1 := by
  have hNBT : NoBad pat1 v (docApply (conanRules v) c).1 := by
    rw [show conanRules v = [(pat1, repl1 v)] from rfl, docApply_fst_one]
    by_cases h1 : searchPat pat1 c
    · rw [if_pos h1]
      show NoBad pat1 v (subPat pat1 (pat1 ++ v) c)
      exact NoBad_subPat 'c' "nanolog/".toList v (by decide) hv c.length c
        (le_refl _)
    · rw [if_neg h1]
      exact search_false_NoBad v (by simpa using h1)
  show subPat pat1 (pat1 ++ v) _ = _
  exact NoBad_fix pat1 v _ _ (le_refl _) hNBT

/-- The v-prefixed substitution fixes the single-rule pass output. -/
theorem docApply_fix_vcpkgMd (v c : List Char) (hv : VD 3 v) :
    subPat pat2 (repl2 v) (docApply (vcpkgMdRules v) c).1 =
      (docApply (vcpkgMdRules v) c).1 := by
  have hNBT : NoBad pat2 v (docApply (vcpkgMdRules v) c).1 := by
    rw [show vcpkgMdRules v = [(pat2, repl2 v)] from rfl, docApply_fst_one]
    by_cases h1 : searchPat pat2 c
    · rw [if_pos h1]
      show NoBad pat2 v (subPat pat2 (pat2 ++ v) c)
      exact NoBad_subPat 'v' [] v (by decide) hv c.length c (le_refl _)
    · rw [if_neg h1]
      exact search_false_NoBad v (by simpa using h1)
  show subPat pat2 (pat2 ++ v) _ = _
  exact NoBad_fix pat2 v _ _ (le_refl _) hNBT

theorem docApply_fst_fix_one (p1 R1 w : List Char)
    (h1 : subPat p1 R1 w = w) : (docApply [(p1, R1)] w).1 = w := by
  simp only [docApply, List.foldl_cons, List.foldl_nil]
  by_cases s1 : searchPat p1 w <;> simp [s1, h1]

theorem docApply_fst_fix_two (p1 R1 p2 R2 w : List Char)
    (h1 : subPat p1 R1 w = w) (h2 : subPat p2 R2 w = w) :
    (docApply [(p1, R1), (p2, R2)] w).1 = w := by
  simp only [docApply, List.foldl_cons, List.foldl_nil]
  by_cases s1 : searchPat p1 w <;> by_cases s2 : searchPat p2 w <;>
    simp [s1, s2, h1, h2]

/-- One per-file update pass makes the stored file a fixpoint of a second
pass, provided the content pass fixes its own output. -/
theorem updateDoc_twice_of_fix (rules : List (List Char × List Char))
    (o : Option (List Char))
    (hfixes : ∀ c : List Char,
      (docApply rules (docApply rules c).1).1 = (docApply rules c).1) :
    (updateDoc rules (updateDoc rules o).1).1 = (updateDoc rules o).1 := by
  cases o with
  | none => rfl
  | some c =>
    rw [updateDoc_some]
    by_cases hf : (docApply rules c).2
    · rw [if_pos hf]
      show (updateDoc rules (some (docApply rules c).1)).1 =
        some (docApply rules c).1
      rw [updateDoc_some]
      by_cases hf2 : (docApply rules (docApply rules c).1).2
      · rw [if_pos hf2]
        show some (docApply rules (docApply rules c).1).1 =
          some (docApply rules c).1
        exact congrArg some (hfixes c)
      · rw [if_neg hf2]
    · rw [if_neg hf]
      show (updateDoc rules (some c)).1 = some c
      rw [updateDoc_some, if_neg hf]

/-- A second full documentation pass leaves every document byte-identical. -/
theorem update_documentation_twice (v : List Char) (hv : VD 3 v) (fs : FS) :
    (update_documentation v (update_documentation v fs).1).1 =
      (update_documentation v fs).1 := by
  have hreadme := updateDoc_twice_of_fix (readmeRules v) fs.readme
    (fun c => by
      obtain ⟨h1, h2⟩ := docApply_fix_readme v c hv
      exact docApply_fst_fix_two pat1 (repl1 v) pat2 (repl2 v) _ h1 h2)
  have hconan := updateDoc_twice_of_fix (conanRules v) fs.conanMd
    (fun c => docApply_fst_fix_one pat1 (repl1 v) _ (docApply_fix_conan v c hv))
  have hvm := updateDoc_twice_of_fix (vcpkgMdRules v) fs.vcpkgMd
    (fun c => docApply_fst_fix_one pat2 (repl2 v) _ (docApply_fix_vcpkgMd v c hv))
  show ({ (update_documentation v fs).1 with
      readme := (updateDoc (readmeRules v) (update_documentation v fs).1.readme).1,
      conanMd := (updateDoc (conanRules v) (update_documentation v fs).1.conanMd).1,
      vcpkgMd := (updateDoc (vcpkgMdRules v) (update_documentation v fs).1.vcpkgMd).1 } : FS) =
    (update_documentation v fs).1
  have hr : (update_documentation v fs).1.readme =
      (updateDoc (readmeRules v) fs.readme).1 := rfl
  have hc : (update_documentation v fs).1.conanMd =
      (updateDoc (conanRules v) fs.conanMd).1 := rfl
  have hm : (update_documentation v fs).1.vcpkgMd =
      (updateDoc (vcpkgMdRules v) fs.vcpkgMd).1 := rfl
  rw [hr, hc, hm, hreadme, hconan, hvm, ← hr, ← hc, ← hm]

/-- The last character of a version body is a digit. -/
theorem VD_last : ∀ k m, 1 ≤ k → VD k m →
    ∃ L, m.getLast? = some L ∧ isDig L = true := by
  intro k
  induction k using Nat.strong_induction_on with
  | _ k ih =>
    intro m hk hm
    cases k with
    | zero => exact absurd hk (by omega)
    | succ k0 =>
      cases k0 with
      | zero =>
        obtain ⟨hne, hdig⟩ := hm
        cases m with
        | nil => exact absurd rfl hne
        | cons x xs =>
          cases hgl : (x :: xs).getLast? with
          | none => simp at hgl
          | some L =>
            exact ⟨L, rfl, hdig L (List.mem_of_mem_getLast? hgl)⟩
      | succ j =>
        obtain ⟨a, m2, hane, hdig, hvd, hsplit⟩ := hm
        obtain ⟨L, hL, hLd⟩ := ih (j + 1) (by omega) m2 (by omega) hvd
        obtain ⟨d, t, hm2d, _⟩ := VD_head (j + 1) m2 (by omega) hvd
        refine ⟨L, ?_, hLd⟩
        rw [hsplit, List.getLast?_append_of_ne_nil _ (by simp),
          getLast?_cons_of_ne_nil '.' m2 (by rw [hm2d]; simp)]
        exact hL

/-- Any character of a substring occurrence occurs in the text. -/
theorem hasSub_subset (needle : List Char) :
    ∀ l, hasSub needle l = true → ∀ x ∈ needle, x ∈ l := by
  intro l
  induction l with
  | nil =>
    intro h x hx
    have hp : needle.isPrefixOf [] = true := h
    obtain ⟨t, ht⟩ := List.isPrefixOf_iff_prefix.mp hp
    cases needle with
    | nil => simp at hx
    | cons _ _ => simp at ht
  | cons c cs ih =>
    intro h x hx
    rcases Bool.or_eq_true_iff.mp (h : (needle.isPrefixOf (c :: cs) ||
        hasSub needle cs) = true) with h2 | h2
    · exact (List.isPrefixOf_iff_prefix.mp h2).subset hx
    · exact List.mem_cons_of_mem c (ih h2 x hx)

/-- The fresh directive line never contains the indirection marker. -/
theorem markerIn_newRefLine (v : List Char)
    (hchars : ∀ x ∈ v, isDig x = true ∨ x = '.') :
    markerIn (newRefLine v) = false := by
  show hasSub marker (newRefLine v) = false
  cases hh : hasSub marker (newRefLine v) with
  | false => rfl
  | true =>
    exfalso
    have hd : ('$' : Char) ∈ newRefLine v :=
      hasSub_subset marker _ hh '$' (by decide)
    rcases List.mem_append.mp hd with hmem | hmem
    · exact absurd hmem (by decide)
    · rcases hchars '$' hmem with hdig | hdot
      · exact absurd hdig (by decide)
      · exact absurd hdot (by decide)

/-- Stripping the fresh directive line keeps the directive keyword at its
start. -/
theorem dirStart_newRefLine (v : List Char) (hvd : VD 3 v) :
    dirStart (newRefLine v) = true := by
  have h1 : (newRefLine v).dropWhile isPySpace = "REF v".toList ++ v := by
    rw [newRefLine,
      show "    REF v".toList = [' ', ' ', ' ', ' '] ++ "REF v".toList from
        by decide,
      List.append_assoc,
      dropWhile_append_of_all
        (by decide : ∀ x ∈ [' ', ' ', ' ', ' '], isPySpace x),
      show "REF v".toList ++ v = 'R' :: ("EF v".toList ++ v) from rfl,
      List.dropWhile_cons, (by decide : isPySpace 'R' = false)]
    simp
  have h2 : pyStrip (newRefLine v) = "REF v".toList ++ v := by
    rw [pyStrip_eq_rdropWhile, h1]
    apply List.rdropWhile_eq_self_iff.mpr
    intro hne
    obtain ⟨L, hL, hLd⟩ := VD_last 3 v (by omega) hvd
    have hvne : v ≠ [] := by
      intro h0
      rw [h0] at hL
      simp at hL
    have hgl : ("REF v".toList ++ v).getLast? = some L := by
      rw [List.getLast?_append_of_ne_nil _ hvne, hL]
    rw [List.getLast?_eq_getLast _ hne, Option.some.injEq] at hgl
    rw [hgl]
    intro hsp
    rw [isDig_not_space L hLd] at hsp
    exact absurd hsp (by simp)
  show "REF".toList.isPrefixOf (pyStrip (newRefLine v)) = true
  rw [h2]
  exact List.isPrefixOf_iff_prefix.mpr ⟨' ' :: 'v' :: v, rfl⟩

/-- Inversion of the line scan: a write is either the no-op fallthrough or
the replacement of the first directive line. -/
theorem portLoop_write_inv (v : List Char) : ∀ ls ls2 o,
    portLoop v ls = .write ls2 o →
    (o = .noOpNoMatch ∧ ls2 = ls ∧
      ∀ l ∈ ls, markerIn l = false ∧ dirStart l = false) ∨
    (o = .updated ∧ ∃ a l0 rest, ls = a ++ l0 :: rest ∧
      ls2 = a ++ newRefLine v :: rest ∧
      (∀ l ∈ a, markerIn l = false ∧ dirStart l = false) ∧
      markerIn l0 = false ∧ dirStart l0 = true) := by
  intro ls
  induction ls with
  | nil =>
    intro ls2 o h
    rw [show portLoop v [] = .write [] .noOpNoMatch from by simp [portLoop]] at h
    obtain ⟨h3, h4⟩ := PortAct.write.injEq .. ▸ h.symm
    exact Or.inl ⟨h4, h3, by simp⟩
  | cons l ls ih =>
    intro ls2 o h
    by_cases hm : markerIn l
    · rw [show portLoop v (l :: ls) = .skip from by
        simp [portLoop, hm]] at h
      exact absurd h (by simp)
    · by_cases hd : dirStart l
      · rw [show portLoop v (l :: ls) = .write (newRefLine v :: ls) .updated from by
          simp [portLoop, hm, hd]] at h
        obtain ⟨h3, h4⟩ := PortAct.write.injEq .. ▸ h
        refine Or.inr ⟨h4.symm, [], l, ls, by simp, by simp [h3.symm], by simp,
          by simpa using hm, hd⟩
      · have hstep : portLoop v (l :: ls) =
            match portLoop v ls with
            | .skip => .skip
            | .write ls3 o3 => .write (l :: ls3) o3 := by
          simp [portLoop, hm, hd]
        cases hrec : portLoop v ls with
        | skip =>
          rw [hstep, hrec] at h
          exact absurd h (by simp)
        | write ls3 o3 =>
          rw [hstep, hrec] at h
          obtain ⟨h3, h4⟩ := PortAct.write.injEq .. ▸ h
          rcases ih ls3 o3 hrec with ⟨ho, hls, hall⟩ | ⟨ho, a, l0, rest, hsA, hsB, hA, hB, hC⟩
          · refine Or.inl ⟨by rw [← h4, ho], ?_, ?_⟩
            · rw [← h3, hls]
            · intro x hx
              rcases List.mem_cons.mp hx with rfl | hx
              · exact ⟨by simpa using hm, by simpa using hd⟩
              · exact hall x hx
          · refine Or.inr ⟨by rw [← h4, ho], l :: a, l0, rest, by rw [hsA]; simp,
              by rw [← h3, hsB]; simp, ?_, hB, hC⟩
            intro x hx
            rcases List.mem_cons.mp hx with rfl | hx
            · exact ⟨by simpa using hm, by simpa using hd⟩
            · exact hA x hx

/-- Rescanning after the replacement finds the same directive line and
rewrites it identically. -/
theorem portLoop_updated_again (v : List Char) (rest : List (List Char))
    (hmark : markerIn (newRefLine v) = false)
    (hdir : dirStart (newRefLine v) = true) :
    ∀ a, (∀ l ∈ a, markerIn l = false ∧ dirStart l = false) →
    portLoop v (a ++ newRefLine v :: rest) =
      .write (a ++ newRefLine v :: rest) .updated := by
  intro a
  induction a with
  | nil =>
    intro _
    simp [portLoop, hmark, hdir]
  | cons l a2 ih =>
    intro ha
    have hl := ha l (by simp)
    rw [List.cons_append,
      show portLoop v (l :: (a2 ++ newRefLine v :: rest)) =
        match portLoop v (a2 ++ newRefLine v :: rest) with
        | .skip => .skip
        | .write ls3 o3 => .write (l :: ls3) o3 from by
        simp [portLoop, hl.1, hl.2]]
    rw [ih (fun x hx => ha x (by simp [hx]))]

/-- An early `return` of the scan means some line contains the marker and is
preceded only by lines that neither contain the marker nor start (after
stripping) with `REF`. -/
theorem portLoop_skip_inv (v : List Char) : ∀ ls : List (List Char),
    portLoop v ls = .skip →
    ∃ a m rest, ls = a ++ m :: rest ∧
      (∀ l ∈ a, markerIn l = false ∧ dirStart l = false) ∧
      markerIn m = true := by
  intro ls
  induction ls with
  | nil =>
    intro h
    exact absurd h (by simp [portLoop])
  | cons l ls ih =>
    intro h
    by_cases hm : markerIn l
    · exact ⟨[], l, ls, by simp, by simp, hm⟩
    · by_cases hd : dirStart l
      · rw [show portLoop v (l :: ls) = .write (newRefLine v :: ls) .updated from by
          simp [portLoop, hm, hd]] at h
        exact absurd h (by simp)
      · have hstep : portLoop v (l :: ls) =
            match portLoop v ls with
            | .skip => .skip
            | .write ls3 o3 => .write (l :: ls3) o3 := by
          simp [portLoop, hm, hd]
        cases hrec : portLoop v ls with
        | skip =>
          obtain ⟨a, m, rest, h1, h2, h3⟩ := ih hrec
          refine ⟨l :: a, m, rest, by rw [h1]; rfl, ?_, h3⟩
          intro x hx
          rcases List.mem_cons.mp hx with rfl | hx
          · exact ⟨by simpa using hm, by simpa using hd⟩
          · exact h2 x hx
        | write ls3 o3 =>
          rw [hstep, hrec] at h
          exact absurd h (by simp)

/-- A marker-free directive line preceded only by uninteresting lines is
replaced by the fresh directive line, whatever follows it. -/
theorem portLoop_dir_first (v l0 : List Char) (rest : List (List Char))
    (hm : markerIn l0 = false) (hd : dirStart l0 = true) :
    ∀ a, (∀ l ∈ a, markerIn l = false ∧ dirStart l = false) →
    portLoop v (a ++ l0 :: rest) =
      .write (a ++ newRefLine v :: rest) .updated := by
  intro a
  induction a with
  | nil =>
    intro _
    simp [portLoop, hm, hd]
  | cons l a2 ih =>
    intro ha
    have hl := ha l (by simp)
    rw [List.cons_append,
      show portLoop v (l :: (a2 ++ l0 :: rest)) =
        match portLoop v (a2 ++ l0 :: rest) with
        | .skip => .skip
        | .write ls3 o3 => .write (l :: ls3) o3 from by
        simp [portLoop, hl.1, hl.2]]
    rw [ih (fun x hx => ha x (by simp [hx]))]
    rfl

/-- C2 amended.  The indirection check runs first only per line within one
forward scan.  With a portfile present, the updater reports
`skipped-already-correct` with the filesystem unchanged precisely when some
line containing `REF v${VERSION}` is preceded only by lines that neither
contain the marker nor have trimmed content starting with `REF`; and when
the first such interesting line is instead a marker-free directive line,
that line is replaced by the fresh `    REF v<version>` line and the file
is written with outcome `updated`, even though the marker may still occur
on a later line. -/
theorem claim2_marker_precedence (v c : List Char) (fs : FS)
    (h : fs.portfile = some c) :
    (update_portfile_cmake v fs = (fs, .skippedAlreadyCorrect) ↔
      ∃ a m rest, splitNl c = a ++ m :: rest ∧
        (∀ l ∈ a, markerIn l = false ∧ dirStart l = false) ∧
        markerIn m = true) ∧
    (∀ a l0 rest, splitNl c = a ++ l0 :: rest →
      (∀ l ∈ a, markerIn l = false ∧ dirStart l = false) →
      markerIn l0 = false → dirStart l0 = true →
      update_portfile_cmake v fs =
        ({ fs with portfile := some (joinNl (a ++ newRefLine v :: rest)) },
         .updated)) := by
  constructor
  · constructor
    · intro heq
      cases hloop : portLoop v (splitNl c) with
      | skip =>
        exact portLoop_skip_inv v (splitNl c) hloop
      | write ls o =>
        exfalso
        have h2 : update_portfile_cmake v fs =
            ({ fs with portfile := some (joinNl ls) }, o) := by
          simp only [update_portfile_cmake, h]
          rw [hloop]
        rw [h2] at heq
        have ho : o = .skippedAlreadyCorrect := congrArg Prod.snd heq
        rcases portLoop_write_inv v _ _ _ hloop with ⟨ho2, _⟩ | ⟨ho2, _⟩ <;>
          rw [ho2] at ho <;> exact Outcome.noConfusion ho
    · rintro ⟨a, m, rest, hsplit, ha, hm⟩
      simp only [update_portfile_cmake, h, hsplit]
      rw [portLoop_skip v a m rest ha hm]
  · intro a l0 rest hsplit ha hm0 hd0
    simp only [update_portfile_cmake, h, hsplit]
    rw [portLoop_dir_first v l0 rest hm0 hd0 a ha]

/-- Witness for the amended C2, both clauses at concrete files: a comment
line precedes the marker line, so the updater skips with the file unchanged;
and a marker-free directive line precedes the marker line, so the directive
is rewritten and the file written as `updated` despite the later marker. -/
theorem claim2_marker_precedence_witness :
    (update_portfile_cmake "2.0.0".toList
      { emptyFS with
        portfile := some "# portfile\n    REF v${VERSION}\n    REF v1.0.0".toList } =
      ({ emptyFS with
         portfile := some "# portfile\n    REF v${VERSION}\n    REF v1.0.0".toList },
       .skippedAlreadyCorrect)) ∧
    (update_portfile_cmake "2.0.0".toList
      { emptyFS with
        portfile := some "REF v1.0.0\nREF v${VERSION}".toList } =
      ({ emptyFS with
         portfile := some "    REF v2.0.0\nREF v${VERSION}".toList },
       .updated)) :=
  ⟨(claim2_marker_precedence "2.0.0".toList _ _ rfl).1.mpr
      ⟨["# portfile".toList], "    REF v${VERSION}".toList,
       ["    REF v1.0.0".toList], by decide, by decide, by decide⟩,
   ((claim2_marker_precedence "2.0.0".toList _ _ rfl).2 []
      "REF v1.0.0".toList ["REF v${VERSION}".toList]
      (by decide) (by simp) (by decide) (by decide)).trans rfl⟩

/-- A second portfile pass leaves the stored file byte-identical. -/
theorem update_portfile_twice (v : List Char) (hvd : VD 3 v)
    (hchars : ∀ x ∈ v, isDig x = true ∨ x = '.') (fs : FS) :
    (update_portfile_cmake v (update_portfile_cmake v fs).1).1 =
      (update_portfile_cmake v fs).1 := by
  cases hpf : fs.portfile with
  | none =>
    have h1 : update_portfile_cmake v fs = (fs, .skippedMissing) := by
      simp [update_portfile_cmake, hpf]
    rw [h1]
    show (update_portfile_cmake v fs).1 = fs
    rw [h1]
  | some c =>
    cases hloop : portLoop v (splitNl c) with
    | skip =>
      have h1 : update_portfile_cmake v fs = (fs, .skippedAlreadyCorrect) := by
        simp only [update_portfile_cmake, hpf]
        rw [hloop]
      rw [h1]
      show (update_portfile_cmake v fs).1 = fs
      rw [h1]
    | write ls o =>
      have h1 : update_portfile_cmake v fs =
          ({ fs with portfile := some (joinNl ls) }, o) := by
        simp only [update_portfile_cmake, hpf]
        rw [hloop]
      rw [h1]
      show (update_portfile_cmake v
        { fs with portfile := some (joinNl ls) }).1 =
        { fs with portfile := some (joinNl ls) }
      rcases portLoop_write_inv v (splitNl c) ls o hloop with
        ⟨ho, hls, hall⟩ | ⟨ho, a, l0, rest, hsA, hsB, hA, hB, hC⟩
      · subst hls
        have hround : splitNl (joinNl (splitNl c)) = splitNl c :=
          splitNl_joinNl _ (splitNl_ne_nil c) (splitNl_no_newline c)
        have h2 : update_portfile_cmake v
            { fs with portfile := some (joinNl (splitNl c)) } =
            ({ fs with portfile := some (joinNl (splitNl c)) }, o) := by
          simp only [update_portfile_cmake]
          rw [hround, hloop]
        rw [h2]
      · have hnlv : ('\n' : Char) ∉ newRefLine v := by
          intro hmem
          rcases List.mem_append.mp hmem with h5 | h5
          · exact absurd h5 (by decide)
          · rcases hchars '\n' h5 with h6 | h6
            · exact absurd h6 (by decide)
            · exact absurd h6 (by decide)
        have hnl : ∀ l ∈ ls, '\n' ∉ l := by
          intro l hl
          rw [hsB] at hl
          rcases List.mem_append.mp hl with h5 | h5
          · exact splitNl_no_newline c l (by rw [hsA]; simp [h5])
          · rcases List.mem_cons.mp h5 with rfl | h5
            · exact hnlv
            · exact splitNl_no_newline c l (by rw [hsA]; simp [h5])
        have hne : ls ≠ [] := by
          rw [hsB]
          intro h0
          cases a <;> simp at h0
        have hround : splitNl (joinNl ls) = ls := splitNl_joinNl ls hne hnl
        have hloop2 : portLoop v ls = .write ls .updated := by
          rw [hsB]
          exact portLoop_updated_again v rest
            (markerIn_newRefLine v hchars) (dirStart_newRefLine v hvd) a hA
        have h2 : update_portfile_cmake v
            { fs with portfile := some (joinNl ls) } =
            ({ fs with portfile := some (joinNl ls) }, .updated) := by
          simp only [update_portfile_cmake]
          rw [hround, hloop2]
        rw [h2]

/-- Whatever `json.load` returns is well formed. -/
theorem parseJson_WF (c : List Char) (v : JVal)
    (h : parseJson c = some v) : WFJ v := by
  simp only [parseJson] at h
  split at h
  · rename_i v1 rest1 hpv
    split_ifs at h
    have hv1 : v1 = v := Option.some.injEq .. ▸ h
    rw [← hv1]
    exact (parse_WF_all (c.length + 1)).1 c v1 rest1 hpv
  · exact absurd h (by simp)

theorem fs_eta_version (fs : FS) (w : Option (List Char))
    (h : fs.version = w) : ({ fs with version := w } : FS) = fs := by
  cases fs
  simp only [] at h
  simp [h]

theorem fs_eta_vcpkg (fs : FS) (w : Option (List Char))
    (h : fs.vcpkg = w) : ({ fs with vcpkg := w } : FS) = fs := by
  cases fs
  simp only [] at h
  simp [h]

/-- The portfile pass fixes any state whose portfile equals a pass output. -/
theorem update_portfile_stable (v : List Char) (hvd : VD 3 v)
    (hchars : ∀ x ∈ v, isDig x = true ∨ x = '.') (Y X : FS)
    (hpf : X.portfile = (update_portfile_cmake v Y).1.portfile) :
    (update_portfile_cmake v X).1 = X := by
  cases hy : Y.portfile with
  | none =>
    have h1 : update_portfile_cmake v Y = (Y, .skippedMissing) := by
      simp [update_portfile_cmake, hy]
    rw [h1] at hpf
    have hx : X.portfile = none := by rw [hpf, hy]
    simp [update_portfile_cmake, hx]
  | some c =>
    cases hloop : portLoop v (splitNl c) with
    | skip =>
      have h1 : update_portfile_cmake v Y = (Y, .skippedAlreadyCorrect) := by
        simp only [update_portfile_cmake, hy]
        rw [hloop]
      rw [h1] at hpf
      rw [hy] at hpf
      have h2 : update_portfile_cmake v X = (X, .skippedAlreadyCorrect) := by
        simp only [update_portfile_cmake, hpf]
        rw [hloop]
      rw [h2]
    | write ls o =>
      have h1 : update_portfile_cmake v Y =
          ({ Y with portfile := some (joinNl ls) }, o) := by
        simp only [update_portfile_cmake, hy]
        rw [hloop]
      rw [h1] at hpf
      have hx : X.portfile = some (joinNl ls) := hpf
      rcases portLoop_write_inv v (splitNl c) ls o hloop with
        ⟨ho, hls, hall⟩ | ⟨ho, a, l0, rest, hsA, hsB, hA, hB, hC⟩
      · subst hls
        have hround : splitNl (joinNl (splitNl c)) = splitNl c :=
          splitNl_joinNl _ (splitNl_ne_nil c) (splitNl_no_newline c)
        have h2 : update_portfile_cmake v X =
            ({ X with portfile := some (joinNl (splitNl c)) }, o) := by
          simp only [update_portfile_cmake, hx]
          rw [hround, hloop]
        rw [h2]
        exact fs_eta_portfile X _ hx
      · have hnlv : ('\n' : Char) ∉ newRefLine v := by
          intro hmem
          rcases List.mem_append.mp hmem with h5 | h5
          · exact absurd h5 (by decide)
          · rcases hchars '\n' h5 with h6 | h6
            · exact absurd h6 (by decide)
            · exact absurd h6 (by decide)
        have hnl : ∀ l ∈ ls, '\n' ∉ l := by
          intro l hl
          rw [hsB] at hl
          rcases List.mem_append.mp hl with h5 | h5
          · exact splitNl_no_newline c l (by rw [hsA]; simp [h5])
          · rcases List.mem_cons.mp h5 with rfl | h5
            · exact hnlv
            · exact splitNl_no_newline c l (by rw [hsA]; simp [h5])
        have hne : ls ≠ [] := by
          rw [hsB]
          intro h0
          cases a <;> simp at h0
        have hround : splitNl (joinNl ls) = ls := splitNl_joinNl ls hne hnl
        have hloop2 : portLoop v ls = .write ls .updated := by
          rw [hsB]
          exact portLoop_updated_again v rest
            (markerIn_newRefLine v hchars) (dirStart_newRefLine v hvd) a hA
        have h2 : update_portfile_cmake v X =
            ({ X with portfile := some (joinNl ls) }, .updated) := by
          simp only [update_portfile_cmake, hx]
          rw [hround, hloop2]
        rw [h2]
        exact fs_eta_portfile X _ hx

/-- The documentation pass fixes any state whose documents equal a pass
output. -/
theorem update_documentation_stable (v : List Char) (hv : VD 3 v) (Y X : FS)
    (h1 : X.readme = (update_documentation v Y).1.readme)
    (h2 : X.conanMd = (update_documentation v Y).1.conanMd)
    (h3 : X.vcpkgMd = (update_documentation v Y).1.vcpkgMd) :
    (update_documentation v X).1 = X := by
  have hr : X.readme = (updateDoc (readmeRules v) Y.readme).1 := h1
  have hc : X.conanMd = (updateDoc (conanRules v) Y.conanMd).1 := h2
  have hm : X.vcpkgMd = (updateDoc (vcpkgMdRules v) Y.vcpkgMd).1 := h3
  have hfr : (updateDoc (readmeRules v) X.readme).1 = X.readme := by
    rw [hr]
    exact updateDoc_twice_of_fix (readmeRules v) Y.readme
      (fun c => by
        obtain ⟨hh1, hh2⟩ := docApply_fix_readme v c hv
        exact docApply_fst_fix_two pat1 (repl1 v) pat2 (repl2 v) _ hh1 hh2)
  have hfc : (updateDoc (conanRules v) X.conanMd).1 = X.conanMd := by
    rw [hc]
    exact updateDoc_twice_of_fix (conanRules v) Y.conanMd
      (fun c => docApply_fst_fix_one pat1 (repl1 v) _ (docApply_fix_conan v c hv))
  have hfm : (updateDoc (vcpkgMdRules v) X.vcpkgMd).1 = X.vcpkgMd := by
    rw [hm]
    exact updateDoc_twice_of_fix (vcpkgMdRules v) Y.vcpkgMd
      (fun c => docApply_fst_fix_one pat2 (repl2 v) _ (docApply_fix_vcpkgMd v c hv))
  show ({ X with
      readme := (updateDoc (readmeRules v) X.readme).1,
      conanMd := (updateDoc (conanRules v) X.conanMd).1,
      vcpkgMd := (updateDoc (vcpkgMdRules v) X.vcpkgMd).1 } : FS) = X
  rw [hfr, hfc, hfm]

/-- A full version string is version-shaped. -/
theorem fullVer_VD (v : List Char) (h : fullVer v = true) : VD 3 v := by
  simp only [fullVer] at h
  split at h
  · rename_i m r hvs
    have hr : r = [] := of_decide_eq_true h
    subst hr
    obtain ⟨hsplit, hnd, hvd⟩ := verStages_sound 2 v m [] hvs
    rw [show v = m from by simpa using hsplit]
    exact hvd
  · exact absurd h (by simp)

/-- C3.  With an accepted version and the manifest parseable when present,
running the engine twice yields final file contents byte-identical to one
run: the second run rewrites the directive line identically (or keeps the
marker skip), re-serializes the manifest to the same bytes, and every
documentation substitution fixes its own output. -/
theorem claim3_engine_idempotent (argv : List (List Char)) (fs : FS)
    (hargc : argv.length = 2)
    (hv : reMatchVer (pyStrip (argv.getD 1 [])) = true)
    (hman : fs.vcpkg = none ∨
      ∃ c m, fs.vcpkg = some c ∧ parseJson c = some (.obj m)) :
    (main argv (main argv fs).1).1 = (main argv fs).1 := by
  have hcond : ¬(argv.length ≠ 2) := not_not_intro hargc
  have hvv := hv
  rw [reMatchVer_strip] at hvv
  have hvd : VD 3 (pyStrip (argv.getD 1 [])) := fullVer_VD _ hvv
  have hch := fullVer_chars _ hvv
  have hunfold : ∀ X : FS, main argv X =
      match update_vcpkg_json (pyStrip (argv.getD 1 []))
          (update_version_file (pyStrip (argv.getD 1 [])) X).1 with
      | .error _ =>
        ((update_version_file (pyStrip (argv.getD 1 [])) X).1, .crashed)
      | .ok r2 =>
        ((update_documentation (pyStrip (argv.getD 1 []))
          (update_portfile_cmake (pyStrip (argv.getD 1 [])) r2.1).1).1,
         .ok) := by
    intro X
    simp only [main, if_neg hcond]
    rw [if_neg (not_not_intro hv)]
  rcases hman with hnone | ⟨c, m, hsome, hparse⟩
  · have hvc1 : update_vcpkg_json (pyStrip (argv.getD 1 []))
        (update_version_file (pyStrip (argv.getD 1 [])) fs).1 =
        .ok ((update_version_file (pyStrip (argv.getD 1 [])) fs).1,
          .skippedMissing) := by
      simp only [update_vcpkg_json, update_version_file, hnone]
    have h1 : main argv fs =
        ((update_documentation (pyStrip (argv.getD 1 []))
          (update_portfile_cmake (pyStrip (argv.getD 1 []))
            (update_version_file (pyStrip (argv.getD 1 [])) fs).1).1).1,
         .ok) := by
      rw [hunfold fs, hvc1]
    rw [h1]
    show (main argv (update_documentation (pyStrip (argv.getD 1 []))
      (update_portfile_cmake (pyStrip (argv.getD 1 []))
        (update_version_file (pyStrip (argv.getD 1 [])) fs).1).1).1).1 = _
    have hFv : (update_documentation (pyStrip (argv.getD 1 []))
        (update_portfile_cmake (pyStrip (argv.getD 1 []))
          (update_version_file (pyStrip (argv.getD 1 [])) fs).1).1).1.version =
        some (pyStrip (argv.getD 1 [])) := by
      rw [(update_documentation_frame _ _).1, (update_portfile_frame _ _).1]
      rfl
    have hFvc : (update_documentation (pyStrip (argv.getD 1 []))
        (update_portfile_cmake (pyStrip (argv.getD 1 []))
          (update_version_file (pyStrip (argv.getD 1 [])) fs).1).1).1.vcpkg =
        none := by
      rw [(update_documentation_frame _ _).2.1, (update_portfile_frame _ _).2.1]
      exact hnone
    have hFpf : (update_documentation (pyStrip (argv.getD 1 []))
        (update_portfile_cmake (pyStrip (argv.getD 1 []))
          (update_version_file (pyStrip (argv.getD 1 [])) fs).1).1).1.portfile =
        (update_portfile_cmake (pyStrip (argv.getD 1 []))
          (update_version_file (pyStrip (argv.getD 1 [])) fs).1).1.portfile :=
      (update_documentation_frame _ _).2.2
    have hv1F : (update_version_file (pyStrip (argv.getD 1 []))
        (update_documentation (pyStrip (argv.getD 1 []))
          (update_portfile_cmake (pyStrip (argv.getD 1 []))
            (update_version_file (pyStrip (argv.getD 1 [])) fs).1).1).1).1 =
        (update_documentation (pyStrip (argv.getD 1 []))
          (update_portfile_cmake (pyStrip (argv.getD 1 []))
            (update_version_file (pyStrip (argv.getD 1 [])) fs).1).1).1 :=
      fs_eta_version _ _ hFv
    have hvc2 : update_vcpkg_json (pyStrip (argv.getD 1 []))
        (update_version_file (pyStrip (argv.getD 1 []))
          (update_documentation (pyStrip (argv.getD 1 []))
            (update_portfile_cmake (pyStrip (argv.getD 1 []))
              (update_version_file (pyStrip (argv.getD 1 [])) fs).1).1).1).1 =
        .ok ((update_documentation (pyStrip (argv.getD 1 []))
          (update_portfile_cmake (pyStrip (argv.getD 1 []))
            (update_version_file (pyStrip (argv.getD 1 [])) fs).1).1).1,
          .skippedMissing) := by
      rw [hv1F]
      simp only [update_vcpkg_json, hFvc]
    rw [hunfold, hvc2]
    show (update_documentation (pyStrip (argv.getD 1 []))
      (update_portfile_cmake (pyStrip (argv.getD 1 []))
        (update_documentation (pyStrip (argv.getD 1 []))
          (update_portfile_cmake (pyStrip (argv.getD 1 []))
            (update_version_file (pyStrip (argv.getD 1 [])) fs).1).1).1).1).1 = _
    rw [update_portfile_stable (pyStrip (argv.getD 1 [])) hvd hch _ _ hFpf]
    exact update_documentation_stable (pyStrip (argv.getD 1 [])) hvd _ _
      rfl rfl rfl
  · have hwfm : WFJ (.obj m) := parseJson_WF c _ hparse
    have hWF : WFJ (JVal.obj (setKey m verKey
        (.str (pyStrip (argv.getD 1 []))))) :=
      ⟨setKey_nodup verKey (.str (pyStrip (argv.getD 1 []))) m hwfm.1,
       setKey_WFM verKey (.str (pyStrip (argv.getD 1 []))) trivial m hwfm.2⟩
    have hvc1 : update_vcpkg_json (pyStrip (argv.getD 1 []))
        (update_version_file (pyStrip (argv.getD 1 [])) fs).1 =
        .ok ({ (update_version_file (pyStrip (argv.getD 1 [])) fs).1 with
            vcpkg := some (dumpJson (.obj (setKey m verKey
              (.str (pyStrip (argv.getD 1 []))))) ++ ['\n']) },
          .updated) := by
      simp only [update_vcpkg_json, update_version_file, hsome, hparse]
    have h1 : main argv fs =
        ((update_documentation (pyStrip (argv.getD 1 []))
          (update_portfile_cmake (pyStrip (argv.getD 1 []))
            { (update_version_file (pyStrip (argv.getD 1 [])) fs).1 with
              vcpkg := some (dumpJson (.obj (setKey m verKey
                (.str (pyStrip (argv.getD 1 []))))) ++ ['\n']) }).1).1,
         .ok) := by
      rw [hunfold fs, hvc1]
    rw [h1]
    have hFv : (update_documentation (pyStrip (argv.getD 1 []))
        (update_portfile_cmake (pyStrip (argv.getD 1 []))
          { (update_version_file (pyStrip (argv.getD 1 [])) fs).1 with
            vcpkg := some (dumpJson (.obj (setKey m verKey
              (.str (pyStrip (argv.getD 1 []))))) ++ ['\n']) }).1).1.version =
        some (pyStrip (argv.getD 1 [])) := by
      rw [(update_documentation_frame _ _).1, (update_portfile_frame _ _).1]
      rfl
    have hFvc : (update_documentation (pyStrip (argv.getD 1 []))
        (update_portfile_cmake (pyStrip (argv.getD 1 []))
          { (update_version_file (pyStrip (argv.getD 1 [])) fs).1 with
            vcpkg := some (dumpJson (.obj (setKey m verKey
              (.str (pyStrip (argv.getD 1 []))))) ++ ['\n']) }).1).1.vcpkg =
        some (dumpJson (.obj (setKey m verKey
          (.str (pyStrip (argv.getD 1 []))))) ++ ['\n']) := by
      rw [(update_documentation_frame _ _).2.1, (update_portfile_frame _ _).2.1]
    have hFpf : (update_documentation (pyStrip (argv.getD 1 []))
        (update_portfile_cmake (pyStrip (argv.getD 1 []))
          { (update_version_file (pyStrip (argv.getD 1 [])) fs).1 with
            vcpkg := some (dumpJson (.obj (setKey m verKey
              (.str (pyStrip (argv.getD 1 []))))) ++ ['\n']) }).1).1.portfile =
        (update_portfile_cmake (pyStrip (argv.getD 1 []))
          { (update_version_file (pyStrip (argv.getD 1 [])) fs).1 with
            vcpkg := some (dumpJson (.obj (setKey m verKey
              (.str (pyStrip (argv.getD 1 []))))) ++ ['\n']) }).1.portfile :=
      (update_documentation_frame _ _).2.2
    have hparse2 : parseJson (dumpJson (.obj (setKey m verKey
        (.str (pyStrip (argv.getD 1 []))))) ++ ['\n']) =
        some (.obj (setKey m verKey (.str (pyStrip (argv.getD 1 []))))) :=
      dump_parseJson _ hWF
    have hv1F := fs_eta_version _ _ hFv
    have hvc2 : update_vcpkg_json (pyStrip (argv.getD 1 []))
        (update_version_file (pyStrip (argv.getD 1 []))
          (update_documentation (pyStrip (argv.getD 1 []))
            (update_portfile_cmake (pyStrip (argv.getD 1 []))
              { (update_version_file (pyStrip (argv.getD 1 [])) fs).1 with
                vcpkg := some (dumpJson (.obj (setKey m verKey
                  (.str (pyStrip (argv.getD 1 []))))) ++ ['\n']) }).1).1).1 =
        .ok ((update_documentation (pyStrip (argv.getD 1 []))
          (update_portfile_cmake (pyStrip (argv.getD 1 []))
            { (update_version_file (pyStrip (argv.getD 1 [])) fs).1 with
              vcpkg := some (dumpJson (.obj (setKey m verKey
                (.str (pyStrip (argv.getD 1 []))))) ++ ['\n']) }).1).1,
          .updated) := by
      rw [show (update_version_file (pyStrip (argv.getD 1 []))
          (update_documentation (pyStrip (argv.getD 1 []))
            (update_portfile_cmake (pyStrip (argv.getD 1 []))
              { (update_version_file (pyStrip (argv.getD 1 [])) fs).1 with
                vcpkg := some (dumpJson (.obj (setKey m verKey
                  (.str (pyStrip (argv.getD 1 []))))) ++ ['\n']) }).1).1).1 =
        (update_documentation (pyStrip (argv.getD 1 []))
          (update_portfile_cmake (pyStrip (argv.getD 1 []))
            { (update_version_file (pyStrip (argv.getD 1 [])) fs).1 with
              vcpkg := some (dumpJson (.obj (setKey m verKey
                (.str (pyStrip (argv.getD 1 []))))) ++ ['\n']) }).1).1 from hv1F]
      simp only [update_vcpkg_json, hFvc, hparse2]
      rw [setKey_setKey_self verKey (.str (pyStrip (argv.getD 1 []))) m]
      rw [fs_eta_vcpkg _ _ hFvc]
    show (main argv (update_documentation (pyStrip (argv.getD 1 []))
      (update_portfile_cmake (pyStrip (argv.getD 1 []))
        { (update_version_file (pyStrip (argv.getD 1 [])) fs).1 with
          vcpkg := some (dumpJson (.obj (setKey m verKey
            (.str (pyStrip (argv.getD 1 []))))) ++ ['\n']) }).1).1).1 = _
    rw [hunfold, hvc2]
    show (update_documentation (pyStrip (argv.getD 1 []))
      (update_portfile_cmake (pyStrip (argv.getD 1 []))
        (update_documentation (pyStrip (argv.getD 1 []))
          (update_portfile_cmake (pyStrip (argv.getD 1 []))
            { (update_version_file (pyStrip (argv.getD 1 [])) fs).1 with
              vcpkg := some (dumpJson (.obj (setKey m verKey
                (.str (pyStrip (argv.getD 1 []))))) ++ ['\n']) }).1).1).1).1 = _
    rw [update_portfile_stable (pyStrip (argv.getD 1 [])) hvd hch _ _ hFpf]
    exact update_documentation_stable (pyStrip (argv.getD 1 [])) hvd _ _
      rfl rfl rfl

/-- Witness for C3: a run with version `2.0.0` over the empty artifact set is
idempotent. -/
theorem claim3_engine_idempotent_witness :
    ([[], "2.0.0".toList] : List (List Char)).length = 2 ∧
    reMatchVer (pyStrip ([[], "2.0.0".toList].getD 1 [])) = true ∧
    (main [[], "2.0.0".toList] (main [[], "2.0.0".toList] emptyFS).1).1 =
      (main [[], "2.0.0".toList] emptyFS).1 :=
  ⟨rfl, by decide,
    claim3_engine_idempotent [[], "2.0.0".toList] emptyFS rfl (by decide)
      (Or.inl rfl)⟩

end CNanoLog
